import Mathlib

/-!
# A shallow embedding of the `ChessGame` class of `src/script.js`

The class keeps its state in mutable fields.  Here every method becomes a
function that takes the game state and returns the new state (together with
its result, when it has one).  Only what touches the rules engine is kept:
the DOM, sounds, timers and animation are left out, and a callback passed to
`animateMove` is taken to run right away.

Coordinates are JavaScript numbers and are embedded as `Int`: the code forms
`col - 2`, `row + direction` and the like before it tests any bound.
-/

namespace ChessGame

/-! ## Data model -/

inductive Color where
  | white
  | black
  deriving DecidableEq, Repr

inductive PieceType where
  | pawn
  | rook
  | knight
  | bishop
  | queen
  | king
  deriving DecidableEq, Repr

/-- A board entry `{ type, color }`. -/
structure Piece where
  type : PieceType
  color : Color
  deriving DecidableEq, Repr

/-- The field `board`: `board r c` is the JavaScript `this.board[r][c]`, with
`none` for `null` and for `undefined`.  Reading a column outside `0..7` gives
`undefined` in the source, which is `none` here as long as nothing was stored
there. -/
abbrev Board := Int → Int → Option Piece

/-- The assignment `board[r][c] = v`. -/
def Board.set (b : Board) (r c : Int) (v : Option Piece) : Board :=
  fun i j => if i == r && j == c then v else b i j

/-- The field `hasMoved`; each pair is `[rook on column 0, rook on column 7]`. -/
structure HasMoved where
  whiteKing : Bool
  blackKing : Bool
  whiteRooks : Bool × Bool
  blackRooks : Bool × Bool
  deriving DecidableEq, Repr

/-- One entry of `moveHistory`, as `commitMove` pushes it. -/
structure HistoryEntry where
  fromRow : Int
  fromCol : Int
  toRow : Int
  toCol : Int
  board : Board
  capturedPiece : Option Piece
  currentPlayer : Color
  enPassantTarget : Option (Int × Int)

/-- A move `{ fromRow, fromCol, toRow, toCol }` as `getAllMoves` returns it. -/
structure Move where
  fromRow : Int
  fromCol : Int
  toRow : Int
  toCol : Int
  deriving DecidableEq, Repr

/-- The fields of a `ChessGame` that the rules engine reads or writes. -/
structure Game where
  isSinglePlayer : Bool
  board : Board
  currentPlayer : Color
  selectedPiece : Option (Int × Int)
  gameOver : Bool
  moveHistory : List HistoryEntry
  moveNotation : List String
  hasMoved : HasMoved
  enPassantTarget : Option (Int × Int)
  possibleMoves : List (Int × Int)
  lastMove : Option Move
  moveCount : Nat

def range8 : List Int := [0, 1, 2, 3, 4, 5, 6, 7]

/-- The 64 squares in the order of `for (i…) for (j…)`. -/
def allSquares : List (Int × Int) :=
  range8.flatMap fun i => range8.map fun j => (i, j)

def backRow (i : Int) : PieceType :=
  if i == 0 then .rook else if i == 1 then .knight else if i == 2 then .bishop
  else if i == 3 then .queen else if i == 4 then .king else if i == 5 then .bishop
  else if i == 6 then .knight else .rook

def isInBounds (row col : Int) : Bool :=
  decide (row ≥ 0) && decide (row < 8) && decide (col ≥ 0) && decide (col < 8)

/-- `initializeBoard()`: black on rows 0 and 1, white on rows 6 and 7. -/
def initializeBoard : Board := fun r c =>
  if isInBounds r c then
    if r == 0 then some ⟨backRow c, .black⟩
    else if r == 1 then some ⟨.pawn, .black⟩
    else if r == 6 then some ⟨.pawn, .white⟩
    else if r == 7 then some ⟨backRow c, .white⟩
    else none
  else none

def noneMoved : HasMoved := ⟨false, false, (false, false), (false, false)⟩

/-- The state a `new ChessGame(isSinglePlayer, …)` starts in. -/
def newChessGame (isSinglePlayer : Bool) : Game where
  isSinglePlayer := isSinglePlayer
  board := initializeBoard
  currentPlayer := .white
  selectedPiece := none
  gameOver := false
  moveHistory := []
  moveNotation := []
  hasMoved := noneMoved
  enPassantTarget := none
  possibleMoves := []
  lastMove := none
  moveCount := 0

def opponent (color : Color) : Color :=
  match color with
  | .white => .black
  | .black => .white

/-- The value of `color === 'white' ? -1 : 1`. -/
def direction (color : Color) : Int :=
  match color with
  | .white => -1
  | .black => 1

/-- The test `board[i][j]?.color === color`. -/
def hasColor (board : Board) (color : Color) (i j : Int) : Bool :=
  match board i j with
  | some p => p.color == color
  | none => false

/-! ## Move validation -/

/-- The `while` loop of `isPathClear`.  The fuel is the number of times the
loop test runs; `isPathClear` passes the distance between the two squares,
which is that number whenever they share a row, a column or a diagonal (the
only way the source calls it). -/
def isPathClearLoop (board : Board) (rowStep colStep toRow toCol : Int) :
    Nat → Int → Int → Bool
  | 0, row, col => row == toRow && col == toCol
  | fuel + 1, row, col =>
    if row != toRow || col != toCol then
      if (board row col).isSome then false
      else isPathClearLoop board rowStep colStep toRow toCol fuel (row + rowStep) (col + colStep)
    else true

def isPathClear (g : Game) (fromRow fromCol toRow toCol : Int) : Bool :=
  let rowStep := Int.sign (toRow - fromRow)
  let colStep := Int.sign (toCol - fromCol)
  isPathClearLoop g.board rowStep colStep toRow toCol
    (max (toRow - fromRow).natAbs (toCol - fromCol).natAbs)
    (fromRow + rowStep) (fromCol + colStep)

/-- The body of `isValidMove`.  The castling test is a parameter because
`isValidCastling` itself calls `isValidMove` with `skipCastling = true`.
The second component is the state after the call: a two-square pawn advance
that is found valid writes `enPassantTarget`. -/
def isValidMoveWith (castling : Game → Int → Int → Int → Int → Bool × Game)
    (g : Game) (fromRow fromCol toRow toCol : Int) (skipCastling : Bool) : Bool × Game :=
  match g.board fromRow fromCol with
  | none => (false, g)
  | some piece =>
    if hasColor g.board piece.color toRow toCol then (false, g)
    else
      let rowDiff := toRow - fromRow
      let colDiff := toCol - fromCol
      let dir := direction piece.color
      match piece.type with
      | .pawn =>
        if colDiff == 0 && (g.board toRow toCol).isNone && rowDiff == dir then (true, g)
        else if colDiff == 0 && (g.board toRow toCol).isNone && rowDiff == 2 * dir &&
            (g.board (fromRow + dir) fromCol).isNone &&
            ((piece.color == .white && fromRow == 6) ||
             (piece.color == .black && fromRow == 1)) then
          (true, { g with enPassantTarget := some (fromRow + dir, fromCol) })
        else if colDiff.natAbs == 1 && rowDiff == dir &&
            ((g.board toRow toCol).isSome || g.enPassantTarget == some (toRow, toCol)) then
          (true, g)
        else (false, g)
      | .rook =>
        ((rowDiff == 0 || colDiff == 0) && isPathClear g fromRow fromCol toRow toCol, g)
      | .knight =>
        ((rowDiff.natAbs == 2 && colDiff.natAbs == 1) ||
         (rowDiff.natAbs == 1 && colDiff.natAbs == 2), g)
      | .bishop =>
        (rowDiff.natAbs == colDiff.natAbs && isPathClear g fromRow fromCol toRow toCol, g)
      | .queen =>
        (((rowDiff == 0 || colDiff == 0) || rowDiff.natAbs == colDiff.natAbs) &&
          isPathClear g fromRow fromCol toRow toCol, g)
      | .king =>
        if decide (rowDiff.natAbs ≤ 1) && decide (colDiff.natAbs ≤ 1) then (true, g)
        else if !skipCastling && rowDiff == 0 && colDiff.natAbs == 2 then
          castling g fromRow fromCol toRow toCol
        else (false, g)

/-- The call `isValidMove(fromRow, fromCol, toRow, toCol, true)`. -/
def isValidMoveSkip (g : Game) (fromRow fromCol toRow toCol : Int) : Bool × Game :=
  isValidMoveWith (fun g _ _ _ _ => (false, g)) g fromRow fromCol toRow toCol true

/-- The double loop shared by `isInCheck` and `isValidCastling`: for every
square that holds a piece of `opponentColor` on `colorBoard`, ask
`isValidMove(i, j, toRow, toCol, true)` on the live board, and stop with
`true` at the first yes. -/
def attackLoop (colorBoard : Board) (opponentColor : Color) (toRow toCol : Int) :
    List (Int × Int) → Game → Bool × Game
  | [], g => (false, g)
  | (i, j) :: rest, g =>
    if hasColor colorBoard opponentColor i j then
      match isValidMoveSkip g i j toRow toCol with
      | (true, g1) => (true, g1)
      | (false, g1) => attackLoop colorBoard opponentColor toRow toCol rest g1
    else attackLoop colorBoard opponentColor toRow toCol rest g

def isKingOf (board : Board) (color : Color) (i j : Int) : Bool :=
  match board i j with
  | some p => p.type == .king && p.color == color
  | none => false

/-- The king search of `isInCheck`.  Its `break` leaves the inner loop only:
the result is the first king of the last row that holds one. -/
def findKing (board : Board) (color : Color) : Option (Int × Int) :=
  range8.foldl
    (fun acc i =>
      match range8.find? (fun j => isKingOf board color i j) with
      | some j => some (i, j)
      | none => acc)
    none

/-- The method `isInCheck(color)`.  With no king of that colour it sets
`gameOver` and answers `false`. -/
def isInCheck (g : Game) (color : Color) : Bool × Game :=
  match findKing g.board color with
  | none => (false, { g with gameOver := true })
  | some (kingRow, kingCol) =>
    attackLoop g.board (opponent color) kingRow kingCol allSquares g

/-- The `for (col …)` loop of `isValidCastling` over the squares the king
passes and lands on. -/
def castlingLoop (color : Color) (fromRow fromCol : Int) : List Int → Game → Bool × Game
  | [], g => (true, g)
  | col :: rest, g =>
    let tempBoard := ((g.board).set fromRow col (g.board fromRow fromCol)).set fromRow fromCol none
    match attackLoop tempBoard (opponent color) fromRow col allSquares g with
    | (true, g1) => (false, g1)
    | (false, g1) => castlingLoop color fromRow fromCol rest g1

/-- The method `isValidCastling`.  The source reads `board[fromRow][fromCol].color`
first, which needs a piece there; `isValidMove` only calls it for a king. -/
def isValidCastling (g : Game) (fromRow fromCol _toRow toCol : Int) : Bool × Game :=
  match g.board fromRow fromCol with
  | none => (false, g)
  | some king =>
    let color := king.color
    let kingMoved := if color == .white then g.hasMoved.whiteKing else g.hasMoved.blackKing
    let rooks := if color == .white then g.hasMoved.whiteRooks else g.hasMoved.blackRooks
    let rookMoved := if toCol > fromCol then rooks.2 else rooks.1
    let rookCol : Int := if toCol > fromCol then 7 else 0
    if kingMoved || rookMoved then (false, g)
    else
      match isInCheck g color with
      | (true, g1) => (false, g1)
      | (false, g1) =>
        if !isPathClear g1 fromRow fromCol fromRow rookCol then (false, g1)
        else
          let step : Int := if toCol > fromCol then 1 else -1
          castlingLoop color fromRow fromCol
            ((List.range (toCol - fromCol).natAbs).map
              fun (k : Nat) => fromCol + step * (Int.ofNat k + 1)) g1

/-- The method `isValidMove(fromRow, fromCol, toRow, toCol, skipCastling = false)`. -/
def isValidMove (g : Game) (fromRow fromCol toRow toCol : Int)
    (skipCastling : Bool := false) : Bool × Game :=
  isValidMoveWith isValidCastling g fromRow fromCol toRow toCol skipCastling

/-! ## Move generation -/

/-- The `while` loop of `addSlidingMoves` along one direction.  The fuel 8 that
`addSlidingMoves` passes is never used up: a walk that stays on the board has
at most 8 squares. -/
def slide (board : Board) (dr dc : Int) : Nat → Int → Int → List (Int × Int)
  | 0, _, _ => []
  | fuel + 1, r, c =>
    if isInBounds r c then
      (r, c) :: (if (board r c).isSome then [] else slide board dr dc fuel (r + dr) (c + dc))
    else []

def addSlidingMoves (g : Game) (row col : Int) (directions : List (Int × Int))
    (moves : List (Int × Int)) : List (Int × Int) :=
  directions.foldl (fun moves d => moves ++ slide g.board d.1 d.2 8 (row + d.1) (col + d.2)) moves

def knightMoves : List (Int × Int) :=
  [(-2, -1), (-2, 1), (-1, -2), (-1, 2), (1, -2), (1, 2), (2, -1), (2, 1)]

def kingMoves : List (Int × Int) :=
  [(-1, -1), (-1, 0), (-1, 1), (0, -1), (0, 1), (1, -1), (1, 0), (1, 1)]

/-- The offsets of `forEach(([dr, dc]) => …)` that stay in bounds. -/
def offsetMoves (row col : Int) (offsets : List (Int × Int)) : List (Int × Int) :=
  (offsets.filter fun d => isInBounds (row + d.1) (col + d.2)).map
    fun d => (row + d.1, col + d.2)

/-- The method `getPossibleMoves(row, col)`: candidate destinations, before
validation. -/
def getPossibleMoves (g : Game) (row col : Int) : List (Int × Int) :=
  match g.board row col with
  | none => []
  | some piece =>
    let dir := direction piece.color
    let startRow : Int := if piece.color == .white then 6 else 1
    match piece.type with
    | .pawn =>
      (if isInBounds (row + dir) col && (g.board (row + dir) col).isNone then
        (row + dir, col) ::
          (if row == startRow && (g.board (row + 2 * dir) col).isNone then
            [(row + 2 * dir, col)] else [])
       else []) ++
      offsetMoves row col [(dir, -1), (dir, 1)]
    | .knight => offsetMoves row col knightMoves
    | .bishop => addSlidingMoves g row col [(-1, -1), (-1, 1), (1, -1), (1, 1)] []
    | .rook => addSlidingMoves g row col [(-1, 0), (1, 0), (0, -1), (0, 1)] []
    | .queen =>
      addSlidingMoves g row col
        [(-1, -1), (-1, 1), (1, -1), (1, 1), (-1, 0), (1, 0), (0, -1), (0, 1)] []
    | .king =>
      let kingMoved := if piece.color == .white then g.hasMoved.whiteKing else g.hasMoved.blackKing
      let rooks := if piece.color == .white then g.hasMoved.whiteRooks else g.hasMoved.blackRooks
      offsetMoves row col kingMoves ++
      (if !kingMoved then
        (if !rooks.1 && (g.board row 1).isNone && (g.board row 2).isNone &&
            (g.board row 3).isNone then [(row, col - 2)] else []) ++
        (if !rooks.2 && (g.board row 5).isNone && (g.board row 6).isNone then
          [(row, col + 2)] else [])
       else [])

/-- The innermost loop of `getAllMoves`: validate each candidate of one piece. -/
def validateMoves (row col : Int) : List (Int × Int) → Game → List Move × Game
  | [], g => ([], g)
  | (toRow, toCol) :: rest, g =>
    match isValidMove g row col toRow toCol with
    | (true, g1) =>
      let r := validateMoves row col rest g1
      (⟨row, col, toRow, toCol⟩ :: r.1, r.2)
    | (false, g1) => validateMoves row col rest g1

/-- The two outer loops of `getAllMoves` over the origin squares. -/
def getAllMovesLoop (color : Color) : List (Int × Int) → Game → List Move × Game
  | [], g => ([], g)
  | (row, col) :: rest, g =>
    if hasColor g.board color row col then
      let r1 := validateMoves row col (getPossibleMoves g row col) g
      let r2 := getAllMovesLoop color rest r1.2
      (r1.1 ++ r2.1, r2.2)
    else getAllMovesLoop color rest g

/-- The method `getAllMoves(color)`. -/
def getAllMoves (g : Game) (color : Color) : List Move × Game :=
  getAllMovesLoop color allSquares g

/-! ## Applying a move -/

/-- The method `makeMove(fromRow, fromCol, toRow, toCol, promotionType = 'queen')`.
It is `none` where the source raises a `TypeError`: `piece.type` with no piece
on the origin, or `board[toRow][toCol].type = …` with nothing on the
destination.  The variable `piece` and the entry the move puts on the
destination are one object, so the assignment to its `type` on promotion is
seen by the last test `piece.type === 'pawn'`: that test reads the kind the
piece has after the promotion.  The two rows are taken to be rows of the
board; the source raises a `TypeError` when it indexes `this.board` with
another row. -/
def makeMove (g : Game) (fromRow fromCol toRow toCol : Int)
    (promotionType : PieceType := .queen) : Option Game :=
  match g.board fromRow fromCol with
  | none => none
  | some piece =>
    let isCastling := piece.type == .king && (fromCol - toCol).natAbs == 2
    let isEnPassant := piece.type == .pawn && toCol != fromCol &&
      (g.board toRow toCol).isNone && g.enPassantTarget == some (toRow, toCol)
    let board1 : Board :=
      if isCastling then
        let rookFromCol : Int := if toCol > fromCol then 7 else 0
        let rookToCol : Int := if toCol > fromCol then fromCol + 1 else fromCol - 1
        let b1 := ((g.board).set fromRow toCol (g.board fromRow fromCol)).set fromRow fromCol none
        (b1.set fromRow rookToCol (b1 fromRow rookFromCol)).set fromRow rookFromCol none
      else if isEnPassant then
        let b1 := ((g.board).set toRow toCol (g.board fromRow fromCol)).set fromRow fromCol none
        match g.enPassantTarget with
        | some (epRow, epCol) => b1.set epRow epCol none
        | none => b1
      else ((g.board).set toRow toCol (g.board fromRow fromCol)).set fromRow fromCol none
    let board2 : Option Board :=
      if piece.type == .pawn && (toRow == 0 || toRow == 7) then
        match board1 toRow toCol with
        | some p => some (board1.set toRow toCol (some { p with type := promotionType }))
        | none => none
      else some board1
    let typeAfter : PieceType :=
      if piece.type == .pawn && (toRow == 0 || toRow == 7) then promotionType else piece.type
    match board2 with
    | none => none
    | some b =>
      some { g with
        board := b
        enPassantTarget :=
          if typeAfter == .pawn && (fromRow - toRow).natAbs == 2 then
            some ((fromRow + toRow) / 2, fromCol)
          else none }

/-- `String.fromCharCode(97 + col)`. -/
def fileLetter (col : Int) : String :=
  String.singleton (Char.ofNat (97 + col).toNat)

/-- `piece.type.charAt(0).toUpperCase()`. -/
def pieceSymbol (t : PieceType) : String :=
  match t with
  | .pawn => "P"
  | .rook => "R"
  | .knight => "K"
  | .bishop => "B"
  | .queen => "Q"
  | .king => "K"

/-- The string `notation` that `addMoveNotation` builds.  It is `none` where the
source raises a `TypeError`: `piece.type` with nothing on the destination, in
a move that is neither castling nor en passant. -/
def moveText (g : Game) (fromCol toRow toCol : Int) (capturedPiece : Option Piece)
    (isCastling isEnPassant : Bool) : Option String :=
  let fromFile := fileLetter fromCol
  let toFile := fileLetter toCol
  let toRank := toString (8 - toRow)
  if isCastling then some (if toCol > fromCol then "O-O" else "O-O-O")
  else if isEnPassant then some (fromFile ++ "x" ++ toFile ++ toRank ++ " e.p.")
  else
    match g.board toRow toCol with
    | none => none
    | some piece =>
      if piece.type == .pawn then
        some (if capturedPiece.isSome then fromFile ++ "x" ++ toFile ++ toRank
              else toFile ++ toRank)
      else
        some (if capturedPiece.isSome then pieceSymbol piece.type ++ "x" ++ toFile ++ toRank
              else pieceSymbol piece.type ++ toFile ++ toRank)

/-- The method `addMoveNotation`: build the string and push it. -/
def addMoveNotation (g : Game) (_fromRow fromCol toRow toCol : Int)
    (capturedPiece : Option Piece) (isCastling isEnPassant : Bool) : Option Game :=
  match moveText g fromCol toRow toCol capturedPiece isCastling isEnPassant with
  | none => none
  | some t => some { g with moveNotation := g.moveNotation ++ [t] }

/-- The method `updateCastlingFlags`. -/
def updateCastlingFlags (g : Game) (_fromRow fromCol toRow toCol : Int) : Game :=
  match g.board toRow toCol with
  | none => g
  | some piece =>
    if piece.type == .king then
      if piece.color == .white then { g with hasMoved := { g.hasMoved with whiteKing := true } }
      else { g with hasMoved := { g.hasMoved with blackKing := true } }
    else if piece.type == .rook then
      if piece.color == .white then
        if fromCol == 0 then
          { g with hasMoved := { g.hasMoved with whiteRooks := (true, g.hasMoved.whiteRooks.2) } }
        else if fromCol == 7 then
          { g with hasMoved := { g.hasMoved with whiteRooks := (g.hasMoved.whiteRooks.1, true) } }
        else g
      else
        if fromCol == 0 then
          { g with hasMoved := { g.hasMoved with blackRooks := (true, g.hasMoved.blackRooks.2) } }
        else if fromCol == 7 then
          { g with hasMoved := { g.hasMoved with blackRooks := (g.hasMoved.blackRooks.1, true) } }
        else g
    else g

/-! ## Checkmate and stalemate -/

/-- The block that `highlightPossibleMoves`, `isCheckmate` and `isStalemate`
repeat word for word: copy the board, put the piece on the destination, move
the rook when a king goes two columns, or turn a pawn on row 0 or 7 into a
queen.  It is only run after `isValidMove` said yes, so the origin holds a
piece. -/
def simulateMove (board : Board) (fromRow fromCol toRow toCol : Int) : Board :=
  let piece := board fromRow fromCol
  let b1 := (board.set toRow toCol piece).set fromRow fromCol none
  match piece with
  | none => b1
  | some p =>
    if p.type == .king && (toCol - fromCol).natAbs == 2 then
      let rookCol : Int := if toCol > fromCol then 7 else 0
      let rookToCol : Int := if toCol > fromCol then fromCol + 1 else fromCol - 1
      (b1.set fromRow rookToCol (b1 fromRow rookCol)).set fromRow rookCol none
    else if p.type == .pawn && (toRow == 0 || toRow == 7) then
      b1.set toRow toCol (some ⟨.queen, p.color⟩)
    else b1

/-- The three lines `tempGame = new ChessGame(…, false); tempGame.board = tempBoard;
tempGame.currentPlayer = this.currentPlayer` followed by
`tempGame.isInCheck(this.currentPlayer)`. -/
def tempGameInCheck (g : Game) (tempBoard : Board) : Bool :=
  (isInCheck { newChessGame g.isSinglePlayer with
      board := tempBoard, currentPlayer := g.currentPlayer } g.currentPlayer).1

/-- The two inner loops of `isCheckmate` and `isStalemate` over the
destinations of one piece: `true` as soon as a valid move is found after which
the temporary game is not in check. -/
def escapeLoop (fromRow fromCol : Int) : List (Int × Int) → Game → Bool × Game
  | [], g => (false, g)
  | (toRow, toCol) :: rest, g =>
    match isValidMove g fromRow fromCol toRow toCol with
    | (true, g1) =>
      if !tempGameInCheck g1 (simulateMove g1.board fromRow fromCol toRow toCol) then (true, g1)
      else escapeLoop fromRow fromCol rest g1
    | (false, g1) => escapeLoop fromRow fromCol rest g1

/-- The two outer loops of `isCheckmate` and `isStalemate` over the pieces of
the current player. -/
def anyEscape : List (Int × Int) → Game → Bool × Game
  | [], g => (false, g)
  | (fromRow, fromCol) :: rest, g =>
    if hasColor g.board g.currentPlayer fromRow fromCol then
      match escapeLoop fromRow fromCol allSquares g with
      | (true, g1) => (true, g1)
      | (false, g1) => anyEscape rest g1
    else anyEscape rest g

/-- The method `isCheckmate()`. -/
def isCheckmate (g : Game) : Bool × Game :=
  match isInCheck g g.currentPlayer with
  | (false, g1) => (false, g1)
  | (true, g1) =>
    match anyEscape allSquares g1 with
    | (true, g2) => (false, g2)
    | (false, g2) => (true, g2)

/-- The method `isStalemate()`. -/
def isStalemate (g : Game) : Bool × Game :=
  match isInCheck g g.currentPlayer with
  | (true, g1) => (false, g1)
  | (false, g1) =>
    match anyEscape allSquares g1 with
    | (true, g2) => (false, g2)
    | (false, g2) => (true, g2)

/-- What `renderBoard()` does to the state: it draws, and to write the status
line it calls `isCheckmate`, `isStalemate` and `isInCheck`, which are not pure.
With `gameOver` set it ends in `showGameOverOverlay`, which asks `isCheckmate`
again. -/
def renderBoard (g : Game) : Game :=
  if g.gameOver then
    let g1 :=
      match isCheckmate g with
      | (true, g1) => g1
      | (false, g1) => (isStalemate g1).2
    (isCheckmate g1).2
  else (isInCheck g g.currentPlayer).2

/-! ## Committing and undoing -/

/-- The lines `if (this.isCheckmate()) { … this.gameOver = true; } else if
(this.isStalemate()) { … this.gameOver = true; }` of `commitMove`. -/
def checkGameOver (g : Game) : Game :=
  match isCheckmate g with
  | (true, g1) => { g1 with gameOver := true }
  | (false, g1) =>
    match isStalemate g1 with
    | (true, g2) => { g2 with gameOver := true }
    | (false, g2) => g2

/-- The method `commitMove`.  The move of the automated side that it schedules
for later is the separate step `makeAIMove`. -/
def commitMove (g : Game) (fromRow fromCol toRow toCol : Int) (tempBoard : Board)
    (capturedPiece : Option Piece) (isCastling : Bool := false)
    (isEnPassant : Bool := false) : Option Game :=
  let g1 := { g with
    moveHistory := g.moveHistory ++
      [⟨fromRow, fromCol, toRow, toCol, tempBoard, capturedPiece, g.currentPlayer,
        g.enPassantTarget⟩] }
  match addMoveNotation g1 fromRow fromCol toRow toCol capturedPiece isCastling isEnPassant with
  | none => none
  | some g2 =>
    let g3 := updateCastlingFlags g2 fromRow fromCol toRow toCol
    let g4 := { g3 with
      currentPlayer := opponent g3.currentPlayer
      moveCount := g3.moveHistory.length / 2 + 1
      lastMove := some ⟨fromRow, fromCol, toRow, toCol⟩
      possibleMoves := []
      selectedPiece := none }
    some (renderBoard (checkGameOver g4))

/-- The method `undoMove()`. -/
def undoMove (g : Game) : Game :=
  if g.moveHistory.length == 0 || g.gameOver then g
  else
    match g.moveHistory.getLast? with
    | none => g
    | some lastMove =>
      renderBoard { g with
        moveHistory := g.moveHistory.dropLast
        board := lastMove.board
        currentPlayer := lastMove.currentPlayer
        enPassantTarget := lastMove.enPassantTarget
        moveNotation := g.moveNotation.dropLast
        selectedPiece := none
        possibleMoves := [] }

/-- What the restart handler does to the state. -/
def restartHandler (g : Game) : Game :=
  renderBoard (newChessGame g.isSinglePlayer)

/-! ## Clicks -/

/-- The double loop of `highlightPossibleMoves`. -/
def highlightLoop (row col : Int) : List (Int × Int) → Game → Game
  | [], g => g
  | (i, j) :: rest, g =>
    match isValidMove g row col i j with
    | (true, g1) =>
      if !tempGameInCheck g1 (simulateMove g1.board row col i j) then
        highlightLoop row col rest { g1 with possibleMoves := g1.possibleMoves ++ [(i, j)] }
      else highlightLoop row col rest g1
    | (false, g1) => highlightLoop row col rest g1

/-- The method `highlightPossibleMoves(row, col)`. -/
def highlightPossibleMoves (g : Game) (row col : Int) : Game :=
  highlightLoop row col allSquares { g with possibleMoves := [] }

/-- The four buttons that `showPromotionOptions` offers. -/
def promotionOptions : List PieceType := [.queen, .rook, .bishop, .knight]

/-- The callback that `handleSquareClick` and the promotion buttons hand to
`animateMove`: make the move, and either take the board back when the mover
is in check or commit. -/
def moveCallback (g : Game) (fromRow fromCol row col : Int) (tempBoard : Board)
    (capturedPiece : Option Piece) (isCastling isEnPassant : Bool)
    (promotionType : PieceType) : Option (Bool × Game) :=
  match makeMove g fromRow fromCol row col promotionType with
  | none => none
  | some g1 =>
    match isInCheck g1 g1.currentPlayer with
    | (true, g2) =>
      some (false, { g2 with board := tempBoard, possibleMoves := [], selectedPiece := none })
    | (false, g2) =>
      (commitMove g2 fromRow fromCol row col tempBoard capturedPiece isCastling isEnPassant).map
        fun g3 => (true, g3)

/-- The method `handleSquareClick(row, col)`, followed at once by the press of a
promotion button when the click has opened the panel: when the move is a pawn
reaching row 0 or 7 the source opens the promotion buttons and waits, and
`promotionChoice` is the button that is pressed next, with nothing happening in
between.  The click alone, with the panel it leaves open, is
`Page.handleSquareClick`; the handler of a button alone is `promotionHandler`. -/
def handleSquareClick (g : Game) (row col : Int)
    (promotionChoice : PieceType := .queen) : Option Game :=
  if g.gameOver then some g
  else if g.isSinglePlayer && g.currentPlayer == .black then some g
  else
    match g.selectedPiece with
    | some (fromRow, fromCol) =>
      match isValidMove g fromRow fromCol row col with
      | (true, g1) =>
        let tempBoard := g1.board
        let capturedPiece := g1.board row col
        let fromType := (g1.board fromRow fromCol).map Piece.type
        let isCastling := fromType == some .king && (fromCol - col).natAbs == 2
        let isEnPassant := fromType == some .pawn && col != fromCol && capturedPiece.isNone
        if fromType == some .pawn && (row == 0 || row == 7) then
          match moveCallback (renderBoard g1) fromRow fromCol row col tempBoard capturedPiece
              isCastling isEnPassant promotionChoice with
          | none => none
          | some (_, g2) => some (renderBoard g2)
        else
          match moveCallback g1 fromRow fromCol row col tempBoard capturedPiece
              isCastling isEnPassant .queen with
          | none => none
          | some (true, g2) => some g2
          | some (false, g2) => some (renderBoard g2)
      | (false, g1) => some (renderBoard { g1 with possibleMoves := [], selectedPiece := none })
    | none =>
      if hasColor g.board g.currentPlayer row col then
        some (renderBoard
          (highlightPossibleMoves { g with selectedPiece := some (row, col) } row col))
      else some g

/-! ## The promotion panel -/

/-- What the handlers of the promotion buttons keep of the click that opened the
panel: the arguments of `showPromotionOptions`. -/
structure Panel where
  row : Int
  col : Int
  fromRow : Int
  fromCol : Int
  tempBoard : Board
  capturedPiece : Option Piece

/-- The game together with the promotion panel of the page: the field
`promotionContainer` with the handlers of its buttons, `none` for `null`.  The
field `isPromoting` is true exactly while there is a panel: both are set by
`showPromotionOptions` and cleared by the callback of a button and by the
restart handler.  So `renderBoard`, which removes a panel only when
`isPromoting` is false, never removes one. -/
structure Page where
  game : Game
  promotionContainer : Option Panel

/-- The method `showPromotionOptions(row, col, fromRow, fromCol, tempBoard,
capturedPiece)`: it puts a new panel in the place of the one there may be, and
renders.  No move is made. -/
def showPromotionOptions (g : Game) (row col fromRow fromCol : Int) (tempBoard : Board)
    (capturedPiece : Option Piece) : Page :=
  ⟨renderBoard g, some ⟨row, col, fromRow, fromCol, tempBoard, capturedPiece⟩⟩

/-- The method `handleSquareClick(row, col)` on its own.  When the move is a pawn
reaching row 0 or 7 it calls `showPromotionOptions` and returns; in every other
case it leaves the panel as it is. -/
def Page.handleSquareClick (p : Page) (row col : Int) : Option Page :=
  let g := p.game
  if g.gameOver then some p
  else if g.isSinglePlayer && g.currentPlayer == .black then some p
  else
    match g.selectedPiece with
    | some (fromRow, fromCol) =>
      match isValidMove g fromRow fromCol row col with
      | (true, g1) =>
        let tempBoard := g1.board
        let capturedPiece := g1.board row col
        let fromType := (g1.board fromRow fromCol).map Piece.type
        let isCastling := fromType == some .king && (fromCol - col).natAbs == 2
        let isEnPassant := fromType == some .pawn && col != fromCol && capturedPiece.isNone
        if fromType == some .pawn && (row == 0 || row == 7) then
          some (showPromotionOptions g1 row col fromRow fromCol tempBoard capturedPiece)
        else
          match moveCallback g1 fromRow fromCol row col tempBoard capturedPiece
              isCastling isEnPassant .queen with
          | none => none
          | some (true, g2) => some ⟨g2, p.promotionContainer⟩
          | some (false, g2) => some ⟨renderBoard g2, p.promotionContainer⟩
      | (false, g1) =>
        some ⟨renderBoard { g1 with possibleMoves := [], selectedPiece := none },
          p.promotionContainer⟩
    | none =>
      if hasColor g.board g.currentPlayer row col then
        some ⟨renderBoard
          (highlightPossibleMoves { g with selectedPiece := some (row, col) } row col),
          p.promotionContainer⟩
      else some p

/-- The `onclick` handler that `showPromotionOptions` gives the button of the
kind `type`.  It tests neither `gameOver` nor whose turn it is; it reads the
piece on the origin as the board is when the button is pressed (a `TypeError`,
`none`, when there is none), and makes the move with the board and the captured
piece of the click that opened the panel.  At the end it removes the panel and
renders. -/
def promotionHandler (g : Game) (panel : Panel) (type : PieceType) : Option Game :=
  match g.board panel.fromRow panel.fromCol with
  | none => none
  | some piece =>
    let isCastling := piece.type == .king && (panel.fromCol - panel.col).natAbs == 2
    let isEnPassant := piece.type == .pawn && panel.col != panel.fromCol &&
      panel.capturedPiece.isNone
    match moveCallback g panel.fromRow panel.fromCol panel.row panel.col panel.tempBoard
        panel.capturedPiece isCastling isEnPassant type with
    | none => none
    | some (_, g2) => some (renderBoard g2)

/-- A press of the button number `k` of the panel, in the order of `options`.
With no panel on the page, or no button of that number, there is nothing to
press. -/
def Page.pressButton (p : Page) (k : Nat) : Option Page :=
  match p.promotionContainer, promotionOptions[k]? with
  | some panel, some type => (promotionHandler p.game panel type).map fun g => ⟨g, none⟩
  | _, _ => some p

/-! ## The automated side -/

def pieceValue (t : PieceType) : Int :=
  match t with
  | .pawn => 100
  | .knight => 320
  | .bishop => 330
  | .rook => 500
  | .queen => 900
  | .king => 20000

/-- The method `evaluateBoard()` (the class body defines it twice, with the
same text up to layout). -/
def evaluateBoard (g : Game) : Int :=
  let material := allSquares.foldl
    (fun score sq =>
      match g.board sq.1 sq.2 with
      | some piece =>
        score + (if piece.color == .black then pieceValue piece.type else - pieceValue piece.type)
      | none => score)
    (0 : Int)
  range8.foldl
    (fun score col =>
      let s1 :=
        match g.board 1 col with
        | some blackPawn => if blackPawn.type == .pawn then score + (6 - 1) * 10 else score
        | none => score
      match g.board 6 col with
      | some whitePawn => if whitePawn.type == .pawn then s1 - (6 - 6) * 10 else s1
      | none => s1)
    material

/-- A JavaScript number as `minimax` uses it: a board score or `±Infinity`. -/
inductive Num where
  | negInf
  | fin (n : Int)
  | posInf
  deriving DecidableEq, Repr

/-- The comparison `a <= b`. -/
def Num.le (a b : Num) : Bool :=
  match a, b with
  | .negInf, _ => true
  | _, .posInf => true
  | .fin x, .fin y => decide (x ≤ y)
  | _, _ => false

/-- The comparison `a > b`. -/
def Num.gt (a b : Num) : Bool := !Num.le a b

/-- `Math.max(a, b)`. -/
def Num.max (a b : Num) : Num := if Num.le a b then b else a

/-- `Math.min(a, b)`. -/
def Num.min (a b : Num) : Num := if Num.le a b then a else b

/-- The `for` loop of the maximizing branch of `minimax`; `recurse` is the call
`this.minimax(depth - 1, alpha, beta, false)`. -/
def maxLoop (recurse : Num → Num → Game → Option (Num × Game)) :
    List Move → Num → Num → Num → Game → Option (Num × Game)
  | [], _, _, maxEval, g => some (maxEval, g)
  | m :: rest, alpha, beta, maxEval, g =>
    let tempBoard := g.board
    match makeMove g m.fromRow m.fromCol m.toRow m.toCol .queen with
    | none => none
    | some g1 =>
      match recurse alpha beta g1 with
      | none => none
      | some (evaluate, g2) =>
        let g3 := { g2 with board := tempBoard }
        let maxEval1 := Num.max maxEval evaluate
        let alpha1 := Num.max alpha evaluate
        if Num.le beta alpha1 then some (maxEval1, g3)
        else maxLoop recurse rest alpha1 beta maxEval1 g3

/-- The `for` loop of the minimizing branch of `minimax`. -/
def minLoop (recurse : Num → Num → Game → Option (Num × Game)) :
    List Move → Num → Num → Num → Game → Option (Num × Game)
  | [], _, _, minEval, g => some (minEval, g)
  | m :: rest, alpha, beta, minEval, g =>
    let tempBoard := g.board
    match makeMove g m.fromRow m.fromCol m.toRow m.toCol .queen with
    | none => none
    | some g1 =>
      match recurse alpha beta g1 with
      | none => none
      | some (evaluate, g2) =>
        let g3 := { g2 with board := tempBoard }
        let minEval1 := Num.min minEval evaluate
        let beta1 := Num.min beta evaluate
        if Num.le beta1 alpha then some (minEval1, g3)
        else minLoop recurse rest alpha beta1 minEval1 g3

/-- The method `minimax(depth, alpha, beta, maximizingPlayer)`, for a depth
that is a natural number (the source starts it at 2 and counts down). -/
def minimax : Nat → Num → Num → Bool → Game → Option (Num × Game)
  | 0, _, _, _, g => some (.fin (evaluateBoard g), g)
  | depth + 1, alpha, beta, maximizingPlayer, g =>
    match isCheckmate g with
    | (true, g1) => some (.fin (evaluateBoard g1), g1)
    | (false, g1) =>
      match isStalemate g1 with
      | (true, g2) => some (.fin (evaluateBoard g2), g2)
      | (false, g2) =>
        match getAllMoves g2 (if maximizingPlayer then .black else .white) with
        | ([], g3) => some (.fin (evaluateBoard g3), g3)
        | (m :: ms, g3) =>
          if maximizingPlayer then
            maxLoop (fun a b h => minimax depth a b false h) (m :: ms) alpha beta .negInf g3
          else
            minLoop (fun a b h => minimax depth a b true h) (m :: ms) alpha beta .posInf g3

/-- The root loop of `makeAIMove`: score every move and keep the first one
with the greatest score. -/
def rootLoop (depth : Nat) : List Move → Option Move → Num → Game →
    Option (Option Move × Game)
  | [], bestMove, _, g => some (bestMove, g)
  | move :: rest, bestMove, bestValue, g =>
    let tempBoard := g.board
    match makeMove g move.fromRow move.fromCol move.toRow move.toCol .queen with
    | none => none
    | some g1 =>
      match minimax (depth - 1) .negInf .posInf false g1 with
      | none => none
      | some (value, g2) =>
        let g3 := { g2 with board := tempBoard }
        if Num.gt value bestValue then rootLoop depth rest (some move) value g3
        else rootLoop depth rest bestMove bestValue g3

/-- The method `makeAIMove()`. -/
def makeAIMove (g : Game) : Option Game :=
  if g.gameOver || g.currentPlayer != .black then some g
  else
    match getAllMoves g .black with
    | ([], g1) => some g1
    | (m :: ms, g1) =>
      match rootLoop 3 (m :: ms) none .negInf g1 with
      | none => none
      | some (none, g2) => some g2
      | some (some bestMove, g2) =>
        let tempBoard := g2.board
        let capturedPiece := g2.board bestMove.toRow bestMove.toCol
        let fromType := (g2.board bestMove.fromRow bestMove.fromCol).map Piece.type
        let isCastling := fromType == some .king &&
          (bestMove.fromCol - bestMove.toCol).natAbs == 2
        let isEnPassant := fromType == some .pawn && bestMove.toCol != bestMove.fromCol &&
          capturedPiece.isNone
        match makeMove g2 bestMove.fromRow bestMove.fromCol bestMove.toRow bestMove.toCol
            .queen with
        | none => none
        | some g3 =>
          commitMove g3 bestMove.fromRow bestMove.fromCol bestMove.toRow bestMove.toCol
            tempBoard capturedPiece isCastling isEnPassant

/-- The block of `findBestMove` that plays the move `(row, col)` to `(i, j)` on
a copy of the board: the piece goes to the destination; a king that goes two
columns takes the rook along; else a pawn that reaches row 7 becomes a black
queen; else a pawn that goes aside onto the empty en passant target has
`tempBoard[enPassantTarget.row][enPassantTarget.col]` put to `null`. -/
def bestMoveBoard (g : Game) (tempPiece : Piece) (row col i j : Int) : Board :=
  let capturedPiece := g.board i j
  let b1 := ((g.board).set i j (some tempPiece)).set row col none
  if tempPiece.type == .king && (j - col).natAbs == 2 then
    let rookCol : Int := if j > col then 7 else 0
    let rookToCol : Int := if j > col then col + 1 else col - 1
    (b1.set row rookToCol (b1 row rookCol)).set row rookCol none
  else if tempPiece.type == .pawn && i == 7 then
    b1.set i j (some ⟨.queen, .black⟩)
  else if tempPiece.type == .pawn && j != col && capturedPiece.isNone &&
      g.enPassantTarget == some (i, j) then
    match g.enPassantTarget with
    | some (epRow, epCol) => b1.set epRow epCol none
    | none => b1
  else b1

/-- The `tempGame` of `findBestMove`: a new game that is given the copy of the
board, Black as `currentPlayer`, and the square a pawn jumped over as
`enPassantTarget`. -/
def bestMoveGame (g : Game) (tempPiece : Piece) (row col i j : Int) : Game :=
  { newChessGame g.isSinglePlayer with
    board := bestMoveBoard g tempPiece row col i j
    currentPlayer := .black
    enPassantTarget :=
      if tempPiece.type == .pawn && (row - i).natAbs == 2 then some ((row + i) / 2, col)
      else none }

/-- The two inner loops of `findBestMove` over the 64 destinations of one
piece.  `isValidMove` is asked on the live game; the score is computed on the
temporary game, whose state is dropped afterwards. -/
def bestMoveInner (depth : Nat) (row col : Int) :
    List (Int × Int) → Option Move → Num → Game → Option (Option Move × Num × Game)
  | [], bestMove, bestScore, g => some (bestMove, bestScore, g)
  | (i, j) :: rest, bestMove, bestScore, g =>
    match isValidMove g row col i j with
    | (true, g1) =>
      match g1.board row col with
      | none => none
      | some tempPiece =>
        match isInCheck (bestMoveGame g1 tempPiece row col i j) .black with
        | (false, tempGame) =>
          match minimax (depth - 1) .negInf .posInf false tempGame with
          | none => none
          | some (score, _) =>
            if Num.gt score bestScore then
              bestMoveInner depth row col rest (some ⟨row, col, i, j⟩) score g1
            else bestMoveInner depth row col rest bestMove bestScore g1
        | (true, _) => bestMoveInner depth row col rest bestMove bestScore g1
    | (false, g1) => bestMoveInner depth row col rest bestMove bestScore g1

/-- The loop `for (const piece of pieces)` of `findBestMove`. -/
def bestMoveOuter (depth : Nat) :
    List (Int × Int) → Option Move → Num → Game → Option (Option Move × Num × Game)
  | [], bestMove, bestScore, g => some (bestMove, bestScore, g)
  | (row, col) :: rest, bestMove, bestScore, g =>
    match bestMoveInner depth row col allSquares bestMove bestScore g with
    | none => none
    | some (bestMove1, bestScore1, g1) => bestMoveOuter depth rest bestMove1 bestScore1 g1

/-- The method `findBestMove(depth)`, for a depth of at least 1 (below that the
source would call `minimax` with a negative depth).  The result is the origin
and the destination of the `bestMove` object, or `none` for `null`, together
with the state of the live game after the call. -/
def findBestMove (g : Game) (depth : Nat) : Option (Option Move × Game) :=
  let pieces := allSquares.filter fun sq => hasColor g.board .black sq.1 sq.2
  match bestMoveOuter depth pieces none .negInf g with
  | none => none
  | some (bestMove, _, g1) => some (bestMove, g1)

/-! ## Reachable states -/

/-- The states a game can be in: a new game, and whatever a click (with the
promotion button pressed after it, when one is asked for), the move of the
automated side in a single-player game, the undo button or the restart button
makes of a reachable state. -/
inductive Reachable : Game → Prop where
  | start (isSinglePlayer : Bool) : Reachable (newChessGame isSinglePlayer)
  | click {g g1 : Game} (row col : Int) (promotionChoice : PieceType) :
      Reachable g → isInBounds row col = true → promotionChoice ∈ promotionOptions →
      handleSquareClick g row col promotionChoice = some g1 → Reachable g1
  | aiMove {g g1 : Game} :
      Reachable g → g.isSinglePlayer = true → makeAIMove g = some g1 → Reachable g1
  | undo {g : Game} : Reachable g → Reachable (undoMove g)
  | restart {g : Game} : Reachable g → Reachable (restartHandler g)

/-! ## Notions used in the statements and in the proofs -/

/-- The state with the two fields that the queries write put to fixed values. -/
def Game.core (g : Game) : Game := { g with enPassantTarget := none, gameOver := false }

/-- Every flag set in `a` is set in `b`. -/
def HasMoved.le (a b : HasMoved) : Prop :=
  (a.whiteKing = true → b.whiteKing = true) ∧ (a.blackKing = true → b.blackKing = true) ∧
  (a.whiteRooks.1 = true → b.whiteRooks.1 = true) ∧
  (a.whiteRooks.2 = true → b.whiteRooks.2 = true) ∧
  (a.blackRooks.1 = true → b.blackRooks.1 = true) ∧
  (a.blackRooks.2 = true → b.blackRooks.2 = true)

/-- A run of clicks, the queen button being pressed whenever a promotion asks
for a choice. -/
def clicks (g : Game) : List (Int × Int) → Option Game
  | [] => some g
  | (row, col) :: rest => (handleSquareClick g row col .queen).bind fun g1 => clicks g1 rest

/-- The opening moves 1. e4 f5 2. Qh5+ of a two-player game, click by click. -/
def queenCheckClicks : List (Int × Int) := [(6, 4), (4, 4), (1, 5), (3, 5), (7, 3), (3, 7)]

/-- The opening moves 1. e4 d5 2. e5 f5 of a two-player game, click by click. -/
def enPassantClicks : List (Int × Int) :=
  [(6, 4), (4, 4), (1, 3), (3, 3), (4, 4), (3, 4), (1, 5), (3, 5)]

/-- `makeMove` four times from the opening position: e2-e4, d7-d5, e4-e5, f7-f5. -/
def enPassantSetup : Option Game :=
  (((makeMove (newChessGame true) 6 4 4 4).bind fun g => makeMove g 1 3 3 3).bind
    fun g => makeMove g 4 4 3 4).bind fun g => makeMove g 1 5 3 5

/-- A test on the value of an optional result, `false` when there is none. -/
def holdsOn {α : Type} (o : Option α) (p : α → Bool) : Bool :=
  match o with
  | some a => p a
  | none => false

/-- The squares strictly between two squares of one row, column or diagonal. -/
def squaresBetween (i j r c : Int) : List (Int × Int) :=
  (List.range (max (r - i).natAbs (c - j).natAbs - 1)).map fun (k : Nat) =>
    (i + ((k : Int) + 1) * Int.sign (r - i), j + ((k : Int) + 1) * Int.sign (c - j))

/-- Every square strictly between the two squares is empty. -/
def unobstructed (board : Board) (i j r c : Int) : Bool :=
  (squaresBetween i j r c).all fun sq => (board sq.1 sq.2).isNone

/-- The attack patterns of chess, in the words of the specification: a pawn
attacks the two squares one row ahead of it and one column aside, a knight
the squares at an L-shaped offset, a bishop, rook or queen the squares of its
lines up to the first piece, a king the squares next to it.  The code has no
function for it: it asks `isValidMove` instead. -/
def standardAttack (board : Board) (i j r c : Int) : Bool :=
  match board i j with
  | none => false
  | some p =>
    let rowDiff := r - i
    let colDiff := c - j
    match p.type with
    | .pawn => rowDiff == direction p.color && colDiff.natAbs == 1
    | .knight =>
      (rowDiff.natAbs == 2 && colDiff.natAbs == 1) || (rowDiff.natAbs == 1 && colDiff.natAbs == 2)
    | .bishop => rowDiff.natAbs == colDiff.natAbs && rowDiff != 0 && unobstructed board i j r c
    | .rook => ((rowDiff == 0) != (colDiff == 0)) && unobstructed board i j r c
    | .queen =>
      ((rowDiff.natAbs == colDiff.natAbs && rowDiff != 0) || ((rowDiff == 0) != (colDiff == 0))) &&
        unobstructed board i j r c
    | .king =>
      decide (rowDiff.natAbs ≤ 1) && decide (colDiff.natAbs ≤ 1) &&
        !(rowDiff == 0 && colDiff == 0)

/-- The row a king starts on: row 7 (e1) for White, row 0 (e8) for Black. -/
def homeRow (color : Color) : Int :=
  match color with
  | .white => 7
  | .black => 0

/-- The column of the rook a king castles with: 7 on the king's side, 0 on the
queen's side. -/
def rookCorner (kingside : Bool) : Int := if kingside then 7 else 0

/-- The column a castling king lands on: two columns from column 4 toward the
rook. -/
def castleCol (kingside : Bool) : Int := if kingside then 6 else 2

/-- The column a castling king crosses. -/
def crossCol (kingside : Bool) : Int := if kingside then 5 else 3

/-- White king e1 and rook h1, black king e8, nothing else: a new game with
this board. -/
def castlingExample : Game :=
  { newChessGame true with
    board := fun r c =>
      if r == 7 && c == 4 then some ⟨.king, .white⟩
      else if r == 7 && c == 7 then some ⟨.rook, .white⟩
      else if r == 0 && c == 4 then some ⟨.king, .black⟩
      else none }

/-- The position of `castlingExample` with a black pawn added on e2.  The pawn
attacks d1 and f1; the square in front of it, e1, holds the white king. -/
def castlingThroughAttack : Game :=
  { castlingExample with board := (castlingExample.board).set 6 4 (some ⟨.pawn, .black⟩) }

/-- A game that was given a board, a side to move and castling flags. -/
def position (isSinglePlayer : Bool) (board : Board) (player : Color)
    (hasMoved : HasMoved) : Game :=
  { newChessGame isSinglePlayer with
    board := board, currentPlayer := player, hasMoved := hasMoved }

/-- Black king h8, white king f7, white queen g6, nothing else. -/
def queenG6Board : Board := fun r c =>
  if r == 0 && c == 7 then some ⟨.king, .black⟩
  else if r == 1 && c == 5 then some ⟨.king, .white⟩
  else if r == 2 && c == 6 then some ⟨.queen, .white⟩
  else none

/-- Black king a8, white king c6, white queen c7, nothing else. -/
def queenC7Board : Board := fun r c =>
  if r == 0 && c == 0 then some ⟨.king, .black⟩
  else if r == 2 && c == 2 then some ⟨.king, .white⟩
  else if r == 1 && c == 2 then some ⟨.queen, .white⟩
  else none

/-- A legal move in the words of the specification: the piece is the current
player's, `isValidMove` is true, and after `makeMove` applies the move (on the
state `isValidMove` left, as `handleSquareClick` does) the mover's own king is
not in check. -/
def legalMove (g : Game) (fromRow fromCol toRow toCol : Int) (promotionType : PieceType) :
    Bool :=
  hasColor g.board g.currentPlayer fromRow fromCol &&
  match isValidMove g fromRow fromCol toRow toCol with
  | (true, g1) =>
    holdsOn (makeMove g1 fromRow fromCol toRow toCol promotionType)
      fun g2 => !(isInCheck g2 g.currentPlayer).1
  | (false, _) => false

/-- White to move with king h4 and pawn e5 against bishop e7, knight g7, pawn f5
and king g2; the black pawn has just come from f7, so the en passant target is
f6.  The bishop gives check along e7-f6-g5-h4. -/
def blockedCheckExample : Game :=
  { newChessGame true with
    board := fun r c =>
      if r == 4 && c == 7 then some ⟨.king, .white⟩
      else if r == 3 && c == 4 then some ⟨.pawn, .white⟩
      else if r == 1 && c == 4 then some ⟨.bishop, .black⟩
      else if r == 1 && c == 6 then some ⟨.knight, .black⟩
      else if r == 3 && c == 5 then some ⟨.pawn, .black⟩
      else if r == 6 && c == 6 then some ⟨.king, .black⟩
      else none
    enPassantTarget := some (2, 5) }

/-- A two-player game, click by click: 1. h4 Nc6 2. Rh3 Nf6 3. Ra3 Ng8, and the
selection of the rook on a3.  The rook of a1 has stayed where it was. -/
def rookTourClicks : List (Int × Int) :=
  [(6, 7), (4, 7), (0, 1), (2, 2), (7, 7), (5, 7), (0, 6), (2, 5), (5, 7), (5, 0),
   (2, 5), (0, 6), (5, 0)]

/-- A two-player game, click by click: 1. f3 e5 2. g4 Qh4, which is mate. -/
def foolsMateClicks : List (Int × Int) :=
  [(6, 5), (5, 5), (1, 4), (3, 4), (6, 6), (4, 6), (0, 3), (4, 7)]

/-- Black to move in a single-player game with a black king on a8 and a white
king on h1, every flag of `hasMoved` set but the one of the black king. -/
def kingsOnly : Game :=
  position true
    (fun r c =>
      if r == 0 && c == 0 then some ⟨.king, .black⟩
      else if r == 7 && c == 7 then some ⟨.king, .white⟩
      else none)
    .black ⟨true, false, (true, true), (true, true)⟩

/-- Every flag of `hasMoved` set: no castling is left. -/
def allMoved : HasMoved := ⟨true, true, (true, true), (true, true)⟩

/-- The row the pawns of a colour start on: 6 for White, 1 for Black. -/
def startRow (color : Color) : Int :=
  match color with
  | .white => 6
  | .black => 1

/-- The destinations of a pawn of `color` on `(i, j)` in the words of the
specification: the empty square one row forward in its column; the empty
square two rows forward in its column, with the pawn on its starting row and
the square between empty; a square one row forward and one column aside that
holds an enemy piece or is the en passant target. -/
def pawnDestination (g : Game) (color : Color) (i j r c : Int) : Bool :=
  (c == j && r == i + direction color && (g.board r c).isNone) ||
  (c == j && r == i + 2 * direction color && (g.board r c).isNone &&
    i == startRow color && (g.board (i + direction color) j).isNone) ||
  ((c - j).natAbs == 1 && r == i + direction color &&
    (hasColor g.board (opponent color) r c || g.enPassantTarget == some (r, c)))

/-- The lines a rook, a bishop and a queen may travel, in the words of the
specification: rank or file, diagonal, either. -/
def onLine (t : PieceType) (i j r c : Int) : Bool :=
  match t with
  | .rook => r == i || c == j
  | .bishop => (r - i).natAbs == (c - j).natAbs
  | .queen => r == i || c == j || (r - i).natAbs == (c - j).natAbs
  | _ => false

/-- White to move with king e1, pawn e5 and knight f6 against the king e8; the
en passant target is f6, the square of the white knight. -/
def ownPieceOnTarget : Game :=
  { position true
      (fun r c =>
        if r == 7 && c == 4 then some ⟨.king, .white⟩
        else if r == 0 && c == 4 then some ⟨.king, .black⟩
        else if r == 3 && c == 4 then some ⟨.pawn, .white⟩
        else if r == 2 && c == 5 then some ⟨.knight, .white⟩
        else none)
      .white allMoved with
    enPassantTarget := some (2, 5) }

/-- White to move with king e1 and a pawn on a7 against the king e8. -/
def pawnOnSeventh : Game :=
  position true
    (fun r c =>
      if r == 7 && c == 4 then some ⟨.king, .white⟩
      else if r == 0 && c == 4 then some ⟨.king, .black⟩
      else if r == 1 && c == 0 then some ⟨.pawn, .white⟩
      else none)
    .white allMoved

/-- The position of `pawnOnSeventh` with the pawn one row back, on a6. -/
def pawnOnSixth : Game :=
  { pawnOnSeventh with
    board := ((pawnOnSeventh.board).set 1 0 none).set 2 0 (some ⟨.pawn, .white⟩) }

/-- The value of a square in the words of the specification: the value of the
piece, counted for Black and against White. -/
def signedValue (p : Option Piece) : Int :=
  match p with
  | some piece => if piece.color == .black then pieceValue piece.type else - pieceValue piece.type
  | none => 0

/-- The sum of the values of Black's pieces minus the sum of the values of
White's pieces. -/
def material (board : Board) : Int :=
  (allSquares.map fun sq => signedValue (board sq.1 sq.2)).sum

/-- The score in the words of the specification: the material, plus 50 for each
black pawn on row 1. -/
def evaluateSpec (g : Game) : Int :=
  material g.board +
    50 * ((range8.filter fun col => g.board 1 col == some ⟨.pawn, .black⟩).length : Int)

/-- The test `piece && piece.type === 'pawn'`. -/
def holdsPawn (p : Option Piece) : Bool :=
  match p with
  | some piece => piece.type == .pawn
  | none => false

/-- The number of pawns on row 1, of either colour. -/
def pawnsOnRowOne (board : Board) : Int :=
  ((range8.filter fun col => holdsPawn (board 1 col)).length : Int)

/-- The maximizing loop of `minimax` with `if (beta <= alpha) break` removed. -/
def plainMaxLoop (recurse : Game → Option (Num × Game)) :
    List Move → Num → Game → Option (Num × Game)
  | [], maxEval, g => some (maxEval, g)
  | m :: rest, maxEval, g =>
    let tempBoard := g.board
    match makeMove g m.fromRow m.fromCol m.toRow m.toCol .queen with
    | none => none
    | some g1 =>
      match recurse g1 with
      | none => none
      | some (evaluate, g2) =>
        plainMaxLoop recurse rest (Num.max maxEval evaluate) { g2 with board := tempBoard }

/-- The minimizing loop of `minimax` with `if (beta <= alpha) break` removed. -/
def plainMinLoop (recurse : Game → Option (Num × Game)) :
    List Move → Num → Game → Option (Num × Game)
  | [], minEval, g => some (minEval, g)
  | m :: rest, minEval, g =>
    let tempBoard := g.board
    match makeMove g m.fromRow m.fromCol m.toRow m.toCol .queen with
    | none => none
    | some g1 =>
      match recurse g1 with
      | none => none
      | some (evaluate, g2) =>
        plainMinLoop recurse rest (Num.min minEval evaluate) { g2 with board := tempBoard }

/-- The recursion of `minimax` with the two cut-offs removed: the same tests,
the same moves of `getAllMoves` in the same order, `evaluateBoard` at the
leaves, and no `alpha` and `beta`. -/
def plainMinimax : Nat → Bool → Game → Option (Num × Game)
  | 0, _, g => some (.fin (evaluateBoard g), g)
  | depth + 1, maximizingPlayer, g =>
    match isCheckmate g with
    | (true, g1) => some (.fin (evaluateBoard g1), g1)
    | (false, g1) =>
      match isStalemate g1 with
      | (true, g2) => some (.fin (evaluateBoard g2), g2)
      | (false, g2) =>
        match getAllMoves g2 (if maximizingPlayer then .black else .white) with
        | ([], g3) => some (.fin (evaluateBoard g3), g3)
        | (m :: ms, g3) =>
          if maximizingPlayer then
            plainMaxLoop (fun h => plainMinimax depth false h) (m :: ms) .negInf g3
          else
            plainMinLoop (fun h => plainMinimax depth true h) (m :: ms) .posInf g3

/-- Black king h8 and pawn c4 against the white king d4 and pawns c3 and b2;
the en passant target is b3. -/
def leakExample : Game :=
  { position true
      (fun r c =>
        if r == 0 && c == 7 then some ⟨.king, .black⟩
        else if r == 4 && c == 2 then some ⟨.pawn, .black⟩
        else if r == 4 && c == 3 then some ⟨.king, .white⟩
        else if r == 5 && c == 2 then some ⟨.pawn, .white⟩
        else if r == 6 && c == 1 then some ⟨.pawn, .white⟩
        else none)
      .black allMoved with
    enPassantTarget := some (5, 1) }

/-- White king a1 mated by the black queen on b2, which the black king on c3
protects; `currentPlayer` is Black, as it is all through the search. -/
def cornerMateExample : Game :=
  position true
    (fun r c =>
      if r == 7 && c == 0 then some ⟨.king, .white⟩
      else if r == 6 && c == 1 then some ⟨.queen, .black⟩
      else if r == 5 && c == 2 then some ⟨.king, .black⟩
      else none)
    .black allMoved

/-- The scores the root loop of `makeAIMove` computes, move by move: the loop
with the comparison left out. -/
def rootScores (depth : Nat) : List Move → Game → Option (List Num × Game)
  | [], g => some ([], g)
  | move :: rest, g =>
    let tempBoard := g.board
    match makeMove g move.fromRow move.fromCol move.toRow move.toCol .queen with
    | none => none
    | some g1 =>
      match minimax (depth - 1) .negInf .posInf false g1 with
      | none => none
      | some (value, g2) =>
        match rootScores depth rest { g2 with board := tempBoard } with
        | none => none
        | some (values, g3) => some (value :: values, g3)

/-- The origin of the first move is not after the origin of the second, rows
first, then columns. -/
def originLe (m1 m2 : Move) : Bool :=
  decide (m1.fromRow < m2.fromRow) ||
    (m1.fromRow == m2.fromRow && decide (m1.fromCol ≤ m2.fromCol))

/-- The order of the specification: by origin, rows first, then columns, and
for one origin by destination, rows first, then columns. -/
def rowMajorLe (m1 m2 : Move) : Bool :=
  decide (m1.fromRow < m2.fromRow) ||
    (m1.fromRow == m2.fromRow &&
      (decide (m1.fromCol < m2.fromCol) ||
        (m1.fromCol == m2.fromCol &&
          (decide (m1.toRow < m2.toRow) ||
            (m1.toRow == m2.toRow && decide (m1.toCol ≤ m2.toCol))))))

/-- Black to move with king a8 and a pawn on g2 against the white king a1 and
a knight on h1. -/
def promotionByAI : Game :=
  position true
    (fun r c =>
      if r == 0 && c == 0 then some ⟨.king, .black⟩
      else if r == 6 && c == 6 then some ⟨.pawn, .black⟩
      else if r == 7 && c == 7 then some ⟨.knight, .white⟩
      else if r == 7 && c == 0 then some ⟨.king, .white⟩
      else none)
    .black allMoved

/-- Black to move with the king on a8, in check from the white rook on a1; the
white king is on h1. -/
def rookCheck : Game :=
  position true
    (fun r c =>
      if r == 0 && c == 0 then some ⟨.king, .black⟩
      else if r == 7 && c == 0 then some ⟨.rook, .white⟩
      else if r == 7 && c == 7 then some ⟨.king, .white⟩
      else none)
    .black allMoved

/-- The legal moves of the current player, origins and destinations row by
row, each move tested on its own with `legalMove`. -/
def legalMoves (g : Game) (promotionType : PieceType) : List Move :=
  allSquares.flatMap fun a => allSquares.filterMap fun b =>
    if legalMove g a.1 a.2 b.1 b.2 promotionType then some ⟨a.1, a.2, b.1, b.2⟩ else none

/-- Black to move with king a8 and pawns b7 and h4 against the bishop e4, the
knights c8 and d7, the pawns g4 and h3 and the king e1; the white pawn has just
come from g2, so the en passant target is g3.  The pawn b7 is pinned by the
bishop, b8 and a7 are covered by the knights, h3 is occupied: the capture
h4xg3 is the one move that does not leave the black king attacked. -/
def lostCapture : Game :=
  { position true
      (fun r c =>
        if r == 0 && c == 0 then some ⟨.king, .black⟩
        else if r == 1 && c == 1 then some ⟨.pawn, .black⟩
        else if r == 4 && c == 4 then some ⟨.bishop, .white⟩
        else if r == 0 && c == 2 then some ⟨.knight, .white⟩
        else if r == 1 && c == 3 then some ⟨.knight, .white⟩
        else if r == 4 && c == 7 then some ⟨.pawn, .black⟩
        else if r == 4 && c == 6 then some ⟨.pawn, .white⟩
        else if r == 5 && c == 7 then some ⟨.pawn, .white⟩
        else if r == 7 && c == 4 then some ⟨.king, .white⟩
        else none)
      .black allMoved with
    enPassantTarget := some (5, 6) }

/-- Black to move and mated: king a8 against the queen b7, which the white
king on c6 protects.  `gameOver` is false. -/
def blackMated : Game :=
  position true
    (fun r c =>
      if r == 0 && c == 0 then some ⟨.king, .black⟩
      else if r == 1 && c == 1 then some ⟨.queen, .white⟩
      else if r == 2 && c == 2 then some ⟨.king, .white⟩
      else none)
    .black allMoved

/-- The two inner loops `for (i…) for (j…) if (this.isValidMove(row, col, i, j))`
that `isCheckmate`, `isStalemate`, `highlightPossibleMoves` and `findBestMove`
run over the 64 destinations of one piece, collecting the moves found valid. -/
def scanLoop (fromRow fromCol : Int) : List (Int × Int) → Game → List Move × Game
  | [], g => ([], g)
  | (toRow, toCol) :: rest, g =>
    match isValidMove g fromRow fromCol toRow toCol with
    | (true, g1) =>
      let r := scanLoop fromRow fromCol rest g1
      (⟨fromRow, fromCol, toRow, toCol⟩ :: r.1, r.2)
    | (false, g1) => scanLoop fromRow fromCol rest g1

/-- The scan of `scanLoop` for every piece of one colour, square by square. -/
def scanPieces (color : Color) : List (Int × Int) → Game → List Move × Game
  | [], g => ([], g)
  | (i, j) :: rest, g =>
    if hasColor g.board color i j then
      let r1 := scanLoop i j allSquares g
      let r2 := scanPieces color rest r1.2
      (r1.1 ++ r2.1, r2.2)
    else scanPieces color rest g

/-- The moves found by scanning all 64 destinations of every piece of a colour
with `isValidMove`, one call after the other on the live game. -/
def scanMoves (g : Game) (color : Color) : List Move × Game :=
  scanPieces color allSquares g

/-- A two-player game, click by click: 1. Nc3 a6. -/
def knightC3Clicks : List (Int × Int) := [(7, 1), (5, 2), (1, 0), (2, 0)]

/-- The position of `castlingExample` without the rook: the two kings on e1
and e8, no flag of `hasMoved` set. -/
def noRook : Game :=
  { castlingExample with board := (castlingExample.board).set 7 7 none }

/-- A two-player game, click by click: 1. g4 b6 2. Bh3 Bb7 3. e3 Bxh1 4. Ne2 a6.
The rook of h1 is captured where it stood; the white king has not moved. -/
def capturedRookClicks : List (Int × Int) :=
  [(6, 6), (4, 6), (1, 1), (2, 1), (7, 5), (5, 7), (0, 2), (1, 1), (6, 4), (5, 4),
   (1, 1), (7, 7), (7, 6), (6, 4), (1, 0), (2, 0)]

/-- Black to move with a black king on a8 and a white king on h1, no flag of
`hasMoved` set. -/
def cornerKing : Game := position true kingsOnly.board .black noneMoved

/-- The number of pieces on the 64 squares. -/
def pieceCount (board : Board) : Nat :=
  (allSquares.filter fun sq => (board sq.1 sq.2).isSome).length

/-- A run of clicks on a page; no promotion button is pressed. -/
def Page.clicks (p : Page) : List (Int × Int) → Option Page
  | [] => some p
  | (row, col) :: rest => (p.handleSquareClick row col).bind fun p1 => p1.clicks rest

/-- White to move in a two-player game with king g6, queen b2 and a pawn on a7
against the king h8.  The pawn can go to a8; the queen mates on g7. -/
def promotionLeftOpen : Game :=
  position false
    (fun r c =>
      if r == 0 && c == 7 then some ⟨.king, .black⟩
      else if r == 2 && c == 6 then some ⟨.king, .white⟩
      else if r == 6 && c == 1 then some ⟨.queen, .white⟩
      else if r == 1 && c == 0 then some ⟨.pawn, .white⟩
      else none)
    .white allMoved

/-- The clicks a7, a8 (the panel opens), b2 (the pawn is no longer selected),
b2 (the queen is selected), g7 (the queen mates). -/
def promotionLeftOpenClicks : List (Int × Int) := [(1, 0), (0, 0), (6, 1), (6, 1), (1, 6)]

/-! ## What the queries leave alone


`isValidMove`, `isInCheck`, `isCheckmate`, `isStalemate`, `getAllMoves` and
`renderBoard` write at most `enPassantTarget` and `gameOver`. -/

theorem isValidMoveWith_core (castling : Game → Int → Int → Int → Int → Bool × Game)
    (hc : ∀ g a b c d, (castling g a b c d).2.core = g.core)
    (g : Game) (a b c d : Int) (s : Bool) :
    (isValidMoveWith castling g a b c d s).2.core = g.core := by
  unfold isValidMoveWith
  split
  · rfl
  · split
    · rfl
    · dsimp only
      split <;> (try split_ifs) <;> first | rfl | apply hc

theorem isValidMoveSkip_core (g : Game) (a b c d : Int) :
    (isValidMoveSkip g a b c d).2.core = g.core :=
  isValidMoveWith_core _ (fun _ _ _ _ _ => rfl) g a b c d true

theorem attackLoop_core (cb : Board) (opp : Color) (r c : Int) (l : List (Int × Int))
    (g : Game) : (attackLoop cb opp r c l g).2.core = g.core := by
  induction l generalizing g with
  | nil => rfl
  | cons sq rest ih =>
    obtain ⟨i, j⟩ := sq
    unfold attackLoop
    split
    · have h := isValidMoveSkip_core g i j r c
      split
      · next g1 heq => rw [heq] at h; exact h
      · next g1 heq => rw [heq] at h; rw [ih]; exact h
    · exact ih g

theorem isInCheck_core (g : Game) (color : Color) : (isInCheck g color).2.core = g.core := by
  unfold isInCheck
  split
  · rfl
  · exact attackLoop_core _ _ _ _ _ _

theorem castlingLoop_core (color : Color) (r c : Int) (l : List Int) (g : Game) :
    (castlingLoop color r c l g).2.core = g.core := by
  induction l generalizing g with
  | nil => rfl
  | cons col rest ih =>
    unfold castlingLoop
    dsimp only
    have h := attackLoop_core (((g.board).set r col (g.board r c)).set r c none)
      (opponent color) r col allSquares g
    split
    · next g1 heq => rw [heq] at h; exact h
    · next g1 heq => rw [heq] at h; rw [ih]; exact h

theorem isValidCastling_core (g : Game) (a b c d : Int) :
    (isValidCastling g a b c d).2.core = g.core := by
  unfold isValidCastling
  split
  · rfl
  · next king _ =>
    dsimp only
    have h := isInCheck_core g king.color
    split_ifs <;> first
      | rfl
      | (split
         · next g1 heq => rw [heq] at h; exact h
         · next g1 heq =>
           rw [heq] at h
           split
           · exact h
           · rw [castlingLoop_core]; exact h)

theorem isValidMove_core (g : Game) (a b c d : Int) (s : Bool) :
    (isValidMove g a b c d s).2.core = g.core :=
  isValidMoveWith_core _ isValidCastling_core g a b c d s

theorem validateMoves_core (row col : Int) (l : List (Int × Int)) (g : Game) :
    (validateMoves row col l g).2.core = g.core := by
  induction l generalizing g with
  | nil => rfl
  | cons sq rest ih =>
    obtain ⟨i, j⟩ := sq
    unfold validateMoves
    have h := isValidMove_core g row col i j false
    split
    · next g1 heq => rw [heq] at h; dsimp only; rw [ih]; exact h
    · next g1 heq => rw [heq] at h; rw [ih]; exact h

theorem getAllMovesLoop_core (color : Color) (l : List (Int × Int)) (g : Game) :
    (getAllMovesLoop color l g).2.core = g.core := by
  induction l generalizing g with
  | nil => rfl
  | cons sq rest ih =>
    obtain ⟨i, j⟩ := sq
    unfold getAllMovesLoop
    split
    · dsimp only; rw [ih, validateMoves_core]
    · exact ih g

theorem getAllMoves_core (g : Game) (color : Color) : (getAllMoves g color).2.core = g.core :=
  getAllMovesLoop_core color allSquares g

theorem escapeLoop_core (r c : Int) (l : List (Int × Int)) (g : Game) :
    (escapeLoop r c l g).2.core = g.core := by
  induction l generalizing g with
  | nil => rfl
  | cons sq rest ih =>
    obtain ⟨i, j⟩ := sq
    unfold escapeLoop
    have h := isValidMove_core g r c i j false
    split
    · next g1 heq =>
      rw [heq] at h
      split
      · exact h
      · rw [ih]; exact h
    · next g1 heq => rw [heq] at h; rw [ih]; exact h

theorem anyEscape_core (l : List (Int × Int)) (g : Game) : (anyEscape l g).2.core = g.core := by
  induction l generalizing g with
  | nil => rfl
  | cons sq rest ih =>
    obtain ⟨i, j⟩ := sq
    unfold anyEscape
    split
    · have h := escapeLoop_core i j allSquares g
      split
      · next g1 heq => rw [heq] at h; exact h
      · next g1 heq => rw [heq] at h; rw [ih]; exact h
    · exact ih g

theorem isCheckmate_core (g : Game) : (isCheckmate g).2.core = g.core := by
  unfold isCheckmate
  have h := isInCheck_core g g.currentPlayer
  split
  · next g1 heq => rw [heq] at h; exact h
  · next g1 heq =>
    rw [heq] at h
    have h2 := anyEscape_core allSquares g1
    split
    · next g2 heq2 => rw [heq2] at h2; exact h2.trans h
    · next g2 heq2 => rw [heq2] at h2; exact h2.trans h

theorem isStalemate_core (g : Game) : (isStalemate g).2.core = g.core := by
  unfold isStalemate
  have h := isInCheck_core g g.currentPlayer
  split
  · next g1 heq => rw [heq] at h; exact h
  · next g1 heq =>
    rw [heq] at h
    have h2 := anyEscape_core allSquares g1
    split
    · next g2 heq2 => rw [heq2] at h2; exact h2.trans h
    · next g2 heq2 => rw [heq2] at h2; exact h2.trans h

theorem renderBoard_core (g : Game) : (renderBoard g).core = g.core := by
  unfold renderBoard
  split
  · dsimp only
    rw [isCheckmate_core]
    have h := isCheckmate_core g
    split
    · next g1 heq => rw [heq] at h; exact h
    · next g1 heq => rw [heq] at h; rw [isStalemate_core]; exact h
  · exact isInCheck_core _ _

theorem checkGameOver_core (g : Game) : (checkGameOver g).core = g.core := by
  unfold checkGameOver
  have h := isCheckmate_core g
  split
  · next g1 heq => rw [heq] at h; exact h
  · next g1 heq =>
    rw [heq] at h
    have h2 := isStalemate_core g1
    split
    · next g2 heq2 => rw [heq2] at h2; exact h2.trans h
    · next g2 heq2 => rw [heq2] at h2; exact h2.trans h

theorem core_board {g g1 : Game} (h : g1.core = g.core) : g1.board = g.board := by
  have h1 := congrArg Game.board h
  exact h1

theorem core_currentPlayer {g g1 : Game} (h : g1.core = g.core) :
    g1.currentPlayer = g.currentPlayer := by
  have h1 := congrArg Game.currentPlayer h
  exact h1

theorem core_moveHistory {g g1 : Game} (h : g1.core = g.core) :
    g1.moveHistory = g.moveHistory := by
  have h1 := congrArg Game.moveHistory h
  exact h1

theorem core_moveNotation {g g1 : Game} (h : g1.core = g.core) :
    Game.moveNotation g1 = Game.moveNotation g := by
  have h1 := congrArg Game.moveNotation h
  exact h1

theorem core_hasMoved {g g1 : Game} (h : g1.core = g.core) : g1.hasMoved = g.hasMoved := by
  have h1 := congrArg Game.hasMoved h
  exact h1

theorem core_isSinglePlayer {g g1 : Game} (h : g1.core = g.core) :
    g1.isSinglePlayer = g.isSinglePlayer := by
  have h1 := congrArg Game.isSinglePlayer h
  exact h1

theorem core_selectedPiece {g g1 : Game} (h : g1.core = g.core) :
    g1.selectedPiece = g.selectedPiece := by
  have h1 := congrArg Game.selectedPiece h
  exact h1

/-! ## What a move, a commit and an undo write -/

/-- `makeMove` writes `board` and `enPassantTarget` only. -/
theorem makeMove_eq {g g1 : Game} {a b c d : Int} {t : PieceType}
    (h : makeMove g a b c d t = some g1) :
    g1 = { g with board := g1.board, enPassantTarget := g1.enPassantTarget } := by
  unfold makeMove at h
  split at h
  · simp at h
  · dsimp only at h
    split at h
    · simp at h
    · simp only [Option.some.injEq] at h
      rw [← h]

/-- `updateCastlingFlags` writes `hasMoved` only. -/
theorem updateCastlingFlags_eq (g : Game) (a b c d : Int) :
    updateCastlingFlags g a b c d =
      { g with hasMoved := (updateCastlingFlags g a b c d).hasMoved } := by
  unfold updateCastlingFlags
  split
  · rfl
  · split_ifs <;> rfl

/-- The flags `updateCastlingFlags` leaves depend on the board and on the flags
before only. -/
theorem updateCastlingFlags_congr {g h : Game} (a b c d : Int) (hb : g.board = h.board)
    (hm : g.hasMoved = h.hasMoved) :
    (updateCastlingFlags g a b c d).hasMoved = (updateCastlingFlags h a b c d).hasMoved := by
  unfold updateCastlingFlags
  rw [hb]
  cases h.board c d with
  | none => exact hm
  | some p =>
    dsimp only
    split_ifs <;> simp [hm]

/-- `addMoveNotation` appends the text of the move to `moveNotation` and writes
nothing else. -/
theorem addMoveNotation_eq {g g1 : Game} {a b c d : Int} {cap : Option Piece} {x y : Bool}
    (h : addMoveNotation g a b c d cap x y = some g1) :
    ∃ t, moveText g b c d cap x y = some t ∧
      g1 = { g with moveNotation := Game.moveNotation g ++ [t] } := by
  unfold addMoveNotation at h
  split at h
  · simp at h
  · next t ht =>
    simp only [Option.some.injEq] at h
    exact ⟨t, ht, h.symm⟩

theorem core_of_render_check {g g2 : Game} (h : renderBoard (checkGameOver g) = g2) :
    g2.core = g.core :=
  h ▸ (renderBoard_core _).trans (checkGameOver_core _)

/-- The fields of the state `commitMove` returns. -/
theorem commitMove_fields {g g2 : Game} {a b c d : Int} {tb : Board} {cap : Option Piece}
    {x y : Bool} (h : commitMove g a b c d tb cap x y = some g2) :
    g2.board = g.board ∧ g2.currentPlayer = opponent g.currentPlayer ∧
    g2.moveHistory =
      g.moveHistory ++ [⟨a, b, c, d, tb, cap, g.currentPlayer, g.enPassantTarget⟩] ∧
    (∃ t, moveText g b c d cap x y = some t ∧
      Game.moveNotation g2 = Game.moveNotation g ++ [t]) ∧
    g2.hasMoved = (updateCastlingFlags g a b c d).hasMoved ∧
    g2.isSinglePlayer = g.isSinglePlayer := by
  unfold commitMove at h
  dsimp only at h
  split at h
  · simp at h
  · next gn hn =>
    obtain ⟨t, htx, ht⟩ := addMoveNotation_eq hn
    simp only [Option.some.injEq] at h
    have hr := core_of_render_check h
    rw [updateCastlingFlags_eq] at hr
    have hu : (updateCastlingFlags gn a b c d).hasMoved =
        (updateCastlingFlags g a b c d).hasMoved :=
      updateCastlingFlags_congr a b c d (by rw [ht]) (by rw [ht])
    subst ht
    have h1 := core_board hr
    have h2 := core_currentPlayer hr
    have h3 := core_moveHistory hr
    have h4 := core_moveNotation hr
    have h5 := (core_hasMoved hr).trans hu
    have h6 := core_isSinglePlayer hr
    exact ⟨h1, h2, h3, ⟨t, htx, h4⟩, h5, h6⟩

/-- The fields of the state `undoMove` returns when there is a move to undo. -/
theorem undoMove_fields {g : Game} {e : HistoryEntry} {l : List HistoryEntry}
    (hl : g.moveHistory = l ++ [e]) (hgo : g.gameOver = false) :
    (undoMove g).board = e.board ∧ (undoMove g).currentPlayer = e.currentPlayer ∧
    (undoMove g).moveHistory = l ∧
    Game.moveNotation (undoMove g) = (Game.moveNotation g).dropLast ∧
    (undoMove g).hasMoved = g.hasMoved := by
  unfold undoMove
  have hlen : (g.moveHistory.length == 0 || g.gameOver) = false := by simp [hl, hgo]
  have hgl : g.moveHistory.getLast? = some e := by simp [hl]
  have hdl : g.moveHistory.dropLast = l := by simp [hl]
  rw [hlen, hgl, hdl]
  simp only [Bool.false_eq_true, if_false]
  have hr := renderBoard_core { g with
        moveHistory := l
        board := e.board
        currentPlayer := e.currentPlayer
        enPassantTarget := e.enPassantTarget
        moveNotation := (Game.moveNotation g).dropLast
        selectedPiece := none
        possibleMoves := [] }
  have h1 := core_board hr
  have h2 := core_currentPlayer hr
  have h3 := core_moveHistory hr
  have h4 := core_moveNotation hr
  have h5 := core_hasMoved hr
  exact ⟨h1, h2, h3, h4, h5⟩

theorem renderBoard_hasMoved (g : Game) : (renderBoard g).hasMoved = g.hasMoved :=
  core_hasMoved (renderBoard_core g)

/-- `undoMove` never writes `hasMoved`. -/
theorem undoMove_hasMoved (g : Game) : (undoMove g).hasMoved = g.hasMoved := by
  unfold undoMove
  split
  · rfl
  · split
    · rfl
    · exact renderBoard_hasMoved _

/-- `updateCastlingFlags` only sets flags. -/
theorem updateCastlingFlags_le (g : Game) (a b c d : Int) :
    HasMoved.le g.hasMoved (updateCastlingFlags g a b c d).hasMoved := by
  unfold updateCastlingFlags HasMoved.le
  split
  · simp
  · split_ifs <;> simp

/-! ## Playing from the opening position -/

theorem reachable_clicks (l : List (Int × Int)) (g g1 : Game) (hg : Reachable g)
    (hl : ∀ sq ∈ l, isInBounds sq.1 sq.2 = true) (h : clicks g l = some g1) : Reachable g1 := by
  induction l generalizing g with
  | nil =>
    simp only [clicks, Option.some.injEq] at h
    exact h ▸ hg
  | cons sq rest ih =>
    obtain ⟨row, col⟩ := sq
    simp only [clicks] at h
    cases hc : handleSquareClick g row col .queen with
    | none => rw [hc] at h; simp at h
    | some g2 =>
      rw [hc] at h
      simp only [Option.some_bind] at h
      refine ih g2 (Reachable.click row col .queen hg ?_ ?_ hc) ?_ h
      · exact hl (row, col) (List.mem_cons_self _ _)
      · simp [promotionOptions]
      · intro sq hsq
        exact hl sq (List.mem_cons_of_mem _ hsq)

theorem exists_of_holdsOn {α : Type} (o : Option α) (p : α → Bool)
    (h : holdsOn o p = true) : ∃ a, o = some a ∧ p a = true := by
  cases o with
  | none => simp [holdsOn] at h
  | some a => exact ⟨a, rfl, h⟩

theorem inBounds_queenCheckClicks : ∀ sq ∈ queenCheckClicks, isInBounds sq.1 sq.2 = true := by
  decide

theorem inBounds_enPassantClicks : ∀ sq ∈ enPassantClicks, isInBounds sq.1 sq.2 = true := by
  decide

/-! ## Check depends on the board only -/

theorem isPathClear_congr {g h : Game} (hb : h.board = g.board) (a b c d : Int) :
    isPathClear h a b c d = isPathClear g a b c d := by
  unfold isPathClear
  rw [hb]

/-- On an occupied destination `isValidMove(…, true)` writes nothing, and its
answer depends on the board only. -/
theorem isValidMoveSkip_occupied {g : Game} {i j r c : Int} (ho : (g.board r c).isSome = true) :
    (isValidMoveSkip g i j r c).2 = g ∧
    ∀ h : Game, h.board = g.board →
      (isValidMoveSkip h i j r c).1 = (isValidMoveSkip g i j r c).1 := by
  have hn : (g.board r c).isNone = false := by
    cases hx : g.board r c with
    | none => rw [hx] at ho; simp at ho
    | some p => rfl
  constructor
  · unfold isValidMoveSkip isValidMoveWith
    split
    · rfl
    · split
      · rfl
      · dsimp only
        split <;> (try split_ifs) <;> first | rfl | simp_all
  · intro h hb
    unfold isValidMoveSkip isValidMoveWith
    rw [hb, isPathClear_congr hb]
    split
    · rfl
    · split
      · rfl
      · dsimp only
        split <;> simp [hn, ho] <;> split_ifs <;> rfl

/-- With a piece on the square asked about, the attack loop writes nothing
and its answer depends on the two boards only. -/
theorem attackLoop_occupied (cb : Board) (opp : Color) {r c : Int} (l : List (Int × Int))
    {g : Game} (ho : (g.board r c).isSome = true) :
    (attackLoop cb opp r c l g).2 = g ∧
    ∀ h : Game, h.board = g.board →
      (attackLoop cb opp r c l h).1 = (attackLoop cb opp r c l g).1 := by
  induction l with
  | nil => exact ⟨rfl, fun _ _ => rfl⟩
  | cons sq rest ih =>
    obtain ⟨i, j⟩ := sq
    obtain ⟨h1, h2⟩ := isValidMoveSkip_occupied (g := g) (i := i) (j := j) ho
    have hg : isValidMoveSkip g i j r c = ((isValidMoveSkip g i j r c).1, g) :=
      Prod.ext rfl h1
    constructor
    · unfold attackLoop
      split
      · rw [hg]
        cases (isValidMoveSkip g i j r c).1 with
        | true => rfl
        | false => exact ih.1
      · exact ih.1
    · intro h hb
      have ho2 : (h.board r c).isSome = true := by rw [hb]; exact ho
      obtain ⟨k1, _⟩ := isValidMoveSkip_occupied (g := h) (i := i) (j := j) ho2
      have hh : isValidMoveSkip h i j r c = ((isValidMoveSkip g i j r c).1, h) :=
        Prod.ext (h2 h hb) k1
      unfold attackLoop
      split
      · rw [hg, hh]
        cases (isValidMoveSkip g i j r c).1 with
        | true => rfl
        | false => exact ih.2 h hb
      · exact ih.2 h hb

theorem find?_isKingOf {board : Board} {color : Color} {i j : Int}
    (h : range8.find? (fun j => isKingOf board color i j) = some j) :
    isKingOf board color i j = true :=
  List.find?_some h

/-- The square `findKing` returns holds a king of the colour asked for. -/
theorem findKing_isKingOf {board : Board} {color : Color} {i j : Int}
    (h : findKing board color = some (i, j)) : isKingOf board color i j = true := by
  unfold findKing at h
  have key : ∀ (l : List Int) (acc : Option (Int × Int)),
      (∀ a b, acc = some (a, b) → isKingOf board color a b = true) →
      ∀ a b, l.foldl
        (fun acc i =>
          match range8.find? (fun j => isKingOf board color i j) with
          | some j => some (i, j)
          | none => acc) acc = some (a, b) → isKingOf board color a b = true := by
    intro l
    induction l with
    | nil => intro acc hacc a b hab; exact hacc a b hab
    | cons x rest ih =>
      intro acc hacc a b hab
      rw [List.foldl_cons] at hab
      refine ih _ ?_ a b hab
      intro a1 b1 h1
      split at h1
      · next j1 hj1 =>
        simp only [Option.some.injEq, Prod.mk.injEq] at h1
        rw [← h1.1, ← h1.2]
        exact find?_isKingOf hj1
      · exact hacc a1 b1 h1
  exact key range8 none (fun _ _ hh => by simp at hh) i j h

theorem isSome_of_isKingOf {board : Board} {color : Color} {i j : Int}
    (h : isKingOf board color i j = true) : (board i j).isSome = true := by
  unfold isKingOf at h
  split at h
  · next p hp => rw [hp]; rfl
  · simp at h

/-- The answer of `isInCheck` depends on the board only. -/
theorem isInCheck_congr {g h : Game} (hb : h.board = g.board) (color : Color) :
    (isInCheck h color).1 = (isInCheck g color).1 := by
  unfold isInCheck
  rw [hb]
  cases hk : findKing g.board color with
  | none => rfl
  | some sq =>
    obtain ⟨i, j⟩ := sq
    dsimp only
    exact (attackLoop_occupied _ _ _ (isSome_of_isKingOf (findKing_isKingOf hk))).2 h hb

/-! ## The move path of a click -/

theorem makeMove_currentPlayer {g g1 : Game} {a b c d : Int} {t : PieceType}
    (h : makeMove g a b c d t = some g1) : g1.currentPlayer = g.currentPlayer := by
  rw [makeMove_eq h]

theorem makeMove_moveHistory {g g1 : Game} {a b c d : Int} {t : PieceType}
    (h : makeMove g a b c d t = some g1) : g1.moveHistory = g.moveHistory := by
  rw [makeMove_eq h]

/-- What the callback of a move attempt returns: either the mover is in check
after `makeMove`, the board handed over as `tempBoard` is put back and
nothing is committed; or the mover is not in check and the move is
committed. -/
theorem moveCallback_cases {g : Game} {a b c d : Int} {tb : Board} {cap : Option Piece}
    {x y : Bool} {t : PieceType} {r : Bool × Game}
    (h : moveCallback g a b c d tb cap x y t = some r) :
    ∃ gm, makeMove g a b c d t = some gm ∧
      (((isInCheck gm g.currentPlayer).1 = true ∧ r.1 = false ∧ r.2.board = tb ∧
          r.2.moveHistory = g.moveHistory ∧ r.2.currentPlayer = g.currentPlayer) ∨
       ((isInCheck gm g.currentPlayer).1 = false ∧ r.1 = true ∧ r.2.board = gm.board ∧
          (∃ e, r.2.moveHistory = g.moveHistory ++ [e]) ∧
          r.2.currentPlayer = opponent g.currentPlayer ∧
          (isInCheck r.2 g.currentPlayer).1 = false)) := by
  unfold moveCallback at h
  split at h
  · simp at h
  · next gm hgm =>
    refine ⟨gm, hgm, ?_⟩
    have hcp := makeMove_currentPlayer hgm
    have hmh := makeMove_moveHistory hgm
    have hc := isInCheck_core gm gm.currentPlayer
    split at h
    · next g2 h2 =>
      left
      simp only [Option.some.injEq] at h
      rw [h2] at hc
      subst h
      refine ⟨?_, rfl, rfl, ?_, ?_⟩
      · rw [← hcp, h2]
      · exact (core_moveHistory hc).trans hmh
      · exact (core_currentPlayer hc).trans hcp
    · next g2 h2 =>
      right
      rw [h2] at hc
      cases hcm : commitMove g2 a b c d tb cap x y with
      | none => rw [hcm] at h; simp at h
      | some g3 =>
        rw [hcm] at h
        simp only [Option.map_some', Option.some.injEq] at h
        subst h
        obtain ⟨f1, f2, f3, _, _, _⟩ := commitMove_fields hcm
        have hb : g3.board = gm.board := f1.trans (core_board hc)
        have hmh2 : g2.moveHistory = g.moveHistory := (core_moveHistory hc).trans hmh
        rw [hmh2] at f3
        refine ⟨?_, rfl, hb, ⟨_, f3⟩, ?_, ?_⟩
        · rw [← hcp, h2]
        · rw [f2, core_currentPlayer hc, hcp]
        · show (isInCheck g3 g.currentPlayer).1 = false
          rw [isInCheck_congr hb, ← hcp, h2]

/-- `highlightPossibleMoves` leaves the board, the side to move and the
history alone. -/
theorem highlightLoop_fields (row col : Int) (l : List (Int × Int)) (g : Game) :
    (highlightLoop row col l g).board = g.board ∧
    (highlightLoop row col l g).currentPlayer = g.currentPlayer ∧
    (highlightLoop row col l g).moveHistory = g.moveHistory := by
  induction l generalizing g with
  | nil => exact ⟨rfl, rfl, rfl⟩
  | cons sq rest ih =>
    obtain ⟨i, j⟩ := sq
    unfold highlightLoop
    have h := isValidMove_core g row col i j false
    split
    · next g1 heq =>
      rw [heq] at h
      have b1 : g1.board = g.board := core_board h
      have b2 : g1.currentPlayer = g.currentPlayer := core_currentPlayer h
      have b3 : g1.moveHistory = g.moveHistory := core_moveHistory h
      split
      · obtain ⟨a1, a2, a3⟩ := ih { g1 with possibleMoves := g1.possibleMoves ++ [(i, j)] }
        exact ⟨a1.trans b1, a2.trans b2, a3.trans b3⟩
      · obtain ⟨a1, a2, a3⟩ := ih g1
        exact ⟨a1.trans b1, a2.trans b2, a3.trans b3⟩
    · next g1 heq =>
      rw [heq] at h
      have b1 : g1.board = g.board := core_board h
      have b2 : g1.currentPlayer = g.currentPlayer := core_currentPlayer h
      have b3 : g1.moveHistory = g.moveHistory := core_moveHistory h
      obtain ⟨a1, a2, a3⟩ := ih g1
      exact ⟨a1.trans b1, a2.trans b2, a3.trans b3⟩

theorem renderBoard_fields (g : Game) :
    (renderBoard g).board = g.board ∧ (renderBoard g).currentPlayer = g.currentPlayer ∧
    (renderBoard g).moveHistory = g.moveHistory :=
  ⟨core_board (renderBoard_core g), core_currentPlayer (renderBoard_core g),
    core_moveHistory (renderBoard_core g)⟩

/-- The move path of `handleSquareClick`: a piece is selected, the click is
taken and `isValidMove` accepts the move. -/
theorem handleSquareClick_valid {g g1 gv : Game} {row col fromRow fromCol : Int}
    {promotionChoice : PieceType}
    (hsel : g.selectedPiece = some (fromRow, fromCol)) (hgo : g.gameOver = false)
    (hturn : (g.isSinglePlayer && g.currentPlayer == .black) = false)
    (hv : isValidMove g fromRow fromCol row col = (true, gv))
    (h : handleSquareClick g row col promotionChoice = some g1) :
    ∃ gw gm : Game, ∃ t : PieceType, gw.board = g.board ∧
      makeMove gw fromRow fromCol row col t = some gm ∧
      (((isInCheck gm g.currentPlayer).1 = true ∧ g1.board = g.board ∧
          g1.moveHistory = g.moveHistory ∧ g1.currentPlayer = g.currentPlayer) ∨
       ((isInCheck gm g.currentPlayer).1 = false ∧ g1.board = gm.board ∧
          (∃ e, g1.moveHistory = g.moveHistory ++ [e]) ∧
          g1.currentPlayer = opponent g.currentPlayer ∧
          (isInCheck g1 g.currentPlayer).1 = false)) := by
  have hc := isValidMove_core g fromRow fromCol row col false
  rw [hv] at hc
  have hvb : gv.board = g.board := core_board hc
  have hvc : gv.currentPlayer = g.currentPlayer := core_currentPlayer hc
  have hvh : gv.moveHistory = g.moveHistory := core_moveHistory hc
  unfold handleSquareClick at h
  rw [hgo, hturn, hsel] at h
  simp only [Bool.false_eq_true, if_false, hv] at h
  split at h
  · -- promotion
    obtain ⟨r1, r2, r3⟩ := renderBoard_fields gv
    split at h
    · simp at h
    · next flag g2 hcb =>
      simp only [Option.some.injEq] at h
      obtain ⟨q1, q2, q3⟩ := renderBoard_fields g2
      obtain ⟨gm, hgm, hcase⟩ := moveCallback_cases hcb
      refine ⟨renderBoard gv, gm, promotionChoice, r1.trans hvb, hgm, ?_⟩
      rw [r2, hvc, r3, hvh] at hcase
      rcases hcase with ⟨c1, _, c3, c4, c5⟩ | ⟨c1, _, c3, c4, c5, c6⟩
      · left
        subst h
        exact ⟨c1, q1.trans (c3.trans hvb), q3.trans c4, q2.trans c5⟩
      · right
        subst h
        refine ⟨c1, q1.trans c3, ?_, q2.trans c5, ?_⟩
        · obtain ⟨e, he⟩ := c4
          exact ⟨e, q3.trans he⟩
        · rw [isInCheck_congr q1]; exact c6
  · split at h
    · simp at h
    · next g2 hcb =>
      simp only [Option.some.injEq] at h
      obtain ⟨gm, hgm, hcase⟩ := moveCallback_cases hcb
      refine ⟨gv, gm, .queen, hvb, hgm, ?_⟩
      rw [hvc, hvh] at hcase
      rcases hcase with ⟨_, c2, _⟩ | ⟨c1, _, c3, c4, c5, c6⟩
      · simp at c2
      · right
        subst h
        exact ⟨c1, c3, c4, c5, c6⟩
    · next g2 hcb =>
      simp only [Option.some.injEq] at h
      obtain ⟨q1, q2, q3⟩ := renderBoard_fields g2
      obtain ⟨gm, hgm, hcase⟩ := moveCallback_cases hcb
      refine ⟨gv, gm, .queen, hvb, hgm, ?_⟩
      rw [hvc, hvh] at hcase
      rcases hcase with ⟨c1, _, c3, c4, c5⟩ | ⟨_, c2, _⟩
      · left
        subst h
        exact ⟨c1, q1.trans (c3.trans hvb), q3.trans c4, q2.trans c5⟩
      · simp at c2

/-! ## The path loop and the attack patterns -/

theorem isNone_eq_not_isSome {α : Type} (o : Option α) : o.isNone = !o.isSome := by
  cases o <;> rfl

theorem isPathClearLoop_eq (board : Board) (rs cs : Int) (hstep : rs ≠ 0 ∨ cs ≠ 0) :
    ∀ (n fuel : Nat) (row col : Int), n ≤ fuel →
      isPathClearLoop board rs cs (row + (n : Int) * rs) (col + (n : Int) * cs) fuel row col =
        (List.range n).all fun k =>
          (board (row + (k : Int) * rs) (col + (k : Int) * cs)).isNone := by
  intro n
  induction n with
  | zero =>
    intro fuel row col _
    cases fuel with
    | zero => simp [isPathClearLoop]
    | succ f => simp [isPathClearLoop]
  | succ n ih =>
    intro fuel row col hle
    cases fuel with
    | zero => omega
    | succ f =>
      have hne : (row != row + ((n + 1 : Nat) : Int) * rs ||
          col != col + ((n + 1 : Nat) : Int) * cs) = true := by
        simp only [Bool.or_eq_true, bne_iff_ne, ne_eq]
        rcases hstep with h | h
        · left
          intro heq
          have h1 : ((n + 1 : Nat) : Int) * rs = 0 := by omega
          rcases Int.mul_eq_zero.mp h1 with h0 | h0
          · omega
          · exact h h0
        · right
          intro heq
          have h1 : ((n + 1 : Nat) : Int) * cs = 0 := by omega
          rcases Int.mul_eq_zero.mp h1 with h0 | h0
          · omega
          · exact h h0
      unfold isPathClearLoop
      rw [if_pos hne, List.range_succ_eq_map, List.all_cons, List.all_map]
      have h0 : (board (row + ((0 : Nat) : Int) * rs) (col + ((0 : Nat) : Int) * cs)).isNone =
          !(board row col).isSome := by
        simp only [Nat.cast_zero, zero_mul, add_zero]
        exact isNone_eq_not_isSome _
      rw [h0]
      cases hb : (board row col).isSome with
      | true => simp
      | false =>
        simp only [Bool.false_eq_true, if_false, Bool.not_false, Bool.true_and]
        have e1 : row + ((n + 1 : Nat) : Int) * rs = (row + rs) + (n : Int) * rs := by
          push_cast; ring
        have e2 : col + ((n + 1 : Nat) : Int) * cs = (col + cs) + (n : Int) * cs := by
          push_cast; ring
        rw [e1, e2, ih f (row + rs) (col + cs) (by omega)]
        congr 1
        funext k
        simp only [Function.comp]
        congr 2 <;> (push_cast; ring)

theorem all_map_eq {α β : Type} (l : List α) (f : α → β) (p : β → Bool) :
    (l.map f).all p = l.all fun x => p (f x) := by
  induction l with
  | nil => rfl
  | cons a l ih => simp [List.all_cons, ih]

theorem sign_cases (a : Int) :
    (a < 0 ∧ Int.sign a = -1) ∨ (a = 0 ∧ Int.sign a = 0) ∨ (0 < a ∧ Int.sign a = 1) := by
  rcases lt_trichotomy a 0 with h | h | h
  · exact Or.inl ⟨h, Int.sign_eq_neg_one_of_neg h⟩
  · exact Or.inr (Or.inl ⟨h, by rw [h]; rfl⟩)
  · exact Or.inr (Or.inr ⟨h, Int.sign_eq_one_of_pos h⟩)

/-- On two squares of one row, column or diagonal the loop of `isPathClear`
answers whether every square strictly between them is empty. -/
theorem isPathClear_eq_unobstructed (g : Game) (i j r c : Int)
    (hal : r = i ∨ c = j ∨ (r - i).natAbs = (c - j).natAbs) :
    isPathClear g i j r c = unobstructed g.board i j r c := by
  unfold isPathClear unobstructed squaresBetween
  dsimp only
  obtain ⟨d, hd⟩ : ∃ d, max (r - i).natAbs (c - j).natAbs = d := ⟨_, rfl⟩
  rw [hd]
  obtain ⟨rs, hrs⟩ : ∃ rs, Int.sign (r - i) = rs := ⟨_, rfl⟩
  obtain ⟨cs, hcs⟩ : ∃ cs, Int.sign (c - j) = cs := ⟨_, rfl⟩
  rw [hrs, hcs]
  cases d with
  | zero =>
    have h1 : r = i := by omega
    have h2 : c = j := by omega
    subst h1 h2
    simp only [sub_self, Int.sign_zero] at hrs hcs
    subst hrs hcs
    simp [isPathClearLoop]
  | succ m =>
    have hall : (rs ≠ 0 ∨ cs ≠ 0) ∧ r = i + rs + (m : Int) * rs ∧
        c = j + cs + (m : Int) * cs := by
      rcases sign_cases (r - i) with ⟨h1, h2⟩ | ⟨h1, h2⟩ | ⟨h1, h2⟩ <;>
        rcases sign_cases (c - j) with ⟨k1, k2⟩ | ⟨k1, k2⟩ | ⟨k1, k2⟩ <;>
        (rw [h2] at hrs; rw [k2] at hcs; subst hrs hcs; refine ⟨?_, ?_, ?_⟩ <;> omega)
    obtain ⟨hs, hr, hc⟩ := hall
    have key := isPathClearLoop_eq g.board rs cs hs m (m + 1) (i + rs) (j + cs) (by omega)
    rw [← hr, ← hc] at key
    rw [key, Nat.add_sub_cancel, all_map_eq]
    congr 1
    funext k
    congr 2 <;> ring

/-- To another square `isValidMove(…, true)` says yes only for a piece that
attacks the square, or for a pawn that can advance to it. -/
theorem isValidMoveSkip_cases (g : Game) (i j r c : Int) (hne : ¬ (r = i ∧ c = j)) :
    isValidMoveSkip g i j r c = (false, g) ∨ standardAttack g.board i j r c = true ∨
    ∃ p, g.board i j = some p ∧ p.type = .pawn ∧ g.board r c = none ∧ c = j ∧
      (r = i + direction p.color ∨
       (r = i + 2 * direction p.color ∧
        ((p.color = .white ∧ i = 6) ∨ (p.color = .black ∧ i = 1)))) := by
  cases hb : g.board i j with
  | none =>
    left
    unfold isValidMoveSkip isValidMoveWith
    rw [hb]
  | some p =>
    obtain ⟨t, pc⟩ := p
    unfold isValidMoveSkip isValidMoveWith standardAttack
    rw [hb]
    dsimp only
    by_cases hcol : hasColor g.board pc r c = true
    · left; rw [if_pos hcol]
    · rw [if_neg hcol]
      cases t with
      | pawn =>
        dsimp only
        split_ifs with h1 h2 h3
        · right; right
          simp only [Bool.and_eq_true, beq_iff_eq, Option.isNone_iff_eq_none] at h1
          refine ⟨⟨.pawn, pc⟩, rfl, rfl, h1.1.2, by omega, Or.inl ?_⟩
          show r = i + direction pc
          omega
        · right; right
          simp only [Bool.and_eq_true, beq_iff_eq, Bool.or_eq_true,
            Option.isNone_iff_eq_none] at h2
          refine ⟨⟨.pawn, pc⟩, rfl, rfl, h2.1.1.1.2, by omega, Or.inr ⟨?_, ?_⟩⟩
          · show r = i + 2 * direction pc
            omega
          · rcases h2.2 with h | h
            · exact Or.inl h
            · exact Or.inr h
        · right; left
          simp only [Bool.and_eq_true, beq_iff_eq] at h3 ⊢
          exact ⟨h3.1.2, h3.1.1⟩
        · left; rfl
      | rook =>
        dsimp only
        cases hres : ((r - i == 0 || c - j == 0) && isPathClear g i j r c) with
        | false => left; rfl
        | true =>
          right; left
          simp only [Bool.and_eq_true, Bool.or_eq_true, beq_iff_eq] at hres
          rw [isPathClear_eq_unobstructed g i j r c (by omega)] at hres
          simp only [Bool.and_eq_true, hres.2, and_true, bne_iff_ne, ne_eq, beq_eq_beq]
          omega
      | knight =>
        dsimp only
        cases hres : ((r - i).natAbs == 2 && (c - j).natAbs == 1 ||
            (r - i).natAbs == 1 && (c - j).natAbs == 2) with
        | false => left; rfl
        | true => right; left; rfl
      | bishop =>
        dsimp only
        cases hres : ((r - i).natAbs == (c - j).natAbs && isPathClear g i j r c) with
        | false => left; rfl
        | true =>
          right; left
          simp only [Bool.and_eq_true, beq_iff_eq] at hres
          rw [isPathClear_eq_unobstructed g i j r c (Or.inr (Or.inr hres.1))] at hres
          simp only [Bool.and_eq_true, hres.2, and_true, bne_iff_ne, ne_eq, beq_iff_eq]
          omega
      | queen =>
        dsimp only
        cases hres : (((r - i == 0 || c - j == 0) || (r - i).natAbs == (c - j).natAbs) &&
            isPathClear g i j r c) with
        | false => left; rfl
        | true =>
          right; left
          simp only [Bool.and_eq_true, Bool.or_eq_true, beq_iff_eq] at hres
          rw [isPathClear_eq_unobstructed g i j r c (by omega)] at hres
          simp only [Bool.and_eq_true, hres.2, and_true, bne_iff_ne, ne_eq, beq_iff_eq,
            Bool.or_eq_true, beq_eq_beq]
          omega
      | king =>
        dsimp only
        simp only [Bool.not_true, Bool.false_and, Bool.false_eq_true, if_false]
        split_ifs with h1
        · right; left
          simp only [Bool.and_eq_true, decide_eq_true_eq] at h1
          simp only [Bool.and_eq_true, decide_eq_true_eq, Bool.not_eq_true',
            Bool.and_eq_false_imp, beq_iff_eq, beq_eq_false_iff_ne, ne_eq]
          omega
        · left; rfl

/-! ## Castling -/

theorem mem_range8 (a : Int) : a ∈ range8 ↔ 0 ≤ a ∧ a < 8 := by
  unfold range8
  simp only [List.mem_cons, List.mem_singleton, List.not_mem_nil, or_false]
  omega

theorem mem_allSquares (a b : Int) : (a, b) ∈ allSquares ↔ a ∈ range8 ∧ b ∈ range8 := by
  unfold allSquares
  simp only [List.mem_flatMap, List.mem_map, Prod.mk.injEq]
  constructor
  · rintro ⟨x, hx, y, hy, rfl, rfl⟩
    exact ⟨hx, hy⟩
  · rintro ⟨ha, hb⟩
    exact ⟨a, ha, b, hb, rfl, rfl⟩

/-- The attack loop answers no when every piece it asks about answers no. -/
theorem attackLoop_eq_false (cb : Board) (opp : Color) (r c : Int) (l : List (Int × Int))
    (g : Game)
    (h : ∀ sq ∈ l, hasColor cb opp sq.1 sq.2 = true →
      isValidMoveSkip g sq.1 sq.2 r c = (false, g)) :
    attackLoop cb opp r c l g = (false, g) := by
  induction l with
  | nil => rfl
  | cons sq rest ih =>
    obtain ⟨i, j⟩ := sq
    have ih2 := ih (fun sq hsq => h sq (List.mem_cons_of_mem _ hsq))
    unfold attackLoop
    split
    · next hc =>
      rw [h (i, j) (List.mem_cons_self _ _) hc]
      exact ih2
    · exact ih2

/-- With one king of the colour on the board, `findKing` finds it. -/
theorem findKing_eq {board : Board} {color : Color} {i j : Int} (hi : i ∈ range8)
    (hj : j ∈ range8) (hk : isKingOf board color i j = true)
    (hu : ∀ sq ∈ allSquares, isKingOf board color sq.1 sq.2 = true → sq = (i, j)) :
    findKing board color = some (i, j) := by
  have row_i : range8.find? (fun b => isKingOf board color i b) = some j := by
    cases hf : range8.find? (fun b => isKingOf board color i b) with
    | none =>
      have h1 := List.find?_eq_none.mp hf j hj
      simp [hk] at h1
    | some b =>
      have h1 := find?_isKingOf hf
      have h2 := hu (i, b) ((mem_allSquares i b).mpr ⟨hi, List.mem_of_find?_eq_some hf⟩) h1
      simp only [Prod.mk.injEq, true_and] at h2
      rw [h2]
  have row_a : ∀ a ∈ range8, a ≠ i →
      range8.find? (fun b => isKingOf board color a b) = none := by
    intro a ha hne
    cases hf : range8.find? (fun b => isKingOf board color a b) with
    | none => rfl
    | some b =>
      have h1 := find?_isKingOf hf
      have h2 := hu (a, b) ((mem_allSquares a b).mpr ⟨ha, List.mem_of_find?_eq_some hf⟩) h1
      simp only [Prod.mk.injEq] at h2
      exact absurd h2.1 hne
  unfold findKing
  have key : ∀ (l : List Int) (acc : Option (Int × Int)), (∀ a ∈ l, a ∈ range8) →
      (i ∈ l ∨ acc = some (i, j)) →
      l.foldl
        (fun acc a =>
          match range8.find? (fun b => isKingOf board color a b) with
          | some b => some (a, b)
          | none => acc) acc = some (i, j) := by
    intro l
    induction l with
    | nil =>
      intro acc _ h
      rcases h with h | h
      · simp at h
      · exact h
    | cons a rest ih =>
      intro acc hl h
      rw [List.foldl_cons]
      apply ih _ (fun x hx => hl x (List.mem_cons_of_mem _ hx))
      by_cases hai : a = i
      · right
        rw [hai, row_i]
      · rcases h with h | h
        · rcases List.mem_cons.mp h with h | h
          · exact absurd h.symm hai
          · exact Or.inl h
        · right
          rw [row_a a (hl a (List.mem_cons_self _ _)) hai]
          exact h
  exact key range8 none (fun _ h => h) (Or.inl hi)

theorem opponent_ne (color : Color) : opponent color ≠ color := by
  cases color <;> simp [opponent]

theorem hasColor_iff {board : Board} {color : Color} {i j : Int} :
    hasColor board color i j = true ↔ ∃ p, board i j = some p ∧ p.color = color := by
  unfold hasColor
  cases board i j with
  | none => simp
  | some p => simp

/-- With one king of the colour on the board and no enemy piece attacking its
square, `isInCheck` answers no and writes nothing. -/
theorem isInCheck_eq_false {g : Game} {color : Color} {i j : Int} (hi : i ∈ range8)
    (hj : j ∈ range8) (hk : g.board i j = some ⟨.king, color⟩)
    (hu : ∀ sq ∈ allSquares, isKingOf g.board color sq.1 sq.2 = true → sq = (i, j))
    (hs : ∀ sq ∈ allSquares, hasColor g.board (opponent color) sq.1 sq.2 = true →
      standardAttack g.board sq.1 sq.2 i j = false) :
    isInCheck g color = (false, g) := by
  have hkk : isKingOf g.board color i j = true := by
    unfold isKingOf
    rw [hk]
    simp
  unfold isInCheck
  rw [findKing_eq hi hj hkk hu]
  dsimp only
  apply attackLoop_eq_false
  intro sq hsq hc
  have hne : ¬ (i = sq.1 ∧ j = sq.2) := by
    rintro ⟨h1, h2⟩
    obtain ⟨p, hp, hpc⟩ := hasColor_iff.mp hc
    rw [← h1, ← h2, hk] at hp
    simp only [Option.some.injEq] at hp
    rw [← hp] at hpc
    exact opponent_ne color hpc.symm
  rcases isValidMoveSkip_cases g sq.1 sq.2 i j hne with h | h | ⟨p, _, _, hnone, _⟩
  · exact h
  · rw [hs sq hsq hc] at h
    simp at h
  · rw [hk] at hnone
    simp at hnone

/-- One round of the loop of `isValidCastling`: with the square empty, no enemy
piece attacking it and no enemy pawn able to advance to it, no enemy piece is
found. -/
theorem attackLoop_castling_square {g : Game} {color : Color} {kr col : Int}
    (hking : g.board kr 4 = some ⟨.king, color⟩) (hcol : g.board kr col = none)
    (hs : ∀ sq ∈ allSquares, hasColor g.board (opponent color) sq.1 sq.2 = true →
      standardAttack g.board sq.1 sq.2 kr col = false)
    (hp : ∀ sq ∈ allSquares, g.board sq.1 sq.2 = some ⟨.pawn, opponent color⟩ →
      sq.2 = col →
      ¬ (kr = sq.1 + direction (opponent color) ∨
         (kr = sq.1 + 2 * direction (opponent color) ∧
          ((opponent color = .white ∧ sq.1 = 6) ∨ (opponent color = .black ∧ sq.1 = 1))))) :
    attackLoop (((g.board).set kr col (g.board kr 4)).set kr 4 none) (opponent color) kr col
      allSquares g = (false, g) := by
  apply attackLoop_eq_false
  intro sq hsq hc
  obtain ⟨i, j⟩ := sq
  dsimp only at hc ⊢
  obtain ⟨p, hpb, hpc⟩ := hasColor_iff.mp hc
  have hb : g.board i j = some p := by
    unfold Board.set at hpb
    split_ifs at hpb with h1 h2
    · rw [hking] at hpb
      simp only [Option.some.injEq] at hpb
      rw [← hpb] at hpc
      exact absurd hpc.symm (opponent_ne color)
    · exact hpb
  have hc2 : hasColor g.board (opponent color) i j = true := hasColor_iff.mpr ⟨p, hb, hpc⟩
  have hne : ¬ (kr = i ∧ col = j) := by
    rintro ⟨h1, h2⟩
    rw [h1, h2, hb] at hcol
    simp at hcol
  rcases isValidMoveSkip_cases g i j kr col hne with h | h | ⟨q, hq, hqt, _, hqc, hrow⟩
  · exact h
  · rw [hs (i, j) hsq hc2] at h
    simp at h
  · exfalso
    rw [hb] at hq
    simp only [Option.some.injEq] at hq
    subst hq
    have hpp : g.board i j = some ⟨.pawn, opponent color⟩ := by
      rw [hb]
      obtain ⟨t, c⟩ := p
      simp only at hqt hpc
      rw [hqt, hpc]
    rw [hpc] at hrow
    exact hp (i, j) hsq hpp hqc.symm hrow

theorem pawn_attack_of_advance {board : Board} {opp : Color} {i col kr nb : Int}
    (hb : board i col = some ⟨.pawn, opp⟩) (hrow : kr = i + direction opp)
    (hnb : (nb - col).natAbs = 1) : standardAttack board i col kr nb = true := by
  unfold standardAttack
  rw [hb]
  simp [hrow, hnb]

/-- Under the conditions of C10 `isValidCastling` answers yes and writes
nothing. -/
theorem isValidCastling_eq_true (g : Game) (color : Color) (kingside : Bool)
    (hking : g.board (homeRow color) 4 = some ⟨.king, color⟩)
    (hkflag : (if color = .white then g.hasMoved.whiteKing else g.hasMoved.blackKing) = false)
    (hrflag : (if kingside then
        (if color = .white then g.hasMoved.whiteRooks else g.hasMoved.blackRooks).2
      else (if color = .white then g.hasMoved.whiteRooks else g.hasMoved.blackRooks).1) = false)
    (hempty : ∀ c ∈ range8,
      (4 < c ∧ c < rookCorner kingside) ∨ (rookCorner kingside < c ∧ c < 4) →
      g.board (homeRow color) c = none)
    (hone : ∀ sq ∈ allSquares, isKingOf g.board color sq.1 sq.2 = true →
      sq = (homeRow color, 4))
    (hsafe : ∀ sq ∈ allSquares, hasColor g.board (opponent color) sq.1 sq.2 = true →
      ∀ c ∈ [4, crossCol kingside, castleCol kingside],
        standardAttack g.board sq.1 sq.2 (homeRow color) c = false) :
    isValidCastling g (homeRow color) 4 (homeRow color) (castleCol kingside) = (true, g) := by
  have hrow : homeRow color ∈ range8 := by cases color <;> simp [homeRow, range8]
  have hin : isInCheck g color = (false, g) :=
    isInCheck_eq_false hrow (by simp [range8]) hking hone
      (fun sq hsq hc => hsafe sq hsq hc 4 (by simp))
  have hpawn : ∀ col nb : Int, nb ∈ [4, crossCol kingside, castleCol kingside] →
      (nb - col).natAbs = 1 →
      ∀ sq ∈ allSquares, g.board sq.1 sq.2 = some ⟨.pawn, opponent color⟩ → sq.2 = col →
      ¬ (homeRow color = sq.1 + direction (opponent color) ∨
         (homeRow color = sq.1 + 2 * direction (opponent color) ∧
          ((opponent color = .white ∧ sq.1 = 6) ∨
           (opponent color = .black ∧ sq.1 = 1)))) := by
    intro col nb hnb hd sq hsq hb hcol
    obtain ⟨i, j⟩ := sq
    dsimp only at hb hcol ⊢
    subst hcol
    rintro (h | ⟨h1, h2⟩)
    · have ha := pawn_attack_of_advance hb h hd
      rw [hsafe (i, j) hsq (hasColor_iff.mpr ⟨_, hb, rfl⟩) nb hnb] at ha
      simp at ha
    · cases color <;> simp [opponent, homeRow, direction] at h1 h2 <;> omega
  have hcross := @attackLoop_castling_square g color (homeRow color) (crossCol kingside) hking
    (hempty _ (by cases kingside <;> simp [crossCol, range8])
      (by cases kingside <;> simp [crossCol, rookCorner]))
    (fun sq hsq hc => hsafe sq hsq hc _ (by simp))
    (hpawn _ 4 (by simp) (by cases kingside <;> simp [crossCol]))
  have hland := @attackLoop_castling_square g color (homeRow color) (castleCol kingside) hking
    (hempty _ (by cases kingside <;> simp [castleCol, range8])
      (by cases kingside <;> simp [castleCol, rookCorner]))
    (fun sq hsq hc => hsafe sq hsq hc _ (by simp))
    (hpawn _ (crossCol kingside) (by simp) (by cases kingside <;> simp [crossCol, castleCol]))
  have hpath : isPathClear g (homeRow color) 4 (homeRow color) (rookCorner kingside) = true := by
    rw [isPathClear_eq_unobstructed g _ _ _ _ (Or.inl rfl)]
    unfold unobstructed
    rw [List.all_eq_true]
    intro sq hsq
    unfold squaresBetween at hsq
    simp only [sub_self, Int.sign_zero, mul_zero, add_zero, List.mem_map, List.mem_range] at hsq
    obtain ⟨k, hk, rfl⟩ := hsq
    dsimp only
    rw [Option.isNone_iff_eq_none]
    cases kingside
    · simp only [rookCorner, Bool.false_eq_true, if_false] at hk ⊢
      have hk3 : k < 3 := by simpa using hk
      apply hempty _ ((mem_range8 _).mpr _) _
      · have : Int.sign (0 - 4) = -1 := rfl
        rw [this]; omega
      · have : Int.sign (0 - 4) = -1 := rfl
        rw [this]; simp [rookCorner]; omega
    · simp only [rookCorner, if_true] at hk ⊢
      have hk3 : k < 2 := by simpa using hk
      apply hempty _ ((mem_range8 _).mpr _) _
      · have : Int.sign (7 - 4) = 1 := rfl
        rw [this]; omega
      · have : Int.sign (7 - 4) = 1 := rfl
        rw [this]; simp [rookCorner]; omega
  unfold isValidCastling
  rw [hking]
  dsimp only
  have hflags : ((if (color == Color.white) = true then g.hasMoved.whiteKing
        else g.hasMoved.blackKing) ||
      if castleCol kingside > 4 then
        (if (color == Color.white) = true then g.hasMoved.whiteRooks
          else g.hasMoved.blackRooks).2
      else (if (color == Color.white) = true then g.hasMoved.whiteRooks
          else g.hasMoved.blackRooks).1) = false := by
    cases color <;> cases kingside <;>
      simp only [castleCol, if_true, if_false, Bool.false_eq_true, beq_self_eq_true,
        reduceCtorEq, beq_iff_eq, gt_iff_lt] at hkflag hrflag ⊢ <;>
      simp [hkflag, hrflag]
  rw [hflags]
  simp only [Bool.false_eq_true, if_false, hin]
  have hrc : (if castleCol kingside > 4 then (7 : Int) else 0) = rookCorner kingside := by
    cases kingside <;> simp [castleCol, rookCorner]
  rw [hrc, hpath]
  simp only [Bool.not_true, Bool.false_eq_true, if_false]
  have hlist : (List.map
      (fun (k : Nat) => 4 + (if castleCol kingside > 4 then (1 : Int) else -1) * (Int.ofNat k + 1))
      (List.range (castleCol kingside - 4).natAbs)) = [crossCol kingside, castleCol kingside] := by
    cases kingside <;> simp [castleCol, crossCol] <;> decide
  rw [hlist]
  unfold castlingLoop
  dsimp only
  rw [hcross]
  dsimp only
  unfold castlingLoop
  dsimp only
  rw [hland]
  dsimp only
  unfold castlingLoop
  rfl

/-- A commit with `isCastling` set appends `O-O` or `O-O-O`. -/
theorem commitMove_castling (g : Game) (a b c d : Int) (tb : Board) (cap : Option Piece)
    (y : Bool) :
    ∃ g2, commitMove g a b c d tb cap true y = some g2 ∧
      Game.moveNotation g2 = Game.moveNotation g ++ [if d > b then "O-O" else "O-O-O"] := by
  obtain ⟨g2, h⟩ : ∃ g2, commitMove g a b c d tb cap true y = some g2 := by
    unfold commitMove addMoveNotation moveText
    simp only [if_true]
    exact ⟨_, rfl⟩
  obtain ⟨_, _, _, ⟨t, ht, hn⟩, _, _⟩ := commitMove_fields h
  unfold moveText at ht
  simp only [if_true, Option.some.injEq] at ht
  exact ⟨g2, h, by rw [hn, ← ht]⟩

/-! ## A missing king, the flags in the search, and two-row pawn moves -/

/-- With no king of the colour on the board, `findKing` finds none. -/
theorem findKing_eq_none {board : Board} {color : Color}
    (h : ∀ i ∈ range8, ∀ j ∈ range8, board i j ≠ some ⟨.king, color⟩) :
    findKing board color = none := by
  have row : ∀ a ∈ range8, range8.find? (fun b => isKingOf board color a b) = none := by
    intro a ha
    rw [List.find?_eq_none]
    intro b hb hk
    apply h a ha b hb
    unfold isKingOf at hk
    split at hk
    · next p hp =>
      simp only [Bool.and_eq_true, beq_iff_eq] at hk
      rw [hp, ← hk.1, ← hk.2]
    · simp at hk
  unfold findKing
  have key : ∀ (l : List Int), (∀ a ∈ l, a ∈ range8) →
      l.foldl
        (fun acc a =>
          match range8.find? (fun b => isKingOf board color a b) with
          | some b => some (a, b)
          | none => acc) none = none := by
    intro l
    induction l with
    | nil => intro _; rfl
    | cons a rest ih =>
      intro hl
      rw [List.foldl_cons, row a (hl a (List.mem_cons_self _ _))]
      exact ih (fun x hx => hl x (List.mem_cons_of_mem _ hx))
  exact key range8 (fun _ h => h)

/-- `renderBoard` writes nothing on a new game. -/
theorem renderBoard_newChessGame (isSinglePlayer : Bool) :
    renderBoard (newChessGame isSinglePlayer) = newChessGame isSinglePlayer := by
  have hk0 : findKing initializeBoard .white = some (7, 4) := by decide!
  have hk : findKing (newChessGame isSinglePlayer).board .white = some (7, 4) := hk0
  have ho0 : (initializeBoard 7 4).isSome = true := by decide!
  have ho : ((newChessGame isSinglePlayer).board 7 4).isSome = true := ho0
  have h1 : renderBoard (newChessGame isSinglePlayer) =
      (isInCheck (newChessGame isSinglePlayer) .white).2 := rfl
  rw [h1]
  unfold isInCheck
  rw [hk]
  exact (attackLoop_occupied _ _ _ ho).1

/-- A two-row pawn move that `isValidMove` accepts stays in its column and
starts from the row the pawns of that colour start on. -/
theorem isValidMove_pawn_two_rows {g : Game} {a b c d : Int} {s : Bool} {p : Piece}
    (hp : g.board a b = some p) (ht : p.type = .pawn) (h2 : (a - c).natAbs = 2)
    (hv : (isValidMove g a b c d s).1 = true) :
    d = b ∧ ((a = 6 ∧ c = 4) ∨ (a = 1 ∧ c = 3)) := by
  unfold isValidMove isValidMoveWith at hv
  rw [hp] at hv
  dsimp only at hv
  rw [ht] at hv
  dsimp only at hv
  have hdir : direction p.color = -1 ∨ direction p.color = 1 := by
    cases p.color
    · left; rfl
    · right; rfl
  split_ifs at hv with h0 h1 h3 h4
  · simp only [Bool.and_eq_true, beq_iff_eq] at h1
    omega
  · simp only [Bool.and_eq_true, beq_iff_eq, Bool.or_eq_true] at h3
    obtain ⟨⟨⟨⟨k1, _⟩, k2⟩, _⟩, k3⟩ := h3
    refine ⟨by omega, ?_⟩
    rcases k3 with ⟨kc, k6⟩ | ⟨kc, k1'⟩
    · rw [kc] at k2; simp only [direction] at k2; left; omega
    · rw [kc] at k2; simp only [direction] at k2; right; omega
  · simp only [Bool.and_eq_true, beq_iff_eq] at h4
    omega

/-- `makeMove` empties the square a pawn leaves when it goes along its column
to row 3 or 4. -/
theorem makeMove_pawn_two_rows {g g1 : Game} {a b c : Int} {t : PieceType} {p : Piece}
    (hp : g.board a b = some p) (ht : p.type = .pawn) (hc : c = 4 ∨ c = 3)
    (h : makeMove g a b c b t = some g1) :
    g1.board a b = none := by
  unfold makeMove at h
  rw [hp] at h
  dsimp only at h
  have e1 : (p.type == PieceType.king && (b - b).natAbs == 2) = false := by simp [ht]
  have e2 : (p.type == PieceType.pawn && b != b && (g.board c b).isNone &&
      g.enPassantTarget == some (c, b)) = false := by simp
  have e3 : (p.type == PieceType.pawn && (c == 0 || c == 7)) = false := by
    rcases hc with hc | hc <;> simp [hc]
  rw [e1, e2, e3] at h
  simp only [Bool.false_eq_true, if_false, Option.some.injEq] at h
  rw [← h]
  simp [Board.set]

theorem makeMove_hasMoved {g g1 : Game} {a b c d : Int} {t : PieceType}
    (h : makeMove g a b c d t = some g1) : g1.hasMoved = g.hasMoved := by
  rw [makeMove_eq h]

theorem maxLoop_hasMoved (recurse : Num → Num → Game → Option (Num × Game))
    (hr : ∀ a b g r g1, recurse a b g = some (r, g1) → g1.hasMoved = g.hasMoved)
    (l : List Move) : ∀ (alpha beta maxEval : Num) (g : Game) (r : Num) (g1 : Game),
      maxLoop recurse l alpha beta maxEval g = some (r, g1) → g1.hasMoved = g.hasMoved := by
  induction l with
  | nil =>
    intro alpha beta maxEval g r g1 h
    simp only [maxLoop, Option.some.injEq, Prod.mk.injEq] at h
    rw [h.2]
  | cons m rest ih =>
    intro alpha beta maxEval g r g1 h
    unfold maxLoop at h
    dsimp only at h
    cases hm : makeMove g m.fromRow m.fromCol m.toRow m.toCol .queen with
    | none => rw [hm] at h; simp at h
    | some gm =>
      rw [hm] at h
      dsimp only at h
      cases hq : recurse alpha beta gm with
      | none => rw [hq] at h; simp at h
      | some res =>
        obtain ⟨ev, g2⟩ := res
        rw [hq] at h
        dsimp only at h
        have h2 : g2.hasMoved = g.hasMoved := (hr _ _ _ _ _ hq).trans (makeMove_hasMoved hm)
        split_ifs at h
        · simp only [Option.some.injEq, Prod.mk.injEq] at h
          rw [← h.2]
          exact h2
        · exact (ih _ _ _ _ _ _ h).trans h2

theorem minLoop_hasMoved (recurse : Num → Num → Game → Option (Num × Game))
    (hr : ∀ a b g r g1, recurse a b g = some (r, g1) → g1.hasMoved = g.hasMoved)
    (l : List Move) : ∀ (alpha beta minEval : Num) (g : Game) (r : Num) (g1 : Game),
      minLoop recurse l alpha beta minEval g = some (r, g1) → g1.hasMoved = g.hasMoved := by
  induction l with
  | nil =>
    intro alpha beta minEval g r g1 h
    simp only [minLoop, Option.some.injEq, Prod.mk.injEq] at h
    rw [h.2]
  | cons m rest ih =>
    intro alpha beta minEval g r g1 h
    unfold minLoop at h
    dsimp only at h
    cases hm : makeMove g m.fromRow m.fromCol m.toRow m.toCol .queen with
    | none => rw [hm] at h; simp at h
    | some gm =>
      rw [hm] at h
      dsimp only at h
      cases hq : recurse alpha beta gm with
      | none => rw [hq] at h; simp at h
      | some res =>
        obtain ⟨ev, g2⟩ := res
        rw [hq] at h
        dsimp only at h
        have h2 : g2.hasMoved = g.hasMoved := (hr _ _ _ _ _ hq).trans (makeMove_hasMoved hm)
        split_ifs at h
        · simp only [Option.some.injEq, Prod.mk.injEq] at h
          rw [← h.2]
          exact h2
        · exact (ih _ _ _ _ _ _ h).trans h2

/-- `minimax` never writes `hasMoved`. -/
theorem minimax_hasMoved (depth : Nat) : ∀ (alpha beta : Num) (maximizingPlayer : Bool)
    (g : Game) (r : Num) (g1 : Game),
    minimax depth alpha beta maximizingPlayer g = some (r, g1) → g1.hasMoved = g.hasMoved := by
  induction depth with
  | zero =>
    intro alpha beta mp g r g1 h
    simp only [minimax, Option.some.injEq, Prod.mk.injEq] at h
    rw [h.2]
  | succ depth ih =>
    intro alpha beta mp g r g1 h
    have c1 : (isCheckmate g).2.hasMoved = g.hasMoved := core_hasMoved (isCheckmate_core g)
    have c2 : (isStalemate (isCheckmate g).2).2.hasMoved = g.hasMoved :=
      (core_hasMoved (isStalemate_core _)).trans c1
    have c3 : ∀ color, (getAllMoves (isStalemate (isCheckmate g).2).2 color).2.hasMoved =
        g.hasMoved := fun color => (core_hasMoved (getAllMoves_core _ color)).trans c2
    unfold minimax at h
    cases h1 : isCheckmate g with
    | mk b1 g1' =>
      rw [h1] at h c2 c3
      have c1' : g1'.hasMoved = g.hasMoved := by rw [h1] at c1; exact c1
      cases b1 with
      | true =>
        simp only [Option.some.injEq, Prod.mk.injEq] at h
        rw [← h.2]; exact c1'
      | false =>
        dsimp only at h c2 c3
        cases h2 : isStalemate g1' with
        | mk b2 g2' =>
          rw [h2] at h c2 c3
          cases b2 with
          | true =>
            simp only [Option.some.injEq, Prod.mk.injEq] at h
            rw [← h.2]; exact c2
          | false =>
            dsimp only at h c2 c3
            cases h3 : getAllMoves g2' (if mp then .black else .white) with
            | mk ms g3' =>
              have c3' : g3'.hasMoved = g.hasMoved := by
                have := c3 (if mp then .black else .white)
                rw [h3] at this; exact this
              rw [h3] at h
              cases ms with
              | nil =>
                simp only [Option.some.injEq, Prod.mk.injEq] at h
                rw [← h.2]; exact c3'
              | cons m ms =>
                dsimp only at h
                split_ifs at h
                · exact (maxLoop_hasMoved _ (fun a b g r g1 hh => ih a b false g r g1 hh)
                    _ _ _ _ _ _ _ h).trans c3'
                · exact (minLoop_hasMoved _ (fun a b g r g1 hh => ih a b true g r g1 hh)
                    _ _ _ _ _ _ _ h).trans c3'

theorem rootLoop_hasMoved (depth : Nat) (l : List Move) : ∀ (bestMove : Option Move)
    (bestValue : Num) (g : Game) (r : Option Move) (g1 : Game),
    rootLoop depth l bestMove bestValue g = some (r, g1) → g1.hasMoved = g.hasMoved := by
  induction l with
  | nil =>
    intro bestMove bestValue g r g1 h
    simp only [rootLoop, Option.some.injEq, Prod.mk.injEq] at h
    rw [h.2]
  | cons m rest ih =>
    intro bestMove bestValue g r g1 h
    unfold rootLoop at h
    dsimp only at h
    cases hm : makeMove g m.fromRow m.fromCol m.toRow m.toCol .queen with
    | none => rw [hm] at h; simp at h
    | some gm =>
      rw [hm] at h
      dsimp only at h
      cases hq : minimax (depth - 1) .negInf .posInf false gm with
      | none => rw [hq] at h; simp at h
      | some res =>
        obtain ⟨ev, g2⟩ := res
        rw [hq] at h
        dsimp only at h
        have h2 : g2.hasMoved = g.hasMoved :=
          (minimax_hasMoved _ _ _ _ _ _ _ hq).trans (makeMove_hasMoved hm)
        split_ifs at h
        · exact (ih _ _ _ _ _ h).trans h2
        · exact (ih _ _ _ _ _ h).trans h2

/-- `makeAIMove` only sets flags. -/
theorem makeAIMove_hasMoved {g g1 : Game} (h : makeAIMove g = some g1) :
    HasMoved.le g.hasMoved g1.hasMoved := by
  have refl : ∀ x : HasMoved, HasMoved.le x x := fun x => ⟨id, id, id, id, id, id⟩
  unfold makeAIMove at h
  split_ifs at h
  · simp only [Option.some.injEq] at h
    rw [← h]; exact refl _
  · have c0 : (getAllMoves g .black).2.hasMoved = g.hasMoved :=
      core_hasMoved (getAllMoves_core g .black)
    cases h1 : getAllMoves g .black with
    | mk ms ga =>
      rw [h1] at h c0
      cases ms with
      | nil =>
        simp only [Option.some.injEq] at h
        rw [← h, c0]; exact refl _
      | cons m ms =>
        dsimp only at h c0
        cases h2 : rootLoop 3 (m :: ms) none .negInf ga with
        | none => rw [h2] at h; simp at h
        | some res =>
          obtain ⟨bm, g2⟩ := res
          rw [h2] at h
          have c2 : g2.hasMoved = g.hasMoved := (rootLoop_hasMoved _ _ _ _ _ _ _ h2).trans c0
          cases bm with
          | none =>
            simp only [Option.some.injEq] at h
            rw [← h, c2]; exact refl _
          | some bestMove =>
            dsimp only at h
            cases h3 : makeMove g2 bestMove.fromRow bestMove.fromCol bestMove.toRow
                bestMove.toCol .queen with
            | none => rw [h3] at h; simp at h
            | some g3 =>
              rw [h3] at h
              dsimp only at h
              obtain ⟨_, _, _, _, h5, _⟩ := commitMove_fields h
              rw [h5, ← c2, ← makeMove_hasMoved h3]
              exact updateCastlingFlags_le _ _ _ _ _

/-! ## Attack patterns, sliding walks, promotion, the score and the search -/

/-- On an occupied destination that does not hold a piece of the mover's
colour, `isValidMove(…, true)` answers as the attack patterns do. -/
theorem isValidMoveSkip_eq_standardAttack {g : Game} {i j r c : Int} {p : Piece}
    (hp : g.board i j = some p) (ho : (g.board r c).isSome = true)
    (hc : hasColor g.board p.color r c = false) :
    (isValidMoveSkip g i j r c).1 = standardAttack g.board i j r c := by
  have hne : ¬ (r = i ∧ c = j) := by
    rintro ⟨h1, h2⟩
    rw [h1, h2] at hc
    unfold hasColor at hc
    rw [hp] at hc
    simp at hc
  have hn : (g.board r c).isNone = false := by
    rw [isNone_eq_not_isSome, ho]; rfl
  obtain ⟨t, pc⟩ := p
  unfold isValidMoveSkip isValidMoveWith standardAttack
  rw [hp]
  dsimp only
  dsimp only at hc
  rw [hc]
  simp only [Bool.false_eq_true, if_false]
  have hsame : ¬ (r - i = 0 ∧ c - j = 0) := by
    rintro ⟨h1, h2⟩
    apply hne
    constructor <;> omega
  cases t with
  | pawn =>
    simp only [hn, ho, Bool.and_false, Bool.false_and, Bool.false_eq_true, if_false,
      Bool.true_or, Bool.and_true]
    rw [Bool.and_comm (r - i == direction pc)]
    generalize ((c - j).natAbs == 1 && r - i == direction pc) = x
    cases x <;> rfl
  | knight => rfl
  | bishop =>
    dsimp only
    unfold bne
    cases h1 : ((r - i).natAbs == (c - j).natAbs)
    · rfl
    · simp only [beq_iff_eq] at h1
      have h0 : (r - i == 0) = false := by
        apply beq_eq_false_iff_ne.mpr
        intro h0
        exact hsame ⟨h0, by omega⟩
      rw [isPathClear_eq_unobstructed g i j r c (Or.inr (Or.inr h1)), h0]
      rfl
  | rook =>
    dsimp only
    unfold bne
    cases h1 : (r - i == 0) <;> cases h2 : (c - j == 0)
    · rfl
    · simp only [beq_iff_eq] at h2
      rw [isPathClear_eq_unobstructed g i j r c (Or.inr (Or.inl (by omega)))]
      rfl
    · simp only [beq_iff_eq] at h1
      rw [isPathClear_eq_unobstructed g i j r c (Or.inl (by omega))]
      rfl
    · simp only [beq_iff_eq] at h1 h2
      exact absurd ⟨h1, h2⟩ hsame
  | queen =>
    dsimp only
    unfold bne
    cases h1 : (r - i == 0) <;> cases h2 : (c - j == 0) <;>
      cases h3 : ((r - i).natAbs == (c - j).natAbs)
    · rfl
    · simp only [beq_iff_eq] at h3
      rw [isPathClear_eq_unobstructed g i j r c (Or.inr (Or.inr h3))]
      rfl
    · simp only [beq_iff_eq] at h2
      rw [isPathClear_eq_unobstructed g i j r c (Or.inr (Or.inl (by omega)))]
      rfl
    · simp only [beq_iff_eq] at h2
      rw [isPathClear_eq_unobstructed g i j r c (Or.inr (Or.inl (by omega)))]
      rfl
    · simp only [beq_iff_eq] at h1
      rw [isPathClear_eq_unobstructed g i j r c (Or.inl (by omega))]
      rfl
    · simp only [beq_iff_eq] at h1
      rw [isPathClear_eq_unobstructed g i j r c (Or.inl (by omega))]
      rfl
    · simp only [beq_iff_eq] at h1 h2
      exact absurd ⟨h1, h2⟩ hsame
    · simp only [beq_iff_eq] at h1 h2
      exact absurd ⟨h1, h2⟩ hsame
  | king =>
    dsimp only
    have h0 : (r - i == 0 && c - j == 0) = false := by
      cases h1 : (r - i == 0) <;> cases h2 : (c - j == 0) <;> try rfl
      simp only [beq_iff_eq] at h1 h2
      exact absurd ⟨h1, h2⟩ hsame
    rw [h0]
    generalize (decide ((r - i).natAbs ≤ 1) && decide ((c - j).natAbs ≤ 1)) = x
    cases x <;> rfl

/-- With a piece on the square asked about, the attack loop answers yes exactly
when some square of the list holds a piece of the colour it scans for whose
`isValidMove(…, true)` to that square is true. -/
theorem attackLoop_eq_true_iff (cb : Board) (opp : Color) {r c : Int} (l : List (Int × Int))
    {g : Game} (ho : (g.board r c).isSome = true) :
    (attackLoop cb opp r c l g).1 = true ↔
      ∃ sq ∈ l, hasColor cb opp sq.1 sq.2 = true ∧
        (isValidMoveSkip g sq.1 sq.2 r c).1 = true := by
  induction l with
  | nil => simp [attackLoop]
  | cons sq rest ih =>
    obtain ⟨i, j⟩ := sq
    obtain ⟨h1, _⟩ := isValidMoveSkip_occupied (g := g) (i := i) (j := j) ho
    have hg : isValidMoveSkip g i j r c = ((isValidMoveSkip g i j r c).1, g) :=
      Prod.ext rfl h1
    unfold attackLoop
    by_cases hcol : hasColor cb opp i j = true
    · rw [if_pos hcol, hg]
      cases hv : (isValidMoveSkip g i j r c).1 with
      | true =>
        simp only [true_iff]
        exact ⟨(i, j), List.mem_cons_self _ _, hcol, hv⟩
      | false =>
        dsimp only
        rw [ih]
        constructor
        · rintro ⟨sq, hsq, h2, h3⟩
          exact ⟨sq, List.mem_cons_of_mem _ hsq, h2, h3⟩
        · rintro ⟨sq, hsq, h2, h3⟩
          rcases List.mem_cons.mp hsq with h | h
          · rw [h] at h3
            rw [hv] at h3
            simp at h3
          · exact ⟨sq, h, h2, h3⟩
    · rw [if_neg hcol, ih]
      constructor
      · rintro ⟨sq, hsq, h2, h3⟩
        exact ⟨sq, List.mem_cons_of_mem _ hsq, h2, h3⟩
      · rintro ⟨sq, hsq, h2, h3⟩
        rcases List.mem_cons.mp hsq with h | h
        · rw [h] at h2
          exact absurd h2 hcol
        · exact ⟨sq, h, h2, h3⟩

/-- The answer of `isValidMove` for a pawn: the destinations of the
specification, less the squares that hold a piece of the pawn's own colour. -/
theorem isValidMove_pawn_eq {g : Game} {i j r c : Int} {s : Bool} {p : Piece}
    (hp : g.board i j = some p) (ht : p.type = .pawn) :
    (isValidMove g i j r c s).1 =
      (pawnDestination g p.color i j r c && !hasColor g.board p.color r c) := by
  obtain ⟨t, pc⟩ := p
  dsimp only at ht
  subst ht
  unfold isValidMove isValidMoveWith pawnDestination
  rw [hp]
  dsimp only
  cases hc : hasColor g.board pc r c with
  | true => simp
  | false =>
    have e1 : (c - j == 0) = (c == j) := by
      rw [Bool.eq_iff_iff]; simp only [beq_iff_eq]; omega
    have e2 : (r - i == direction pc) = (r == i + direction pc) := by
      rw [Bool.eq_iff_iff]; simp only [beq_iff_eq]; omega
    have e3 : (r - i == 2 * direction pc) = (r == i + 2 * direction pc) := by
      rw [Bool.eq_iff_iff]; simp only [beq_iff_eq]; omega
    have e4 : ((pc == .white && i == 6) || (pc == .black && i == 1)) = (i == startRow pc) := by
      cases pc <;> simp [startRow]
    have e5 : (g.board r c).isSome = hasColor g.board (opponent pc) r c := by
      unfold hasColor at hc ⊢
      cases hb : g.board r c with
      | none => rfl
      | some q =>
        rw [hb] at hc
        obtain ⟨qt, qc⟩ := q
        cases pc <;> cases qc <;> simp_all [opponent]
    rw [e1, e2, e3, e4, e5]
    generalize (c == j) = a1
    generalize (r == i + direction pc) = a2
    generalize (r == i + 2 * direction pc) = a3
    generalize (g.board r c).isNone = a4
    generalize (g.board (i + direction pc) j).isNone = a5
    generalize (i == startRow pc) = a6
    generalize ((c - j).natAbs == 1) = a7
    generalize hasColor g.board (opponent pc) r c = a8
    generalize (g.enPassantTarget == some (r, c)) = a9
    cases a1 <;> cases a2 <;> cases a3 <;> cases a4 <;> cases a5 <;> cases a6 <;> cases a7 <;>
      cases a8 <;> cases a9 <;> rfl

/-- The answer of `isValidMove` for a rook, a bishop or a queen; it writes
nothing. -/
theorem isValidMove_slider_eq {g : Game} {i j r c : Int} {s : Bool} {p : Piece}
    (hp : g.board i j = some p)
    (ht : p.type = .rook ∨ p.type = .bishop ∨ p.type = .queen) :
    isValidMove g i j r c s =
      (decide (r ≠ i ∨ c ≠ j) && onLine p.type i j r c && unobstructed g.board i j r c &&
        !hasColor g.board p.color r c, g) := by
  obtain ⟨t, pc⟩ := p
  dsimp only at ht
  unfold isValidMove isValidMoveWith
  rw [hp]
  dsimp only
  cases hc : hasColor g.board pc r c with
  | true => simp
  | false =>
    have hne : ¬ (r = i ∧ c = j) := by
      rintro ⟨h1, h2⟩
      rw [h1, h2] at hc
      unfold hasColor at hc
      rw [hp] at hc
      simp at hc
    have hd : decide (r ≠ i ∨ c ≠ j) = true := by
      rw [decide_eq_true_eq]
      exact not_and_or.mp hne
    have e1 : (r - i == 0) = (r == i) := by
      rw [Bool.eq_iff_iff]; simp only [beq_iff_eq]; omega
    have e2 : (c - j == 0) = (c == j) := by
      rw [Bool.eq_iff_iff]; simp only [beq_iff_eq]; omega
    rw [hd]
    simp only [Bool.false_eq_true, if_false, Bool.true_and, Bool.not_false, Bool.and_true]
    rcases ht with ht | ht | ht <;> subst ht <;> dsimp only [onLine]
    · rw [e1, e2]
      cases h1 : (r == i) <;> cases h2 : (c == j)
      · rfl
      · simp only [beq_iff_eq] at h2
        rw [isPathClear_eq_unobstructed g i j r c (Or.inr (Or.inl h2))]
      · simp only [beq_iff_eq] at h1
        rw [isPathClear_eq_unobstructed g i j r c (Or.inl h1)]
      · simp only [beq_iff_eq] at h1 h2
        exact absurd ⟨h1, h2⟩ hne
    · cases h1 : ((r - i).natAbs == (c - j).natAbs)
      · rfl
      · simp only [beq_iff_eq] at h1
        rw [isPathClear_eq_unobstructed g i j r c (Or.inr (Or.inr h1))]
    · rw [e1, e2]
      cases h1 : (r == i) <;> cases h2 : (c == j) <;>
        cases h3 : ((r - i).natAbs == (c - j).natAbs)
      · rfl
      · simp only [beq_iff_eq] at h3
        rw [isPathClear_eq_unobstructed g i j r c (Or.inr (Or.inr h3))]
      · simp only [beq_iff_eq] at h2
        rw [isPathClear_eq_unobstructed g i j r c (Or.inr (Or.inl h2))]
      · simp only [beq_iff_eq] at h2
        rw [isPathClear_eq_unobstructed g i j r c (Or.inr (Or.inl h2))]
      · simp only [beq_iff_eq] at h1
        rw [isPathClear_eq_unobstructed g i j r c (Or.inl h1)]
      · simp only [beq_iff_eq] at h1
        rw [isPathClear_eq_unobstructed g i j r c (Or.inl h1)]
      · simp only [beq_iff_eq] at h1 h2
        exact absurd ⟨h1, h2⟩ hne
      · simp only [beq_iff_eq] at h1 h2
        exact absurd ⟨h1, h2⟩ hne

/-- The squares the loop of `addSlidingMoves` pushes along one direction: the
walk goes on while it is on the board and stops after the first occupied
square. -/
theorem mem_slide (board : Board) (dr dc : Int) (fuel : Nat) : ∀ (r c x y : Int),
    (x, y) ∈ slide board dr dc fuel r c ↔
      ∃ k : Nat, k < fuel ∧ x = r + k * dr ∧ y = c + k * dc ∧
        (∀ m : Nat, m ≤ k → isInBounds (r + m * dr) (c + m * dc) = true) ∧
        (∀ m : Nat, m < k → board (r + m * dr) (c + m * dc) = none) := by
  induction fuel with
  | zero =>
    intro r c x y
    simp [slide]
  | succ fuel ih =>
    intro r c x y
    have shift : ∀ m : Nat, (r + dr) + (m : Int) * dr = r + ((m + 1 : Nat) : Int) * dr := by
      intro m; push_cast; ring
    have shift2 : ∀ m : Nat, (c + dc) + (m : Int) * dc = c + ((m + 1 : Nat) : Int) * dc := by
      intro m; push_cast; ring
    unfold slide
    by_cases hb : isInBounds r c = true
    · rw [if_pos hb, List.mem_cons]
      constructor
      · rintro (h | h)
        · simp only [Prod.mk.injEq] at h
          refine ⟨0, Nat.succ_pos _, by simp [h.1], by simp [h.2], ?_, ?_⟩
          · intro m hm
            have : m = 0 := by omega
            subst this
            simpa using hb
          · intro m hm
            omega
        · cases ho : (board r c).isSome with
          | true => rw [ho] at h; simp at h
          | false =>
            rw [ho] at h
            simp only [Bool.false_eq_true, if_false] at h
            obtain ⟨k, hk, hx, hy, hin, hem⟩ := (ih (r + dr) (c + dc) x y).mp h
            refine ⟨k + 1, by omega, by rw [hx, shift], by rw [hy, shift2], ?_, ?_⟩
            · intro m hm
              cases m with
              | zero => simpa using hb
              | succ m =>
                rw [← shift, ← shift2]
                exact hin m (by omega)
            · intro m hm
              cases m with
              | zero =>
                cases hbo : board r c with
                | none => simpa using hbo
                | some q => rw [hbo] at ho; simp at ho
              | succ m =>
                rw [← shift, ← shift2]
                exact hem m (by omega)
      · rintro ⟨k, hk, hx, hy, hin, hem⟩
        cases k with
        | zero =>
          left
          simp [hx, hy]
        | succ k =>
          right
          have h0 := hem 0 (by omega)
          simp only [Nat.cast_zero, zero_mul, add_zero] at h0
          rw [h0]
          simp only [Option.isSome_none, Bool.false_eq_true, if_false]
          apply (ih (r + dr) (c + dc) x y).mpr
          refine ⟨k, by omega, by rw [hx, shift], by rw [hy, shift2], ?_, ?_⟩
          · intro m hm
            rw [shift, shift2]
            exact hin (m + 1) (by omega)
          · intro m hm
            rw [shift, shift2]
            exact hem (m + 1) (by omega)
    · rw [if_neg hb]
      simp only [List.not_mem_nil, false_iff]
      rintro ⟨k, _, _, _, hin, _⟩
      apply hb
      simpa using hin 0 (Nat.zero_le _)

/-- `addSlidingMoves` appends the walks of its directions, one after the other. -/
theorem addSlidingMoves_eq (g : Game) (row col : Int) (directions : List (Int × Int)) :
    ∀ moves : List (Int × Int), addSlidingMoves g row col directions moves =
      moves ++ directions.flatMap
        fun d => slide g.board d.1 d.2 8 (row + d.1) (col + d.2) := by
  unfold addSlidingMoves
  induction directions with
  | nil => intro moves; simp
  | cons d rest ih =>
    intro moves
    rw [List.foldl_cons, ih, List.flatMap_cons, List.append_assoc]

/-- After `makeMove` of a pawn to row 0 or row 7 the destination holds a piece
of the pawn's colour and of the kind `promotionType`. -/
theorem makeMove_promotion {g g1 : Game} {a b c d : Int} {t : PieceType} {p : Piece}
    (hp : g.board a b = some p) (ht : p.type = .pawn) (hrow : c = 0 ∨ c = 7)
    (h : makeMove g a b c d t = some g1) :
    g1.board c d = some ⟨t, p.color⟩ := by
  unfold makeMove at h
  rw [hp] at h
  dsimp only at h
  have e1 : (p.type == PieceType.king && (b - d).natAbs == 2) = false := by simp [ht]
  have e3 : (p.type == PieceType.pawn && (c == 0 || c == 7)) = true := by
    rcases hrow with hc | hc <;> simp [ht, hc]
  rw [e1, e3] at h
  simp only [Bool.false_eq_true, if_false, if_true] at h
  split at h
  · simp at h
  · next bd hbd =>
    simp only [Option.some.injEq] at h
    rw [← h]
    dsimp only
    split at hbd
    · next q hq =>
      simp only [Option.some.injEq] at hbd
      rw [← hbd]
      have hqc : q.color = p.color := by
        split_ifs at hq with hep
        · simp only [Bool.and_eq_true, beq_iff_eq] at hep
          rw [hep.2] at hq
          simp [Board.set] at hq
        · have hq2 : (((g.board).set c d (some p)).set a b none) c d = some q := hq
          simp only [Board.set, beq_self_eq_true, Bool.and_self, if_true] at hq2
          split_ifs at hq2
          simp only [Option.some.injEq] at hq2
          rw [← hq2]
      simp [Board.set, hqc]
    · simp at hbd

/-- `makeMove` of a pawn to row 0 or row 7 returns, unless the destination is
the origin or the move counts as en passant (a column change onto the empty
en passant target). -/
theorem makeMove_promotion_returns {g : Game} {a b c d : Int} (t : PieceType) {p : Piece}
    (hp : g.board a b = some p) (ht : p.type = .pawn)
    (hne : ¬ (c = a ∧ d = b))
    (hep : ¬ (d ≠ b ∧ g.board c d = none ∧ g.enPassantTarget = some (c, d))) :
    ∃ g1, makeMove g a b c d t = some g1 ∧ g1.board a b = none := by
  unfold makeMove
  rw [hp]
  dsimp only
  have e1 : (p.type == PieceType.king && (b - d).natAbs == 2) = false := by simp [ht]
  have e2 : (p.type == PieceType.pawn && d != b && (g.board c d).isNone &&
      g.enPassantTarget == some (c, d)) = false := by
    rw [Bool.eq_false_iff]
    intro h
    simp only [Bool.and_eq_true, beq_iff_eq, bne_iff_ne, ne_eq,
      Option.isNone_iff_eq_none] at h
    exact hep ⟨h.1.1.2, h.1.2, h.2⟩
  have hset : (((g.board).set c d (some p)).set a b none) c d = some p := by
    simp only [Board.set]
    have : (c == a && d == b) = false := by
      rw [Bool.eq_false_iff]
      intro h
      simp only [Bool.and_eq_true, beq_iff_eq] at h
      exact hne h
    simp [this]
  have hfrom : ∀ v, ((((g.board).set c d (some p)).set a b none).set c d v) a b = none := by
    intro v
    simp only [Board.set]
    have : (a == c && b == d) = false := by
      rw [Bool.eq_false_iff]
      intro h
      simp only [Bool.and_eq_true, beq_iff_eq] at h
      exact hne ⟨h.1.symm, h.2.symm⟩
    simp [this]
  rw [e1, e2]
  simp only [Bool.false_eq_true, if_false]
  by_cases h3 : (p.type == PieceType.pawn && (c == 0 || c == 7)) = true
  · rw [if_pos h3, hset]
    dsimp only
    exact ⟨_, rfl, hfrom _⟩
  · rw [if_neg h3]
    dsimp only
    refine ⟨_, rfl, ?_⟩
    simp [Board.set]

/-- What `evaluateBoard` computes: the material, plus 50 for each pawn on row 1,
whatever its colour. -/
theorem evaluateBoard_eq (g : Game) :
    evaluateBoard g = material g.board + 50 * pawnsOnRowOne g.board := by
  have e1 : ∀ (l : List (Int × Int)) (a : Int),
      l.foldl
        (fun score sq =>
          match g.board sq.1 sq.2 with
          | some piece =>
            score + (if piece.color == .black then pieceValue piece.type
              else - pieceValue piece.type)
          | none => score) a =
        a + (l.map fun sq => signedValue (g.board sq.1 sq.2)).sum := by
    intro l
    induction l with
    | nil => intro a; simp
    | cons x rest ih =>
      intro a
      rw [List.foldl_cons, ih, List.map_cons, List.sum_cons]
      unfold signedValue
      cases g.board x.1 x.2 with
      | none => simp
      | some p => dsimp only; ring
  have e2 : ∀ (l : List Int) (a : Int),
      l.foldl
        (fun score col =>
          let s1 :=
            match g.board 1 col with
            | some blackPawn => if blackPawn.type == .pawn then score + (6 - 1) * 10 else score
            | none => score
          match g.board 6 col with
          | some whitePawn => if whitePawn.type == .pawn then s1 - (6 - 6) * 10 else s1
          | none => s1) a =
        a + 50 * ((l.filter fun col => holdsPawn (g.board 1 col)).length : Int) := by
    intro l
    induction l with
    | nil => intro a; simp
    | cons x rest ih =>
      intro a
      rw [List.foldl_cons, ih, List.filter_cons]
      unfold holdsPawn
      cases g.board 1 x with
      | none => cases g.board 6 x <;> simp
      | some p =>
        cases hp : (p.type == PieceType.pawn) <;> cases g.board 6 x <;> simp [hp] <;> ring
  unfold evaluateBoard material pawnsOnRowOne
  refine (e2 range8 _).trans ?_
  have h := e1 allSquares 0
  rw [zero_add] at h
  exact congrArg
    (fun z => z + 50 * ((range8.filter fun col => holdsPawn (g.board 1 col)).length : Int)) h

/-- After `this.board = tempBoard` the state is the one before `makeMove`, up to
what the queries write. -/
theorem core_restore {g g1 g2 : Game} {a b c d : Int} {t : PieceType}
    (hm : makeMove g a b c d t = some g1) (h2 : g2.core = g1.core) :
    ({ g2 with board := g.board } : Game).core = g.core := by
  have e := makeMove_eq hm
  have h3 : g2.core = ({ g with board := g1.board, enPassantTarget := g1.enPassantTarget } : Game).core := by
    rw [h2]; exact congrArg Game.core e
  obtain ⟨x1, x2, x3, x4, x5, x6, x7, x8, x9, x10, x11, x12⟩ := g2
  obtain ⟨y1, y2, y3, y4, y5, y6, y7, y8, y9, y10, y11, y12⟩ := g
  simp only [Game.core, Game.mk.injEq] at h3 ⊢
  obtain ⟨k1, _, k3, k4, k6, k7, k8, k10, k11, k12⟩ := h3
  simp only [k1, k3, k4, k6, k7, k8, k10, k11, k12, and_self]

theorem maxLoop_core (recurse : Num → Num → Game → Option (Num × Game))
    (hr : ∀ a b g r g1, recurse a b g = some (r, g1) → g1.core = g.core)
    (l : List Move) : ∀ (alpha beta maxEval : Num) (g : Game) (r : Num) (g1 : Game),
      maxLoop recurse l alpha beta maxEval g = some (r, g1) → g1.core = g.core := by
  induction l with
  | nil =>
    intro alpha beta maxEval g r g1 h
    simp only [maxLoop, Option.some.injEq, Prod.mk.injEq] at h
    rw [h.2]
  | cons m rest ih =>
    intro alpha beta maxEval g r g1 h
    unfold maxLoop at h
    dsimp only at h
    cases hm : makeMove g m.fromRow m.fromCol m.toRow m.toCol .queen with
    | none => rw [hm] at h; simp at h
    | some gm =>
      rw [hm] at h
      dsimp only at h
      cases hq : recurse alpha beta gm with
      | none => rw [hq] at h; simp at h
      | some res =>
        obtain ⟨ev, g2⟩ := res
        rw [hq] at h
        dsimp only at h
        have h2 := core_restore hm (hr _ _ _ _ _ hq)
        split_ifs at h
        · simp only [Option.some.injEq, Prod.mk.injEq] at h
          rw [← h.2]
          exact h2
        · exact (ih _ _ _ _ _ _ h).trans h2

theorem minLoop_core (recurse : Num → Num → Game → Option (Num × Game))
    (hr : ∀ a b g r g1, recurse a b g = some (r, g1) → g1.core = g.core)
    (l : List Move) : ∀ (alpha beta minEval : Num) (g : Game) (r : Num) (g1 : Game),
      minLoop recurse l alpha beta minEval g = some (r, g1) → g1.core = g.core := by
  induction l with
  | nil =>
    intro alpha beta minEval g r g1 h
    simp only [minLoop, Option.some.injEq, Prod.mk.injEq] at h
    rw [h.2]
  | cons m rest ih =>
    intro alpha beta minEval g r g1 h
    unfold minLoop at h
    dsimp only at h
    cases hm : makeMove g m.fromRow m.fromCol m.toRow m.toCol .queen with
    | none => rw [hm] at h; simp at h
    | some gm =>
      rw [hm] at h
      dsimp only at h
      cases hq : recurse alpha beta gm with
      | none => rw [hq] at h; simp at h
      | some res =>
        obtain ⟨ev, g2⟩ := res
        rw [hq] at h
        dsimp only at h
        have h2 := core_restore hm (hr _ _ _ _ _ hq)
        split_ifs at h
        · simp only [Option.some.injEq, Prod.mk.injEq] at h
          rw [← h.2]
          exact h2
        · exact (ih _ _ _ _ _ _ h).trans h2

/-- `minimax` gives the board back as it found it: it writes at most
`enPassantTarget` and `gameOver`. -/
theorem minimax_core (depth : Nat) : ∀ (alpha beta : Num) (maximizingPlayer : Bool)
    (g : Game) (r : Num) (g1 : Game),
    minimax depth alpha beta maximizingPlayer g = some (r, g1) → g1.core = g.core := by
  induction depth with
  | zero =>
    intro alpha beta mp g r g1 h
    simp only [minimax, Option.some.injEq, Prod.mk.injEq] at h
    rw [h.2]
  | succ depth ih =>
    intro alpha beta mp g r g1 h
    have c1 : (isCheckmate g).2.core = g.core := isCheckmate_core g
    have c2 : (isStalemate (isCheckmate g).2).2.core = g.core :=
      (isStalemate_core _).trans c1
    have c3 : ∀ color, (getAllMoves (isStalemate (isCheckmate g).2).2 color).2.core =
        g.core := fun color => (getAllMoves_core _ color).trans c2
    unfold minimax at h
    cases h1 : isCheckmate g with
    | mk b1 g1' =>
      rw [h1] at h c2 c3
      have c1' : g1'.core = g.core := by rw [h1] at c1; exact c1
      cases b1 with
      | true =>
        simp only [Option.some.injEq, Prod.mk.injEq] at h
        rw [← h.2]; exact c1'
      | false =>
        dsimp only at h c2 c3
        cases h2 : isStalemate g1' with
        | mk b2 g2' =>
          rw [h2] at h c2 c3
          cases b2 with
          | true =>
            simp only [Option.some.injEq, Prod.mk.injEq] at h
            rw [← h.2]; exact c2
          | false =>
            dsimp only at h c2 c3
            cases h3 : getAllMoves g2' (if mp then .black else .white) with
            | mk ms g3' =>
              have c3' : g3'.core = g.core := by
                have := c3 (if mp then .black else .white)
                rw [h3] at this; exact this
              rw [h3] at h
              cases ms with
              | nil =>
                simp only [Option.some.injEq, Prod.mk.injEq] at h
                rw [← h.2]; exact c3'
              | cons m ms =>
                dsimp only at h
                split_ifs at h
                · exact (maxLoop_core _ (fun a b g r g1 hh => ih a b false g r g1 hh)
                    _ _ _ _ _ _ _ h).trans c3'
                · exact (minLoop_core _ (fun a b g r g1 hh => ih a b true g r g1 hh)
                    _ _ _ _ _ _ _ h).trans c3'

theorem rootLoop_core (depth : Nat) (l : List Move) : ∀ (bestMove : Option Move)
    (bestValue : Num) (g : Game) (r : Option Move) (g1 : Game),
    rootLoop depth l bestMove bestValue g = some (r, g1) → g1.core = g.core := by
  induction l with
  | nil =>
    intro bestMove bestValue g r g1 h
    simp only [rootLoop, Option.some.injEq, Prod.mk.injEq] at h
    rw [h.2]
  | cons m rest ih =>
    intro bestMove bestValue g r g1 h
    unfold rootLoop at h
    dsimp only at h
    cases hm : makeMove g m.fromRow m.fromCol m.toRow m.toCol .queen with
    | none => rw [hm] at h; simp at h
    | some gm =>
      rw [hm] at h
      dsimp only at h
      cases hq : minimax (depth - 1) .negInf .posInf false gm with
      | none => rw [hq] at h; simp at h
      | some res =>
        obtain ⟨ev, g2⟩ := res
        rw [hq] at h
        dsimp only at h
        have h2 := core_restore hm (minimax_core _ _ _ _ _ _ _ hq)
        split_ifs at h
        · exact (ih _ _ _ _ _ h).trans h2
        · exact (ih _ _ _ _ _ h).trans h2

/-- What `makeAIMove` does when it returns: nothing but what the queries write,
or the move the root loop chose, made by `makeMove` with a queen and committed
with the board of before as `tempBoard`. -/
theorem makeAIMove_cases {g g1 : Game} (h : makeAIMove g = some g1) :
    g1.core = g.core ∨
    ∃ (m : Move) (ms : List Move) (ga g2 g3 : Game) (best : Move) (x y : Bool),
      getAllMoves g .black = (m :: ms, ga) ∧
      rootLoop 3 (m :: ms) none .negInf ga = some (some best, g2) ∧ g2.core = g.core ∧
      makeMove g2 best.fromRow best.fromCol best.toRow best.toCol .queen = some g3 ∧
      commitMove g3 best.fromRow best.fromCol best.toRow best.toCol g2.board
        (g2.board best.toRow best.toCol) x y = some g1 := by
  unfold makeAIMove at h
  split_ifs at h
  · simp only [Option.some.injEq] at h
    left; rw [← h]
  · have c0 : (getAllMoves g .black).2.core = g.core := getAllMoves_core g .black
    cases h1 : getAllMoves g .black with
    | mk ms ga =>
      rw [h1] at h c0
      cases ms with
      | nil =>
        simp only [Option.some.injEq] at h
        left; rw [← h]; exact c0
      | cons m ms =>
        dsimp only at h c0
        cases h2 : rootLoop 3 (m :: ms) none .negInf ga with
        | none => rw [h2] at h; simp at h
        | some res =>
          obtain ⟨bm, g2⟩ := res
          rw [h2] at h
          have c2 : g2.core = g.core := (rootLoop_core _ _ _ _ _ _ _ h2).trans c0
          cases bm with
          | none =>
            simp only [Option.some.injEq] at h
            left; rw [← h]; exact c2
          | some best =>
            dsimp only at h
            cases h3 : makeMove g2 best.fromRow best.fromCol best.toRow best.toCol .queen with
            | none => rw [h3] at h; simp at h
            | some g3 =>
              rw [h3] at h
              dsimp only at h
              right
              exact ⟨m, ms, ga, g2, g3, best, _, _, rfl, h2, c2, h3, h⟩

theorem num_le_trans {a b c : Num} (h1 : Num.le a b = true) (h2 : Num.le b c = true) :
    Num.le a c = true := by
  cases a <;> cases b <;> cases c <;> first | (simp_all [Num.le]; done) | (simp_all [Num.le]; omega)

theorem num_le_of_gt {a b : Num} (h : Num.gt a b = true) : Num.le b a = true := by
  cases a <;> cases b <;> first | (simp_all [Num.gt, Num.le]; done) | (simp_all [Num.gt, Num.le]; omega)

theorem num_gt_of_gt_of_le {a b c : Num} (h1 : Num.gt a b = true) (h2 : Num.le c b = true) :
    Num.gt a c = true := by
  cases a <;> cases b <;> cases c <;>
    first | (simp_all [Num.gt, Num.le]; done) | (simp_all [Num.gt, Num.le]; omega)

theorem num_gt_trans {a b c : Num} (h1 : Num.gt a b = true) (h2 : Num.gt b c = true) :
    Num.gt a c = true := by
  cases a <;> cases b <;> cases c <;>
    first | (simp_all [Num.gt, Num.le]; done) | (simp_all [Num.gt, Num.le]; omega)

theorem num_le_of_not_gt {a b : Num} (h : Num.gt a b = false) : Num.le a b = true := by
  cases a <;> cases b <;> simp_all [Num.gt, Num.le]

theorem maxLoop_fin (recurse : Num → Num → Game → Option (Num × Game))
    (hr : ∀ a b g r g1, recurse a b g = some (r, g1) → ∃ n, r = .fin n)
    (l : List Move) : ∀ (alpha beta maxEval : Num) (g : Game) (r : Num) (g1 : Game),
      maxLoop recurse l alpha beta maxEval g = some (r, g1) →
      ((l ≠ [] ∧ maxEval = .negInf) ∨ ∃ n, maxEval = .fin n) → ∃ n, r = .fin n := by
  induction l with
  | nil =>
    intro alpha beta maxEval g r g1 h hm
    simp only [maxLoop, Option.some.injEq, Prod.mk.injEq] at h
    rcases hm with ⟨h1, _⟩ | h1
    · exact absurd rfl h1
    · rw [← h.1]; exact h1
  | cons m rest ih =>
    intro alpha beta maxEval g r g1 h hstart
    unfold maxLoop at h
    dsimp only at h
    cases hm : makeMove g m.fromRow m.fromCol m.toRow m.toCol .queen with
    | none => rw [hm] at h; simp at h
    | some gm =>
      rw [hm] at h
      dsimp only at h
      cases hq : recurse alpha beta gm with
      | none => rw [hq] at h; simp at h
      | some res =>
        obtain ⟨ev, g2⟩ := res
        rw [hq] at h
        dsimp only at h
        obtain ⟨n, hn⟩ := hr _ _ _ _ _ hq
        have hmax : ∃ k, Num.max maxEval ev = .fin k := by
          rw [hn]
          rcases hstart with ⟨_, h1⟩ | ⟨k, h1⟩
          · rw [h1]; exact ⟨n, rfl⟩
          · rw [h1]
            unfold Num.max
            split_ifs
            · exact ⟨n, rfl⟩
            · exact ⟨k, rfl⟩
        split_ifs at h
        · simp only [Option.some.injEq, Prod.mk.injEq] at h
          rw [← h.1]
          exact hmax
        · exact ih _ _ _ _ _ _ h (Or.inr hmax)

theorem minLoop_fin (recurse : Num → Num → Game → Option (Num × Game))
    (hr : ∀ a b g r g1, recurse a b g = some (r, g1) → ∃ n, r = .fin n)
    (l : List Move) : ∀ (alpha beta minEval : Num) (g : Game) (r : Num) (g1 : Game),
      minLoop recurse l alpha beta minEval g = some (r, g1) →
      ((l ≠ [] ∧ minEval = .posInf) ∨ ∃ n, minEval = .fin n) → ∃ n, r = .fin n := by
  induction l with
  | nil =>
    intro alpha beta minEval g r g1 h hm
    simp only [minLoop, Option.some.injEq, Prod.mk.injEq] at h
    rcases hm with ⟨h1, _⟩ | h1
    · exact absurd rfl h1
    · rw [← h.1]; exact h1
  | cons m rest ih =>
    intro alpha beta minEval g r g1 h hstart
    unfold minLoop at h
    dsimp only at h
    cases hm : makeMove g m.fromRow m.fromCol m.toRow m.toCol .queen with
    | none => rw [hm] at h; simp at h
    | some gm =>
      rw [hm] at h
      dsimp only at h
      cases hq : recurse alpha beta gm with
      | none => rw [hq] at h; simp at h
      | some res =>
        obtain ⟨ev, g2⟩ := res
        rw [hq] at h
        dsimp only at h
        obtain ⟨n, hn⟩ := hr _ _ _ _ _ hq
        have hmin : ∃ k, Num.min minEval ev = .fin k := by
          rw [hn]
          rcases hstart with ⟨_, h1⟩ | ⟨k, h1⟩
          · rw [h1]; exact ⟨n, rfl⟩
          · rw [h1]
            unfold Num.min
            split_ifs
            · exact ⟨k, rfl⟩
            · exact ⟨n, rfl⟩
        split_ifs at h
        · simp only [Option.some.injEq, Prod.mk.injEq] at h
          rw [← h.1]
          exact hmin
        · exact ih _ _ _ _ _ _ h (Or.inr hmin)

/-- The value `minimax` returns is a board score, never `±Infinity`. -/
theorem minimax_fin (depth : Nat) : ∀ (alpha beta : Num) (maximizingPlayer : Bool)
    (g : Game) (r : Num) (g1 : Game),
    minimax depth alpha beta maximizingPlayer g = some (r, g1) → ∃ n, r = .fin n := by
  induction depth with
  | zero =>
    intro alpha beta mp g r g1 h
    simp only [minimax, Option.some.injEq, Prod.mk.injEq] at h
    exact ⟨_, h.1.symm⟩
  | succ depth ih =>
    intro alpha beta mp g r g1 h
    unfold minimax at h
    cases h1 : isCheckmate g with
    | mk b1 g1' =>
      rw [h1] at h
      cases b1 with
      | true =>
        simp only [Option.some.injEq, Prod.mk.injEq] at h
        exact ⟨_, h.1.symm⟩
      | false =>
        dsimp only at h
        cases h2 : isStalemate g1' with
        | mk b2 g2' =>
          rw [h2] at h
          cases b2 with
          | true =>
            simp only [Option.some.injEq, Prod.mk.injEq] at h
            exact ⟨_, h.1.symm⟩
          | false =>
            dsimp only at h
            cases h3 : getAllMoves g2' (if mp then .black else .white) with
            | mk ms g3' =>
              rw [h3] at h
              cases ms with
              | nil =>
                simp only [Option.some.injEq, Prod.mk.injEq] at h
                exact ⟨_, h.1.symm⟩
              | cons m ms =>
                dsimp only at h
                split_ifs at h
                · exact maxLoop_fin _ (fun a b g r g1 hh => ih a b false g r g1 hh)
                    _ _ _ _ _ _ _ h (Or.inl ⟨List.cons_ne_nil _ _, rfl⟩)
                · exact minLoop_fin _ (fun a b g r g1 hh => ih a b true g r g1 hh)
                    _ _ _ _ _ _ _ h (Or.inl ⟨List.cons_ne_nil _ _, rfl⟩)

/-- The root loop of `makeAIMove` against the scores it computes: it fails when
a score cannot be computed, and otherwise keeps the move it had unless a score
beats `bestValue`, and then ends with the first move whose score beats
`bestValue` and every score before it and is not beaten by any score after. -/
theorem rootLoop_spec (depth : Nat) (l : List Move) : ∀ (bm : Option Move) (bv : Num)
    (g : Game),
    (rootScores depth l g = none → rootLoop depth l bm bv g = none) ∧
    ∀ vs g2, rootScores depth l g = some (vs, g2) →
      vs.length = l.length ∧ (∀ x ∈ vs, ∃ n, x = .fin n) ∧
      ∃ r, rootLoop depth l bm bv g = some (r, g2) ∧
        ((r = bm ∧ ∀ x ∈ vs, Num.le x bv = true) ∨
         ∃ pre m post vpre v vpost, l = pre ++ m :: post ∧ vs = vpre ++ v :: vpost ∧
           vpre.length = pre.length ∧ r = some m ∧ Num.gt v bv = true ∧
           (∀ x ∈ vpre, Num.gt v x = true) ∧ (∀ x ∈ vpost, Num.le x v = true)) := by
  induction l with
  | nil =>
    intro bm bv g
    constructor
    · intro h; simp [rootScores] at h
    · intro vs g2 h
      simp only [rootScores, Option.some.injEq, Prod.mk.injEq] at h
      obtain ⟨h1, h2⟩ := h
      subst h1; subst h2
      exact ⟨rfl, by simp, bm, rfl, Or.inl ⟨rfl, by simp⟩⟩
  | cons move rest ih =>
    intro bm bv g
    unfold rootScores rootLoop
    dsimp only
    cases hm : makeMove g move.fromRow move.fromCol move.toRow move.toCol .queen with
    | none => simp
    | some gm =>
      dsimp only
      cases hq : minimax (depth - 1) .negInf .posInf false gm with
      | none => simp
      | some res =>
        obtain ⟨value, gq⟩ := res
        dsimp only
        obtain ⟨n, hn⟩ := minimax_fin _ _ _ _ _ _ _ hq
        cases hgt : Num.gt value bv with
        | true =>
          simp only [if_true]
          obtain ⟨ihn, ihs⟩ := ih (some move) value { gq with board := g.board }
          constructor
          · intro h
            apply ihn
            cases hrs : rootScores depth rest { gq with board := g.board } with
            | none => rfl
            | some p => rw [hrs] at h; simp at h
          · intro vs g2 h
            cases hrs : rootScores depth rest { gq with board := g.board } with
            | none => rw [hrs] at h; simp at h
            | some p =>
              obtain ⟨vs1, g3⟩ := p
              rw [hrs] at h
              simp only [Option.some.injEq, Prod.mk.injEq] at h
              obtain ⟨h1, h2⟩ := h
              subst h1; subst h2
              obtain ⟨hlen, hfin, r, hr, hcase⟩ := ihs vs1 g3 hrs
              refine ⟨by simp [hlen], ?_, r, hr, Or.inr ?_⟩
              · intro x hx
                rcases List.mem_cons.mp hx with h | h
                · exact ⟨n, h.trans hn⟩
                · exact hfin x h
              · rcases hcase with ⟨hr1, hall⟩ | ⟨pre, m, post, vpre, v, vpost, e1, e2, e3, e4, e5, e6, e7⟩
                · exact ⟨[], move, rest, [], value, vs1, rfl, rfl, rfl, hr1, hgt,
                    by simp, hall⟩
                · refine ⟨move :: pre, m, post, value :: vpre, v, vpost, by rw [e1]; rfl,
                    by rw [e2]; rfl, by simp [e3], e4, num_gt_trans e5 hgt, ?_, e7⟩
                  intro x hx
                  rcases List.mem_cons.mp hx with h | h
                  · rw [h]; exact e5
                  · exact e6 x h
        | false =>
          simp only [Bool.false_eq_true, if_false]
          obtain ⟨ihn, ihs⟩ := ih bm bv { gq with board := g.board }
          constructor
          · intro h
            apply ihn
            cases hrs : rootScores depth rest { gq with board := g.board } with
            | none => rfl
            | some p => rw [hrs] at h; simp at h
          · intro vs g2 h
            cases hrs : rootScores depth rest { gq with board := g.board } with
            | none => rw [hrs] at h; simp at h
            | some p =>
              obtain ⟨vs1, g3⟩ := p
              rw [hrs] at h
              simp only [Option.some.injEq, Prod.mk.injEq] at h
              obtain ⟨h1, h2⟩ := h
              subst h1; subst h2
              obtain ⟨hlen, hfin, r, hr, hcase⟩ := ihs vs1 g3 hrs
              refine ⟨by simp [hlen], ?_, r, hr, ?_⟩
              · intro x hx
                rcases List.mem_cons.mp hx with h | h
                · exact ⟨n, h.trans hn⟩
                · exact hfin x h
              · rcases hcase with ⟨hr1, hall⟩ | ⟨pre, m, post, vpre, v, vpost, e1, e2, e3, e4, e5, e6, e7⟩
                · left
                  refine ⟨hr1, ?_⟩
                  intro x hx
                  rcases List.mem_cons.mp hx with h | h
                  · rw [h]; exact num_le_of_not_gt hgt
                  · exact hall x h
                · right
                  refine ⟨move :: pre, m, post, value :: vpre, v, vpost, by rw [e1]; rfl,
                    by rw [e2]; rfl, by simp [e3], e4, e5, ?_, e7⟩
                  intro x hx
                  rcases List.mem_cons.mp hx with h | h
                  · rw [h]; exact num_gt_of_gt_of_le e5 (num_le_of_not_gt hgt)
                  · exact e6 x h

theorem commitMove_lastMove {g g2 : Game} {a b c d : Int} {tb : Board} {cap : Option Piece}
    {x y : Bool} (h : commitMove g a b c d tb cap x y = some g2) :
    g2.lastMove = some ⟨a, b, c, d⟩ := by
  unfold commitMove at h
  dsimp only at h
  split at h
  · simp at h
  · simp only [Option.some.injEq] at h
    have hr := core_of_render_check h
    have h1 := congrArg Game.lastMove hr
    exact h1

/-- The candidates of `getPossibleMoves` depend on `board` and `hasMoved` only. -/
theorem getPossibleMoves_core {g g1 : Game} (h : g1.core = g.core) (row col : Int) :
    getPossibleMoves g1 row col = getPossibleMoves g row col := by
  have e1 : ∀ x : Game, getPossibleMoves x row col = getPossibleMoves x.core row col :=
    fun _ => rfl
  rw [e1 g1, e1 g, h]

/-- The moves `validateMoves` keeps are candidates it was given, in the order
it was given them, each with the origin it was called for. -/
theorem validateMoves_sublist (row col : Int) (l : List (Int × Int)) : ∀ g : Game,
    ∃ sub : List (Int × Int), sub.Sublist l ∧
      (validateMoves row col l g).1 = sub.map fun d => ⟨row, col, d.1, d.2⟩ := by
  induction l with
  | nil => intro g; exact ⟨[], List.Sublist.slnil, rfl⟩
  | cons d rest ih =>
    intro g
    obtain ⟨toRow, toCol⟩ := d
    unfold validateMoves
    cases hv : isValidMove g row col toRow toCol with
    | mk b g1 =>
      obtain ⟨sub, hs, he⟩ := ih g1
      cases b with
      | true =>
        refine ⟨(toRow, toCol) :: sub, hs.cons₂ _, ?_⟩
        dsimp only
        rw [he]
        rfl
      | false =>
        exact ⟨sub, hs.cons _, he⟩

/-- The order of the moves `getAllMoves` collects over a list of origins that
is in row-major order. -/
theorem getAllMovesLoop_order (color : Color) (l : List (Int × Int))
    (hl : l.Pairwise fun a b => a.1 < b.1 ∨ (a.1 = b.1 ∧ a.2 < b.2)) : ∀ g : Game,
    (∀ m ∈ (getAllMovesLoop color l g).1, (m.fromRow, m.fromCol) ∈ l) ∧
    (getAllMovesLoop color l g).1.Pairwise (fun a b => originLe a b = true) ∧
    ∀ row col : Int,
      (((getAllMovesLoop color l g).1.filter
          fun m => m.fromRow == row && m.fromCol == col).map
        fun m => (m.toRow, m.toCol)).Sublist (getPossibleMoves g row col) := by
  induction l with
  | nil =>
    intro g
    simp [getAllMovesLoop]
  | cons sq rest ih =>
    intro g
    obtain ⟨row0, col0⟩ := sq
    obtain ⟨hhead, hrest⟩ := List.pairwise_cons.mp hl
    unfold getAllMovesLoop
    by_cases hc : hasColor g.board color row0 col0 = true
    · rw [if_pos hc]
      dsimp only
      obtain ⟨sub, hsub, he⟩ := validateMoves_sublist row0 col0 (getPossibleMoves g row0 col0) g
      have hcore : (validateMoves row0 col0 (getPossibleMoves g row0 col0) g).2.core = g.core :=
        validateMoves_core _ _ _ _
      obtain ⟨i1, i2, i3⟩ := ih hrest (validateMoves row0 col0 (getPossibleMoves g row0 col0) g).2
      rw [he]
      have horig : ∀ m ∈ sub.map (fun d => (⟨row0, col0, d.1, d.2⟩ : Move)),
          m.fromRow = row0 ∧ m.fromCol = col0 := by
        intro m hm
        obtain ⟨d, _, rfl⟩ := List.mem_map.mp hm
        exact ⟨rfl, rfl⟩
      refine ⟨?_, ?_, ?_⟩
      · intro m hm
        rcases List.mem_append.mp hm with h | h
        · obtain ⟨h1, h2⟩ := horig m h
          rw [h1, h2]
          exact List.mem_cons_self _ _
        · exact List.mem_cons_of_mem _ (i1 m h)
      · rw [List.pairwise_append]
        refine ⟨?_, i2, ?_⟩
        · rw [List.pairwise_map]
          apply List.pairwise_of_forall
          intro a b
          simp [originLe]
        · intro a ha b hb
          obtain ⟨h1, h2⟩ := horig a ha
          have hlt := hhead _ (i1 b hb)
          dsimp only at hlt
          unfold originLe
          rw [h1, h2]
          rcases hlt with h | ⟨h3, h4⟩
          · simp [h]
          · simp [h3, le_of_lt h4]
      · intro row col
        rw [List.filter_append, List.map_append]
        by_cases hsq : row0 = row ∧ col0 = col
        · obtain ⟨hr, hcl⟩ := hsq
          subst hr; subst hcl
          have f1 : (sub.map (fun d => (⟨row0, col0, d.1, d.2⟩ : Move))).filter
              (fun m => m.fromRow == row0 && m.fromCol == col0) =
              sub.map (fun d => (⟨row0, col0, d.1, d.2⟩ : Move)) := by
            apply List.filter_eq_self.mpr
            intro m hm
            obtain ⟨h1, h2⟩ := horig m hm
            simp [h1, h2]
          have f2 : (getAllMovesLoop color rest
              (validateMoves row0 col0 (getPossibleMoves g row0 col0) g).2).1.filter
              (fun m => m.fromRow == row0 && m.fromCol == col0) = [] := by
            apply List.filter_eq_nil_iff.mpr
            intro m hm hmm
            simp only [Bool.and_eq_true, beq_iff_eq] at hmm
            have hin := i1 m hm
            rw [hmm.1, hmm.2] at hin
            have := hhead _ hin
            dsimp only at this
            omega
          rw [f1, f2, List.map_nil, List.append_nil, List.map_map]
          have hid : (sub.map ((fun m : Move => (m.toRow, m.toCol)) ∘
              fun d => (⟨row0, col0, d.1, d.2⟩ : Move))) = sub := by
            conv_rhs => rw [← List.map_id sub]
            apply List.map_congr_left
            intro d _
            rfl
          rw [hid]
          exact hsub
        · have f1 : (sub.map (fun d => (⟨row0, col0, d.1, d.2⟩ : Move))).filter
              (fun m => m.fromRow == row && m.fromCol == col) = [] := by
            apply List.filter_eq_nil_iff.mpr
            intro m hm hmm
            simp only [Bool.and_eq_true, beq_iff_eq] at hmm
            obtain ⟨h1, h2⟩ := horig m hm
            exact hsq ⟨h1.symm.trans hmm.1, h2.symm.trans hmm.2⟩
          rw [f1, List.map_nil, List.nil_append]
          have := i3 row col
          rw [getPossibleMoves_core hcore] at this
          exact this
    · rw [if_neg hc]
      obtain ⟨i1, i2, i3⟩ := ih hrest g
      refine ⟨fun m hm => List.mem_cons_of_mem _ (i1 m hm), i2, i3⟩

/-! ## What one query writes, the squares of a move, and candidates on the board -/

/-- A king of the colour on one of the 64 squares is found by `findKing`. -/
theorem findKing_isSome {board : Board} {color : Color} {i j : Int} (hi : i ∈ range8)
    (hj : j ∈ range8) (hk : isKingOf board color i j = true) :
    (findKing board color).isSome = true := by
  unfold findKing
  have step : ∀ (l : List Int) (acc : Option (Int × Int)), acc.isSome = true →
      (l.foldl
        (fun acc i =>
          match range8.find? (fun j => isKingOf board color i j) with
          | some j => some (i, j)
          | none => acc) acc).isSome = true := by
    intro l
    induction l with
    | nil => intro acc h; exact h
    | cons x rest ih =>
      intro acc h
      rw [List.foldl_cons]
      apply ih
      split
      · rfl
      · exact h
  have key : ∀ (l : List Int) (acc : Option (Int × Int)), i ∈ l →
      (l.foldl
        (fun acc i =>
          match range8.find? (fun j => isKingOf board color i j) with
          | some j => some (i, j)
          | none => acc) acc).isSome = true := by
    intro l
    induction l with
    | nil => intro acc h; simp at h
    | cons x rest ih =>
      intro acc h
      rw [List.foldl_cons]
      rcases List.mem_cons.mp h with rfl | h
      · apply step
        cases hf : range8.find? (fun j => isKingOf board color i j) with
        | none =>
          have h1 := List.find?_eq_none.mp hf j hj
          simp [hk] at h1
        | some b => rfl
      · exact ih _ h
  exact key range8 none hi

theorem isValidMoveSkip_gameOver (g : Game) (a b c d : Int) :
    (isValidMoveSkip g a b c d).2.gameOver = g.gameOver := by
  unfold isValidMoveSkip isValidMoveWith
  split
  · rfl
  · split
    · rfl
    · dsimp only
      split <;> (try split_ifs) <;> rfl

theorem attackLoop_gameOver (cb : Board) (opp : Color) (r c : Int) (l : List (Int × Int))
    (g : Game) : (attackLoop cb opp r c l g).2.gameOver = g.gameOver := by
  induction l generalizing g with
  | nil => rfl
  | cons sq rest ih =>
    obtain ⟨i, j⟩ := sq
    unfold attackLoop
    split
    · have h := isValidMoveSkip_gameOver g i j r c
      split
      · next g1 heq => rw [heq] at h; exact h
      · next g1 heq => rw [heq] at h; rw [ih]; exact h
    · exact ih g

theorem castlingLoop_gameOver (color : Color) (r c : Int) (l : List Int) (g : Game) :
    (castlingLoop color r c l g).2.gameOver = g.gameOver := by
  induction l generalizing g with
  | nil => rfl
  | cons col rest ih =>
    unfold castlingLoop
    dsimp only
    have h := attackLoop_gameOver (((g.board).set r col (g.board r c)).set r c none)
      (opponent color) r col allSquares g
    split
    · next g1 heq => rw [heq] at h; exact h
    · next g1 heq => rw [heq] at h; rw [ih]; exact h

/-- With a king of the colour on the board `isInCheck` does not write `gameOver`. -/
theorem isInCheck_gameOver {g : Game} {color : Color} {i j : Int} (hi : i ∈ range8)
    (hj : j ∈ range8) (hk : isKingOf g.board color i j = true) :
    (isInCheck g color).2.gameOver = g.gameOver := by
  unfold isInCheck
  have h := findKing_isSome hi hj hk
  split
  · next hn => rw [hn] at h; simp at h
  · exact attackLoop_gameOver _ _ _ _ _ _

theorem isValidCastling_gameOver {g : Game} {a b : Int} (c d : Int) {q : Piece}
    (ha : a ∈ range8) (hb : b ∈ range8) (hq : g.board a b = some q) (hk : q.type = .king) :
    (isValidCastling g a b c d).2.gameOver = g.gameOver := by
  have hking : isKingOf g.board q.color a b = true := by
    unfold isKingOf
    rw [hq]
    simp [hk]
  have h := isInCheck_gameOver ha hb hking
  unfold isValidCastling
  rw [hq]
  dsimp only
  split_ifs <;> first
    | rfl
    | (split
       · next g1 heq => rw [heq] at h; exact h
       · next g1 heq =>
         rw [heq] at h
         split
         · exact h
         · rw [castlingLoop_gameOver]; exact h)

/-- Asked about a move from one of the 64 squares, `isValidMove` does not write
`gameOver`. -/
theorem isValidMove_gameOver (g : Game) {a b : Int} (c d : Int) (s : Bool)
    (ha : a ∈ range8) (hb : b ∈ range8) :
    (isValidMove g a b c d s).2.gameOver = g.gameOver := by
  unfold isValidMove isValidMoveWith
  split
  · rfl
  · next q hq =>
    split
    · rfl
    · dsimp only
      split
      · split_ifs <;> rfl
      · rfl
      · rfl
      · rfl
      · rfl
      · next hk =>
        split_ifs
        · rfl
        · exact isValidCastling_gameOver c d ha hb hq hk
        · rfl

theorem set_same (bd : Board) (r c : Int) (v : Option Piece) : bd.set r c v r c = v := by
  unfold Board.set
  simp

theorem set_other (bd : Board) (r c : Int) (v : Option Piece) (i j : Int)
    (h : ¬(i = r ∧ j = c)) : bd.set r c v i j = bd i j := by
  unfold Board.set
  have : (i == r && j == c) = false := by
    cases h1 : (i == r && j == c) with
    | false => rfl
    | true =>
      simp only [Bool.and_eq_true, beq_iff_eq] at h1
      exact absurd h1 h
  rw [this]
  rfl

/-- The squares `makeMove` writes: the origin, the destination, and for a king
that goes two columns the square of its row in the destination column, the
square next to the origin and the corner. -/
theorem makeMove_frame {g g1 : Game} {a b c d : Int} {t : PieceType} {p : Piece}
    (hp : g.board a b = some p) (h : makeMove g a b c d t = some g1) (i j : Int)
    (h1 : ¬(i = a ∧ j = b)) (h2 : ¬(i = c ∧ j = d))
    (h3 : p.type = .king → (b - d).natAbs = 2 →
      ¬(i = a ∧ j = d) ∧ ¬(i = a ∧ j = (if d > b then b + 1 else b - 1)) ∧
      ¬(i = a ∧ j = (if d > b then 7 else 0))) :
    g1.board i j = g.board i j := by
  unfold makeMove at h
  rw [hp] at h
  dsimp only at h
  have hb1 : ∀ bd : Board,
      bd = (if (p.type == .king && (b - d).natAbs == 2) = true then
          (((g.board.set a d (some p)).set a b none).set a (if d > b then b + 1 else b - 1)
            (((g.board.set a d (some p)).set a b none) a (if d > b then 7 else 0))).set a
              (if d > b then 7 else 0) none
        else if (p.type == .pawn && d != b && (g.board c d).isNone &&
            g.enPassantTarget == some (c, d)) = true then
          match g.enPassantTarget with
          | some (epRow, epCol) => ((g.board.set c d (some p)).set a b none).set epRow epCol none
          | none => (g.board.set c d (some p)).set a b none
        else (g.board.set c d (some p)).set a b none) → bd i j = g.board i j := by
    intro bd hbd
    rw [hbd]
    by_cases k1 : (p.type == .king && (b - d).natAbs == 2) = true
    · rw [if_pos k1]
      simp only [Bool.and_eq_true, beq_iff_eq] at k1
      obtain ⟨m1, m2, m3⟩ := h3 k1.1 k1.2
      rw [set_other _ _ _ _ _ _ m3, set_other _ _ _ _ _ _ m2, set_other _ _ _ _ _ _ h1,
        set_other _ _ _ _ _ _ m1]
    · rw [if_neg k1]
      by_cases k2 : (p.type == .pawn && d != b && (g.board c d).isNone &&
          g.enPassantTarget == some (c, d)) = true
      · rw [if_pos k2]
        simp only [Bool.and_eq_true, beq_iff_eq] at k2
        rw [k2.2]
        dsimp only
        rw [set_other _ _ _ _ _ _ h2, set_other _ _ _ _ _ _ h1, set_other _ _ _ _ _ _ h2]
      · rw [if_neg k2, set_other _ _ _ _ _ _ h1, set_other _ _ _ _ _ _ h2]
  split at h
  · simp at h
  · next bd hbd =>
    simp only [Option.some.injEq] at h
    rw [← h]
    dsimp only
    split at hbd
    · split at hbd
      · next q hq =>
        simp only [Option.some.injEq] at hbd
        rw [← hbd, set_other _ _ _ _ _ _ h2]
        exact hb1 _ rfl
      · simp at hbd
    · simp only [Option.some.injEq] at hbd
      exact hb1 _ hbd.symm

/-- After `makeMove` of a move that is neither a king going two columns nor en
passant, the origin is empty and the destination holds the piece that moved,
with its kind replaced when a pawn reaches row 0 or row 7. -/
theorem makeMove_destination {g g1 : Game} {a b c d : Int} {t : PieceType} {p : Piece}
    (hp : g.board a b = some p) (h : makeMove g a b c d t = some g1)
    (hne : ¬(a = c ∧ b = d))
    (hcast : ¬(p.type = .king ∧ (b - d).natAbs = 2))
    (hep : ¬(p.type = .pawn ∧ d ≠ b ∧ g.board c d = none ∧ g.enPassantTarget = some (c, d))) :
    g1.board a b = none ∧
    g1.board c d =
      some (if p.type = .pawn ∧ (c = 0 ∨ c = 7) then { p with type := t } else p) := by
  have hne2 : ¬(c = a ∧ d = b) := fun hh => hne ⟨hh.1.symm, hh.2.symm⟩
  have k1 : ¬((p.type == .king && (b - d).natAbs == 2) = true) := by
    intro hh
    simp only [Bool.and_eq_true, beq_iff_eq] at hh
    exact hcast hh
  have k2 : ¬((p.type == .pawn && d != b && (g.board c d).isNone &&
      g.enPassantTarget == some (c, d)) = true) := by
    intro hh
    simp only [Bool.and_eq_true, beq_iff_eq, bne_iff_ne, ne_eq, Option.isNone_iff_eq_none] at hh
    exact hep ⟨hh.1.1.1, hh.1.1.2, hh.1.2, hh.2⟩
  unfold makeMove at h
  rw [hp] at h
  dsimp only at h
  rw [if_neg k1, if_neg k2] at h
  rw [set_other _ _ _ _ _ _ hne2, set_same] at h
  dsimp only at h
  by_cases k3 : (p.type == .pawn && (c == 0 || c == 7)) = true
  · rw [if_pos k3] at h
    simp only [Option.some.injEq] at h
    rw [← h]
    dsimp only
    simp only [Bool.and_eq_true, beq_iff_eq, Bool.or_eq_true] at k3
    rw [set_same, set_other _ _ _ _ _ _ hne, set_same, if_pos k3]
    exact ⟨rfl, rfl⟩
  · rw [if_neg k3] at h
    simp only [Option.some.injEq] at h
    rw [← h]
    dsimp only
    simp only [Bool.and_eq_true, beq_iff_eq, Bool.or_eq_true] at k3
    rw [set_same, set_other _ _ _ _ _ _ hne2, set_same, if_neg k3]
    exact ⟨rfl, rfl⟩

/-- A sum over a list without repetitions, when the summand changes at one
element only. -/
theorem sum_map_single {α : Type} (l : List α) (hn : l.Nodup) (a : α) (ha : a ∈ l)
    (f k : α → Int) (h : ∀ x ∈ l, x ≠ a → k x = f x) :
    (l.map k).sum = (l.map f).sum + (k a - f a) := by
  induction l with
  | nil => simp at ha
  | cons x rest ih =>
    rw [List.nodup_cons] at hn
    simp only [List.map_cons, List.sum_cons]
    by_cases hx : x = a
    · subst hx
      have e : rest.map k = rest.map f := by
        apply List.map_congr_left
        intro y hy
        apply h y (List.mem_cons_of_mem _ hy)
        intro hyx
        rw [hyx] at hy
        exact hn.1 hy
      rw [e]
      omega
    · have ha2 : a ∈ rest := by
        rcases List.mem_cons.mp ha with h1 | h1
        · exact absurd h1.symm hx
        · exact h1
      rw [ih hn.2 ha2 (fun y hy => h y (List.mem_cons_of_mem _ hy)),
        h x (List.mem_cons_self _ _) hx]
      omega

/-- The length of a filtered list without repetitions, when the test changes
from yes to no at one element only. -/
theorem filter_length_single {α : Type} (l : List α) (hn : l.Nodup) (a : α) (ha : a ∈ l)
    (p q : α → Bool) (h : ∀ x ∈ l, x ≠ a → q x = p x) (hp : p a = true) (hq : q a = false) :
    (l.filter p).length = (l.filter q).length + 1 := by
  induction l with
  | nil => simp at ha
  | cons x rest ih =>
    rw [List.nodup_cons] at hn
    by_cases hx : x = a
    · subst hx
      have e : rest.filter q = rest.filter p := by
        apply List.filter_congr
        intro y hy
        apply h y (List.mem_cons_of_mem _ hy)
        intro hyx
        rw [hyx] at hy
        exact hn.1 hy
      rw [List.filter_cons_of_pos hp, List.filter_cons_of_neg (by rw [hq]; simp), e]
      rfl
    · have ha2 : a ∈ rest := by
        rcases List.mem_cons.mp ha with h1 | h1
        · exact absurd h1.symm hx
        · exact h1
      have ih2 := ih hn.2 ha2 (fun y hy => h y (List.mem_cons_of_mem _ hy))
      have hxx := h x (List.mem_cons_self _ _) hx
      cases hpx : p x with
      | true =>
        rw [List.filter_cons_of_pos hpx, List.filter_cons_of_pos (by rw [hxx, hpx])]
        simp only [List.length_cons]
        omega
      | false =>
        rw [List.filter_cons_of_neg (by rw [hpx]; simp),
          List.filter_cons_of_neg (by rw [hxx, hpx]; simp)]
        exact ih2

/-- The one-square advance of a black pawn from row 1 costs the 50 points that
`evaluateBoard` gives for a pawn on row 1. -/
theorem evaluateBoard_advance (g : Game) (col : Int) (hc : col ∈ range8)
    (hp : g.board 1 col = some ⟨.pawn, .black⟩) (he : g.board 2 col = none) :
    ∃ g1, makeMove g 1 col 2 col .queen = some g1 ∧
      g1.board = ((g.board).set 2 col (some ⟨.pawn, .black⟩)).set 1 col none ∧
      evaluateBoard g1 = evaluateBoard g - 50 := by
  have hm : makeMove g 1 col 2 col .queen =
      some { g with
        board := ((g.board).set 2 col (some ⟨.pawn, .black⟩)).set 1 col none
        enPassantTarget := none } := by
    unfold makeMove
    rw [hp]
    simp
  refine ⟨_, hm, rfl, ?_⟩
  rw [evaluateBoard_eq, evaluateBoard_eq]
  dsimp only
  have hnd : allSquares.Nodup := by decide
  have hnr : range8.Nodup := by decide
  have h2c : ((2 : Int), col) ∈ allSquares := (mem_allSquares 2 col).mpr ⟨by decide, hc⟩
  have h1c : ((1 : Int), col) ∈ allSquares := (mem_allSquares 1 col).mpr ⟨by decide, hc⟩
  have m1 := sum_map_single allSquares hnd (2, col) h2c
    (fun sq => signedValue (g.board sq.1 sq.2))
    (fun sq => signedValue (((g.board).set 2 col (some ⟨.pawn, .black⟩)) sq.1 sq.2))
    (by
      intro x _ hx
      dsimp only
      rw [set_other]
      intro hh
      exact hx (Prod.ext hh.1 hh.2))
  have m2 := sum_map_single allSquares hnd (1, col) h1c
    (fun sq => signedValue (((g.board).set 2 col (some ⟨.pawn, .black⟩)) sq.1 sq.2))
    (fun sq => signedValue
      ((((g.board).set 2 col (some ⟨.pawn, .black⟩)).set 1 col none) sq.1 sq.2))
    (by
      intro x _ hx
      dsimp only
      rw [set_other]
      intro hh
      exact hx (Prod.ext hh.1 hh.2))
  dsimp only at m1 m2
  rw [set_same, he] at m1
  rw [set_same, set_other _ _ _ _ _ _ (by simp), hp] at m2
  have hmat : material (((g.board).set 2 col (some ⟨.pawn, .black⟩)).set 1 col none) =
      material g.board := by
    unfold material
    rw [m2, m1]
    simp [signedValue, pieceValue]
  have hcount := filter_length_single range8 hnr col hc
    (fun c => holdsPawn (g.board 1 c))
    (fun c => holdsPawn ((((g.board).set 2 col (some ⟨.pawn, .black⟩)).set 1 col none) 1 c))
    (by
      intro x _ hx
      dsimp only
      rw [set_other _ _ _ _ _ _ (by simp [hx]), set_other _ _ _ _ _ _ (by simp)])
    (by dsimp only; rw [hp]; rfl)
    (by dsimp only; rw [set_same]; rfl)
  rw [hmat]
  unfold pawnsOnRowOne
  rw [hcount]
  push_cast
  ring

theorem mem_offsetMoves {row col : Int} {offsets : List (Int × Int)} {d : Int × Int}
    (h : d ∈ offsetMoves row col offsets) : isInBounds d.1 d.2 = true := by
  unfold offsetMoves at h
  simp only [List.mem_map, List.mem_filter] at h
  obtain ⟨x, ⟨_, hx⟩, rfl⟩ := h
  exact hx

theorem mem_addSlidingMoves {g : Game} {row col : Int} {directions : List (Int × Int)}
    {d : Int × Int} (h : d ∈ addSlidingMoves g row col directions []) :
    isInBounds d.1 d.2 = true := by
  rw [addSlidingMoves_eq, List.nil_append, List.mem_flatMap] at h
  obtain ⟨dir, _, hd⟩ := h
  obtain ⟨x, y⟩ := d
  obtain ⟨k, _, rfl, rfl, hin, _⟩ := (mem_slide _ _ _ _ _ _ x y).mp hd
  exact hin k (Nat.le_refl k)

/-- Every candidate of `getPossibleMoves` for a piece on one of the 64 squares
is one of the 64 squares, but for the two castling candidates of a king, which
are two columns aside whatever the column of the king. -/
theorem getPossibleMoves_inBounds (g : Game) (row col : Int)
    (hb : isInBounds row col = true) (d : Int × Int) (hd : d ∈ getPossibleMoves g row col) :
    isInBounds d.1 d.2 = true ∨
    ∃ p, g.board row col = some p ∧ p.type = .king ∧ d.1 = row ∧
      (d.2 = col - 2 ∨ d.2 = col + 2) := by
  unfold getPossibleMoves at hd
  split at hd
  · simp at hd
  · next p hp =>
    dsimp only at hd
    split at hd
    · left
      rcases List.mem_append.mp hd with h1 | h1
      · by_cases k1 : (isInBounds (row + direction p.color) col &&
            (g.board (row + direction p.color) col).isNone) = true
        · rw [if_pos k1] at h1
          simp only [Bool.and_eq_true] at k1
          rcases List.mem_cons.mp h1 with rfl | h2
          · exact k1.1
          · by_cases k2 : ((row == if (p.color == Color.white) = true then 6 else 1) &&
                (g.board (row + 2 * direction p.color) col).isNone) = true
            · rw [if_pos k2] at h2
              simp only [List.mem_singleton] at h2
              subst h2
              simp only [Bool.and_eq_true, beq_iff_eq] at k2
              have hrow := k2.1
              unfold isInBounds at hb ⊢
              simp only [Bool.and_eq_true, decide_eq_true_eq] at hb ⊢
              cases hcol : p.color with
              | white =>
                rw [hcol] at hrow
                simp only [beq_self_eq_true, if_true] at hrow
                subst hrow
                simp only [direction]
                omega
              | black =>
                rw [hcol] at hrow
                have hrow2 : row = 1 := hrow
                subst hrow2
                simp only [direction]
                omega
            · rw [if_neg k2] at h2
              simp at h2
        · rw [if_neg k1] at h1
          simp at h1
      · exact mem_offsetMoves h1
    · exact Or.inl (mem_offsetMoves hd)
    · exact Or.inl (mem_addSlidingMoves hd)
    · exact Or.inl (mem_addSlidingMoves hd)
    · exact Or.inl (mem_addSlidingMoves hd)
    · next hk =>
      rcases List.mem_append.mp hd with h1 | h1
      · exact Or.inl (mem_offsetMoves h1)
      · right
        refine ⟨p, hp, hk, ?_⟩
        split_ifs at h1 <;>
          simp only [List.mem_append, List.mem_cons, List.mem_singleton, List.not_mem_nil,
            or_false, false_or, or_self] at h1 <;>
          first
            | exact absurd h1 id
            | (rcases h1 with rfl | rfl <;> simp)

/-- Every move of `getAllMoves` starts on one of the 64 squares and goes to a
candidate that `getPossibleMoves` lists for that square. -/
theorem getAllMoves_candidates (g : Game) (color : Color) (m : Move)
    (hm : m ∈ (getAllMoves g color).1) :
    isInBounds m.fromRow m.fromCol = true ∧
    (m.toRow, m.toCol) ∈ getPossibleMoves g m.fromRow m.fromCol := by
  have hs : allSquares.Pairwise fun a b => a.1 < b.1 ∨ (a.1 = b.1 ∧ a.2 < b.2) := by
    decide
  obtain ⟨h1, _, h3⟩ := getAllMovesLoop_order color allSquares hs g
  constructor
  · have h := h1 m hm
    rw [mem_allSquares, mem_range8, mem_range8] at h
    unfold isInBounds
    simp only [Bool.and_eq_true, decide_eq_true_eq]
    omega
  · apply (h3 m.fromRow m.fromCol).subset
    rw [List.mem_map]
    refine ⟨m, ?_, rfl⟩
    rw [List.mem_filter]
    exact ⟨hm, by simp⟩

/-! ## The promotion panel: the click, the button and the two together -/

/-- The click of the specification's move path is the click of the page
followed, when it opened the panel, by the handler of the button chosen. -/
theorem handleSquareClick_eq_click_then_button (g : Game) (row col : Int)
    (promotionChoice : PieceType) :
    handleSquareClick g row col promotionChoice =
      match Page.handleSquareClick ⟨g, none⟩ row col with
      | none => none
      | some p1 =>
        match p1.promotionContainer with
        | none => some p1.game
        | some panel => promotionHandler p1.game panel promotionChoice := by
  unfold handleSquareClick Page.handleSquareClick
  dsimp only
  by_cases h1 : g.gameOver = true
  · rw [if_pos h1, if_pos h1]
  · rw [if_neg h1, if_neg h1]
    by_cases h2 : (g.isSinglePlayer && g.currentPlayer == .black) = true
    · rw [if_pos h2, if_pos h2]
    · rw [if_neg h2, if_neg h2]
      cases hsel : g.selectedPiece with
      | none =>
        dsimp only
        by_cases h3 : hasColor g.board g.currentPlayer row col = true
        · rw [if_pos h3, if_pos h3]
        · rw [if_neg h3, if_neg h3]
      | some sq =>
        obtain ⟨fromRow, fromCol⟩ := sq
        dsimp only
        cases hv : isValidMove g fromRow fromCol row col with
        | mk b g1 =>
          cases b with
          | false => rfl
          | true =>
            dsimp only
            by_cases h4 : ((g1.board fromRow fromCol).map Piece.type == some .pawn &&
                (row == 0 || row == 7)) = true
            · rw [if_pos h4, if_pos h4]
              dsimp only [showPromotionOptions]
              unfold promotionHandler
              dsimp only
              rw [(renderBoard_fields g1).1]
              simp only [Bool.and_eq_true, beq_iff_eq] at h4
              cases hp : g1.board fromRow fromCol with
              | none => rw [hp] at h4; simp at h4
              | some piece =>
                rw [hp] at h4
                simp only [Option.map_some', Option.some.injEq] at h4
                dsimp only
                simp only [Option.map_some', h4.1]
                rfl
            · rw [if_neg h4, if_neg h4]
              cases moveCallback g1 fromRow fromCol row col g1.board (g1.board row col)
                  ((g1.board fromRow fromCol).map Piece.type == some .king &&
                    (fromCol - col).natAbs == 2)
                  ((g1.board fromRow fromCol).map Piece.type == some .pawn && col != fromCol &&
                    (g1.board row col).isNone) .queen with
              | none => rfl
              | some r =>
                obtain ⟨b2, g2⟩ := r
                cases b2 <;> rfl

/-- A button press that lengthens the history has committed the move of the
panel with the kind of one of the four buttons. -/
theorem pressButton_commits {page page1 : Page} {panel : Panel} {k : Nat}
    (hpanel : page.promotionContainer = some panel) (h : page.pressButton k = some page1)
    (hlen : page1.game.moveHistory.length = page.game.moveHistory.length + 1) :
    ∃ t ∈ promotionOptions, ∃ gm, makeMove page.game panel.fromRow panel.fromCol panel.row
      panel.col t = some gm ∧ page1.game.board = gm.board := by
  unfold Page.pressButton at h
  rw [hpanel] at h
  cases hk : promotionOptions[k]? with
  | none =>
    rw [hk] at h
    simp only [Option.some.injEq] at h
    rw [← h] at hlen
    omega
  | some t =>
    rw [hk] at h
    dsimp only at h
    have hmem : t ∈ promotionOptions := List.getElem?_mem hk
    unfold promotionHandler at h
    cases hp : page.game.board panel.fromRow panel.fromCol with
    | none => rw [hp] at h; simp at h
    | some piece =>
      rw [hp] at h
      dsimp only at h
      cases hc : moveCallback page.game panel.fromRow panel.fromCol panel.row panel.col
          panel.tempBoard panel.capturedPiece
          (piece.type == .king && (panel.fromCol - panel.col).natAbs == 2)
          (piece.type == .pawn && panel.col != panel.fromCol && panel.capturedPiece.isNone) t with
      | none => rw [hc] at h; simp at h
      | some r =>
        rw [hc] at h
        obtain ⟨b2, g2⟩ := r
        simp only [Option.map_some', Option.some.injEq] at h
        obtain ⟨gm, hgm, hcase⟩ := moveCallback_cases hc
        have hb : page1.game.board = g2.board := by
          rw [← h]
          exact (renderBoard_fields g2).1
        have hh : page1.game.moveHistory = g2.moveHistory := by
          rw [← h]
          exact (renderBoard_fields g2).2.2
        rcases hcase with ⟨_, _, _, h4, _⟩ | ⟨_, _, h3, _, _, _⟩
        · dsimp only at h4
          rw [hh, h4] at hlen
          omega
        · dsimp only at h3
          exact ⟨t, hmem, gm, hgm, hb.trans h3⟩

/-! ## The claims -/

/-- C1 fails on the code: in the two-player game 1. e4 f5 2. Qh5+ is reached by
committed moves, Black is to move, `getAllMoves('black')` returns a7-a6, and
after `makeMove` applies it `isInCheck('black')` is true. -/
theorem getAllMoves_returns_move_into_check :
    ∃ g : Game, Reachable g ∧ g.currentPlayer = .black ∧ g.gameOver = false ∧
      ∃ m ∈ (getAllMoves g .black).1, ∃ g1 : Game,
        makeMove (getAllMoves g .black).2 m.fromRow m.fromCol m.toRow m.toCol .queen = some g1 ∧
        (isInCheck g1 .black).1 = true := by
  have h := exists_of_holdsOn (clicks (newChessGame false) queenCheckClicks)
    (fun g => g.currentPlayer == .black && !g.gameOver &&
      decide ((⟨1, 0, 2, 0⟩ : Move) ∈ (getAllMoves g .black).1) &&
      holdsOn (makeMove (getAllMoves g .black).2 1 0 2 0 .queen)
        (fun g1 => (isInCheck g1 .black).1)) (by decide!)
  obtain ⟨g, hg, hp⟩ := h
  simp only [Bool.and_eq_true, beq_iff_eq, decide_eq_true_eq, Bool.not_eq_true'] at hp
  obtain ⟨⟨⟨h1, h2⟩, h3⟩, h4⟩ := hp
  obtain ⟨g1, hg1, hc⟩ := exists_of_holdsOn _ _ h4
  exact ⟨g, reachable_clicks _ _ _ (Reachable.start false) inBounds_queenCheckClicks hg,
    h1, h2, ⟨1, 0, 2, 0⟩, h3, g1, hg1, hc⟩

/-- C2: a click handled by `handleSquareClick` either commits nothing and leaves
the board as it was, or commits one move after which `isInCheck` of the
player who moved is false.  On the move path (a piece selected,
`isValidMove` true) `makeMove` runs on a state with the board of before, and
the outcome is decided by the check test alone: in check, the board is put
back and nothing is committed; not in check, the move is committed. -/
theorem handleSquareClick_commits_only_safe_moves (g g1 : Game) (row col : Int)
    (promotionChoice : PieceType)
    (h : handleSquareClick g row col promotionChoice = some g1) :
    ((g1.moveHistory = g.moveHistory ∧ g1.currentPlayer = g.currentPlayer ∧
        g1.board = g.board) ∨
     ((∃ e, g1.moveHistory = g.moveHistory ++ [e]) ∧
        g1.currentPlayer = opponent g.currentPlayer ∧
        (isInCheck g1 g.currentPlayer).1 = false)) ∧
    ∀ fromRow fromCol : Int, g.selectedPiece = some (fromRow, fromCol) →
      g.gameOver = false → (g.isSinglePlayer && g.currentPlayer == .black) = false →
      (isValidMove g fromRow fromCol row col).1 = true →
      ∃ gw gm : Game, ∃ t : PieceType, gw.board = g.board ∧
        makeMove gw fromRow fromCol row col t = some gm ∧
        (((isInCheck gm g.currentPlayer).1 = true ∧ g1.board = g.board ∧
            g1.moveHistory = g.moveHistory ∧ g1.currentPlayer = g.currentPlayer) ∨
         ((isInCheck gm g.currentPlayer).1 = false ∧ g1.board = gm.board ∧
            (∃ e, g1.moveHistory = g.moveHistory ++ [e]) ∧
            g1.currentPlayer = opponent g.currentPlayer ∧
            (isInCheck g1 g.currentPlayer).1 = false)) := by
  have key : ∀ fromRow fromCol : Int, g.selectedPiece = some (fromRow, fromCol) →
      g.gameOver = false → (g.isSinglePlayer && g.currentPlayer == .black) = false →
      (isValidMove g fromRow fromCol row col).1 = true →
      ∃ gw gm : Game, ∃ t : PieceType, gw.board = g.board ∧
        makeMove gw fromRow fromCol row col t = some gm ∧
        (((isInCheck gm g.currentPlayer).1 = true ∧ g1.board = g.board ∧
            g1.moveHistory = g.moveHistory ∧ g1.currentPlayer = g.currentPlayer) ∨
         ((isInCheck gm g.currentPlayer).1 = false ∧ g1.board = gm.board ∧
            (∃ e, g1.moveHistory = g.moveHistory ++ [e]) ∧
            g1.currentPlayer = opponent g.currentPlayer ∧
            (isInCheck g1 g.currentPlayer).1 = false)) := by
    intro fromRow fromCol hsel hgo hturn hvalid
    have hv : isValidMove g fromRow fromCol row col =
        (true, (isValidMove g fromRow fromCol row col).2) := Prod.ext hvalid rfl
    exact handleSquareClick_valid hsel hgo hturn hv h
  refine ⟨?_, key⟩
  cases hgo : g.gameOver with
  | true =>
    unfold handleSquareClick at h
    simp only [hgo, if_true, Option.some.injEq] at h
    subst h
    exact Or.inl ⟨rfl, rfl, rfl⟩
  | false =>
    cases hturn : (g.isSinglePlayer && g.currentPlayer == .black) with
    | true =>
      unfold handleSquareClick at h
      simp only [hgo, hturn, Bool.false_eq_true, if_false, if_true, Option.some.injEq] at h
      subst h
      exact Or.inl ⟨rfl, rfl, rfl⟩
    | false =>
      cases hsel : g.selectedPiece with
      | none =>
        unfold handleSquareClick at h
        simp only [hgo, hturn, hsel, Bool.false_eq_true, if_false] at h
        split at h
        · simp only [Option.some.injEq] at h
          subst h
          refine Or.inl ⟨?_, ?_, ?_⟩
          · exact ((renderBoard_fields _).2.2).trans (highlightLoop_fields _ _ _ _).2.2
          · exact ((renderBoard_fields _).2.1).trans (highlightLoop_fields _ _ _ _).2.1
          · exact ((renderBoard_fields _).1).trans (highlightLoop_fields _ _ _ _).1
        · simp only [Option.some.injEq] at h
          subst h
          exact Or.inl ⟨rfl, rfl, rfl⟩
      | some sq =>
        obtain ⟨fromRow, fromCol⟩ := sq
        cases hb : (isValidMove g fromRow fromCol row col).1 with
        | true =>
          obtain ⟨gw, gm, t, _, _, hcase⟩ := key fromRow fromCol hsel hgo hturn hb
          rcases hcase with ⟨_, c2, c3, c4⟩ | ⟨_, _, c3, c4, c5⟩
          · exact Or.inl ⟨c3, c4, c2⟩
          · exact Or.inr ⟨c3, c4, c5⟩
        | false =>
          have hv : isValidMove g fromRow fromCol row col =
              (false, (isValidMove g fromRow fromCol row col).2) := Prod.ext hb rfl
          have hc := isValidMove_core g fromRow fromCol row col false
          unfold handleSquareClick at h
          rw [hgo, hturn, hsel] at h
          simp only [Bool.false_eq_true, if_false] at h
          rw [hv] at h
          simp only [Option.some.injEq] at h
          subst h
          obtain ⟨r1, r2, r3⟩ := renderBoard_fields
            { (isValidMove g fromRow fromCol row col).2 with
              possibleMoves := [], selectedPiece := none }
          have b1 : (isValidMove g fromRow fromCol row col).2.board = g.board := core_board hc
          have b2 : (isValidMove g fromRow fromCol row col).2.currentPlayer = g.currentPlayer :=
            core_currentPlayer hc
          have b3 : (isValidMove g fromRow fromCol row col).2.moveHistory = g.moveHistory :=
            core_moveHistory hc
          exact Or.inl ⟨r3.trans b3, r2.trans b2, r1.trans b1⟩

theorem handleSquareClick_commits_only_safe_moves_witness :
    ∃ g g1 : Game, clicks (newChessGame true) [(6, 4)] = some g ∧
      handleSquareClick g 4 4 .queen = some g1 ∧
      ((g1.moveHistory = g.moveHistory ∧ g1.currentPlayer = g.currentPlayer ∧
          g1.board = g.board) ∨
       ((∃ e, g1.moveHistory = g.moveHistory ++ [e]) ∧
          g1.currentPlayer = opponent g.currentPlayer ∧
          (isInCheck g1 g.currentPlayer).1 = false)) ∧
      ∀ fromRow fromCol : Int, g.selectedPiece = some (fromRow, fromCol) →
        g.gameOver = false → (g.isSinglePlayer && g.currentPlayer == .black) = false →
        (isValidMove g fromRow fromCol 4 4).1 = true →
        ∃ gw gm : Game, ∃ t : PieceType, gw.board = g.board ∧
          makeMove gw fromRow fromCol 4 4 t = some gm ∧
          (((isInCheck gm g.currentPlayer).1 = true ∧ g1.board = g.board ∧
              g1.moveHistory = g.moveHistory ∧ g1.currentPlayer = g.currentPlayer) ∨
           ((isInCheck gm g.currentPlayer).1 = false ∧ g1.board = gm.board ∧
              (∃ e, g1.moveHistory = g.moveHistory ++ [e]) ∧
              g1.currentPlayer = opponent g.currentPlayer ∧
              (isInCheck g1 g.currentPlayer).1 = false)) := by
  obtain ⟨g, hg, hp⟩ := exists_of_holdsOn (clicks (newChessGame true) [(6, 4)])
    (fun g => (handleSquareClick g 4 4 .queen).isSome) (by decide!)
  obtain ⟨g1, hg1⟩ := Option.isSome_iff_exists.mp hp
  exact ⟨g, g1, hg, hg1, handleSquareClick_commits_only_safe_moves g g1 4 4 .queen hg1⟩

/-- C3 fails on the code: after 1. e4 f5 2. Qh5+ Black has the pawn a7 selected
and clicks a6.  `isValidMove` accepts the move, the black king is left in
check, the move is taken back and nothing is committed, yet `enPassantTarget`,
which held a square before the click, is `null` after it. -/
theorem handleSquareClick_rejection_changes_state :
    ∃ g g1 : Game, Reachable g ∧ g.selectedPiece = some (1, 0) ∧
      (isValidMove g 1 0 2 0).1 = true ∧
      handleSquareClick g 2 0 .queen = some g1 ∧
      g1.moveHistory.length = g.moveHistory.length ∧ g1.currentPlayer = g.currentPlayer ∧
      g.enPassantTarget = some (2, 0) ∧ g1.enPassantTarget = none := by
  have h := exists_of_holdsOn (clicks (newChessGame false) (queenCheckClicks ++ [(1, 0)]))
    (fun g => g.selectedPiece == some (1, 0) && (isValidMove g 1 0 2 0).1 &&
      g.enPassantTarget == some (2, 0) &&
      holdsOn (handleSquareClick g 2 0 .queen) (fun g1 =>
        g1.moveHistory.length == g.moveHistory.length &&
            g1.currentPlayer == g.currentPlayer && g1.enPassantTarget == none)) (by decide!)
  obtain ⟨g, hg, hp⟩ := h
  simp only [Bool.and_eq_true, beq_iff_eq] at hp
  obtain ⟨⟨⟨h1, h2⟩, h3⟩, h4⟩ := hp
  obtain ⟨g1, hg1, hc⟩ := exists_of_holdsOn _ _ h4
  simp only [Bool.and_eq_true, beq_iff_eq] at hc
  refine ⟨g, g1, reachable_clicks _ _ _ (Reachable.start false) ?_ hg, h1, h2, hg1,
    hc.1.1, hc.1.2, h3, hc.2⟩
  decide

/-- C4 fails on the code: after e2-e4, d7-d5, e4-e5, f7-f5 the en passant
target is f6, and `makeMove` of the capture e5xf6 leaves f6 empty and the
black pawn on f5: the square it empties is the destination, where it has just
put the capturing pawn. -/
theorem makeMove_enPassant_empties_destination :
    ∃ g g1 : Game, enPassantSetup = some g ∧ g.enPassantTarget = some (2, 5) ∧
      g.board 3 4 = some ⟨.pawn, .white⟩ ∧ g.board 3 5 = some ⟨.pawn, .black⟩ ∧
      g.board 2 5 = none ∧ (isValidMove g 3 4 2 5).1 = true ∧
      makeMove g 3 4 2 5 .queen = some g1 ∧
      g1.board 2 5 = none ∧ g1.board 3 5 = some ⟨.pawn, .black⟩ ∧ g1.board 3 4 = none := by
  have h := exists_of_holdsOn enPassantSetup
    (fun g => g.enPassantTarget == some (2, 5) && g.board 3 4 == some ⟨.pawn, .white⟩ &&
      g.board 3 5 == some ⟨.pawn, .black⟩ && g.board 2 5 == none &&
      (isValidMove g 3 4 2 5).1 &&
      holdsOn (makeMove g 3 4 2 5 .queen) (fun g1 =>
        g1.board 2 5 == none && g1.board 3 5 == some ⟨.pawn, .black⟩ &&
            g1.board 3 4 == none)) (by decide!)
  obtain ⟨g, hg, hp⟩ := h
  simp only [Bool.and_eq_true, beq_iff_eq] at hp
  obtain ⟨⟨⟨⟨⟨h1, h2⟩, h3⟩, h4⟩, h5⟩, h6⟩ := hp
  obtain ⟨g1, hg1, hc⟩ := exists_of_holdsOn _ _ h6
  simp only [Bool.and_eq_true, beq_iff_eq] at hc
  exact ⟨g, g1, hg, h1, h2, h3, h4, h5, hg1, hc.1.1, hc.1.2, hc.2⟩

/-- C5: a move made by `makeMove` and committed by `commitMove` (with the board
before the move as `tempBoard`, as both callers pass it) that does not end the
game is taken back by `undoMove`: `board` and `currentPlayer` are what they
were before the move, and `moveHistory` and `moveNotation` lose exactly the
entry the commit appended. -/
theorem undoMove_after_commitMove (g g1 g2 : Game) (fromRow fromCol toRow toCol : Int)
    (promotionType : PieceType) (capturedPiece : Option Piece) (isCastling isEnPassant : Bool)
    (hm : makeMove g fromRow fromCol toRow toCol promotionType = some g1)
    (hc : commitMove g1 fromRow fromCol toRow toCol g.board capturedPiece isCastling
      isEnPassant = some g2)
    (hend : g2.gameOver = false) :
    (undoMove g2).board = g.board ∧ (undoMove g2).currentPlayer = g.currentPlayer ∧
    (∃ e, g2.moveHistory = g.moveHistory ++ [e]) ∧ (undoMove g2).moveHistory = g.moveHistory ∧
    (∃ t, Game.moveNotation g2 = Game.moveNotation g ++ [t]) ∧
    Game.moveNotation (undoMove g2) = Game.moveNotation g := by
  obtain ⟨_, _, h3, ⟨t, _, h4⟩, _, _⟩ := commitMove_fields hc
  obtain ⟨u1, u2, u3, u4, _⟩ := undoMove_fields h3 hend
  have e1 := makeMove_eq hm
  have hcp : g1.currentPlayer = g.currentPlayer := by rw [e1]
  have hmh : g1.moveHistory = g.moveHistory := by rw [e1]
  have hmn : Game.moveNotation g1 = Game.moveNotation g := by rw [e1]
  refine ⟨u1, u2.trans hcp, ⟨_, hmh ▸ h3⟩, u3.trans hmh, ⟨t, hmn ▸ h4⟩, ?_⟩
  rw [u4, h4, List.dropLast_concat, hmn]

theorem undoMove_after_commitMove_witness :
    ∃ g1 g2 : Game, makeMove (newChessGame true) 6 4 4 4 .queen = some g1 ∧
      commitMove g1 6 4 4 4 (newChessGame true).board none false false = some g2 ∧
      g2.gameOver = false ∧
      (undoMove g2).board = (newChessGame true).board ∧
      (undoMove g2).currentPlayer = (newChessGame true).currentPlayer ∧
      (∃ e, g2.moveHistory = (newChessGame true).moveHistory ++ [e]) ∧
      (undoMove g2).moveHistory = (newChessGame true).moveHistory ∧
      (∃ t, Game.moveNotation g2 = Game.moveNotation (newChessGame true) ++ [t]) ∧
      Game.moveNotation (undoMove g2) = Game.moveNotation (newChessGame true) := by
  obtain ⟨g1, h1, hp⟩ := exists_of_holdsOn (makeMove (newChessGame true) 6 4 4 4 .queen)
    (fun g1 => holdsOn (commitMove g1 6 4 4 4 (newChessGame true).board none false false)
      (fun g2 => !g2.gameOver)) (by decide!)
  obtain ⟨g2, h2, hq⟩ := exists_of_holdsOn _ _ hp
  simp only [Bool.not_eq_true'] at hq
  exact ⟨g1, g2, h1, h2, hq,
    undoMove_after_commitMove _ g1 g2 6 4 4 4 .queen none false false h1 h2 hq⟩

/-- C6 fails on the code: in the two-player game 1. e4 e5 2. Ke2 the king move is
committed and does not end the game; after `undoMove` the white king is back
on e1, but `hasMoved.whiteKing`, false before the move, is true. -/
theorem undoMove_keeps_whiteKing_flag :
    ∃ g g1 : Game, Reachable g ∧ g.selectedPiece = some (7, 4) ∧
      g.hasMoved.whiteKing = false ∧ handleSquareClick g 6 4 .queen = some g1 ∧
      g1.moveHistory.length = g.moveHistory.length + 1 ∧ g1.gameOver = false ∧
      (undoMove g1).board 7 4 = some ⟨.king, .white⟩ ∧
      (undoMove g1).hasMoved.whiteKing = true := by
  have h := exists_of_holdsOn
    (clicks (newChessGame false) [(6, 4), (4, 4), (1, 4), (3, 4), (7, 4)])
    (fun g => g.selectedPiece == some (7, 4) && !g.hasMoved.whiteKing &&
      holdsOn (handleSquareClick g 6 4 .queen) (fun g1 =>
        g1.moveHistory.length == g.moveHistory.length + 1 && !g1.gameOver &&
        (undoMove g1).board 7 4 == some ⟨.king, .white⟩ &&
        (undoMove g1).hasMoved.whiteKing)) (by decide!)
  obtain ⟨g, hg, hp⟩ := h
  simp only [Bool.and_eq_true, beq_iff_eq, Bool.not_eq_true'] at hp
  obtain ⟨⟨h1, h2⟩, h3⟩ := hp
  obtain ⟨g1, hg1, hc⟩ := exists_of_holdsOn _ _ h3
  simp only [Bool.and_eq_true, beq_iff_eq, Bool.not_eq_true'] at hc
  refine ⟨g, g1, reachable_clicks _ _ _ (Reachable.start false) ?_ hg, h1, h2, hg1,
    hc.1.1.1, hc.1.1.2, hc.1.2, hc.2⟩
  decide

/-- C7 fails on the code: after 1. e4 d5 2. e5 f5 the en passant target is f6 and
e5xf6 is valid.  White plays Nc3, the move is committed and does not end the
game, and `undoMove` follows: `enPassantTarget` is `null`, not f6, and e5xf6
is no longer valid. -/
theorem undoMove_loses_enPassantTarget :
    ∃ g g1 : Game, Reachable g ∧ g.selectedPiece = some (7, 1) ∧
      g.enPassantTarget = some (2, 5) ∧ (isValidMove g 3 4 2 5).1 = true ∧
      handleSquareClick g 5 2 .queen = some g1 ∧
      g1.moveHistory.length = g.moveHistory.length + 1 ∧ g1.gameOver = false ∧
      (undoMove g1).enPassantTarget = none ∧ (isValidMove (undoMove g1) 3 4 2 5).1 = false := by
  have h := exists_of_holdsOn (clicks (newChessGame false) (enPassantClicks ++ [(7, 1)]))
    (fun g => g.selectedPiece == some (7, 1) && g.enPassantTarget == some (2, 5) &&
      (isValidMove g 3 4 2 5).1 &&
      holdsOn (handleSquareClick g 5 2 .queen) (fun g1 =>
        g1.moveHistory.length == g.moveHistory.length + 1 && !g1.gameOver &&
        (undoMove g1).enPassantTarget == none &&
        !(isValidMove (undoMove g1) 3 4 2 5).1)) (by decide!)
  obtain ⟨g, hg, hp⟩ := h
  simp only [Bool.and_eq_true, beq_iff_eq] at hp
  obtain ⟨⟨⟨h1, h2⟩, h3⟩, h4⟩ := hp
  obtain ⟨g1, hg1, hc⟩ := exists_of_holdsOn _ _ h4
  simp only [Bool.and_eq_true, beq_iff_eq, Bool.not_eq_true'] at hc
  refine ⟨g, g1, reachable_clicks _ _ _ (Reachable.start false) ?_ hg, h1, h2, h3, hg1,
    hc.1.1.1, hc.1.1.2, hc.1.2, hc.2⟩
  decide

/-- C8: `undoMove` with an empty `moveHistory`, or with `gameOver` set, returns
the state it was given: no field changes and no error is raised. -/
theorem undoMove_noop (g : Game) (h : g.moveHistory = [] ∨ g.gameOver = true) :
    undoMove g = g := by
  unfold undoMove
  rcases h with h | h
  · simp [h]
  · simp [h]

theorem undoMove_noop_witness :
    ((newChessGame true).moveHistory = [] ∨ (newChessGame true).gameOver = true) ∧
      undoMove (newChessGame true) = newChessGame true :=
  ⟨Or.inl rfl, undoMove_noop (newChessGame true) (Or.inl rfl)⟩

/-- C9: on the initial state `getAllMoves('white')` returns 20 moves: for each
of the eight pawns the one-square and the two-square advance, then b1-a3,
b1-c3, g1-f3 and g1-h3. -/
theorem getAllMoves_initial (isSinglePlayer : Bool) :
    (getAllMoves (newChessGame isSinglePlayer) .white).1 =
      [⟨6, 0, 5, 0⟩, ⟨6, 0, 4, 0⟩, ⟨6, 1, 5, 1⟩, ⟨6, 1, 4, 1⟩, ⟨6, 2, 5, 2⟩, ⟨6, 2, 4, 2⟩,
       ⟨6, 3, 5, 3⟩, ⟨6, 3, 4, 3⟩, ⟨6, 4, 5, 4⟩, ⟨6, 4, 4, 4⟩, ⟨6, 5, 5, 5⟩, ⟨6, 5, 4, 5⟩,
       ⟨6, 6, 5, 6⟩, ⟨6, 6, 4, 6⟩, ⟨6, 7, 5, 7⟩, ⟨6, 7, 4, 7⟩,
       ⟨7, 1, 5, 0⟩, ⟨7, 1, 5, 2⟩, ⟨7, 6, 5, 5⟩, ⟨7, 6, 5, 7⟩] ∧
    (getAllMoves (newChessGame isSinglePlayer) .white).1.length = 20 := by
  cases isSinglePlayer <;> decide!

/-- C10: a king on its home square e1 or e8 (the only king of its colour) and
the rook of the chosen side on its corner, both flags of `hasMoved` false,
the squares between them empty, and no enemy piece attacking the king's
square, the square it crosses or the square it lands on.  Then `isValidMove`
of the king two columns toward the rook is true (and writes nothing),
`makeMove` puts the king there, the rook on the square crossed, and empties
both origins, and a commit with the `isCastling` flag the callers compute
appends `O-O` on the king's side and `O-O-O` on the queen's side. -/
theorem castling_accepted_and_made (g : Game) (color : Color) (kingside : Bool)
    (promotionType : PieceType)
    (hking : g.board (homeRow color) 4 = some ⟨.king, color⟩)
    (hrook : g.board (homeRow color) (rookCorner kingside) = some ⟨.rook, color⟩)
    (hkflag : (if color = .white then g.hasMoved.whiteKing else g.hasMoved.blackKing) = false)
    (hrflag : (if kingside then
        (if color = .white then g.hasMoved.whiteRooks else g.hasMoved.blackRooks).2
      else (if color = .white then g.hasMoved.whiteRooks else g.hasMoved.blackRooks).1) = false)
    (hempty : ∀ c ∈ range8,
      (4 < c ∧ c < rookCorner kingside) ∨ (rookCorner kingside < c ∧ c < 4) →
      g.board (homeRow color) c = none)
    (hone : ∀ sq ∈ allSquares, isKingOf g.board color sq.1 sq.2 = true →
      sq = (homeRow color, 4))
    (hsafe : ∀ sq ∈ allSquares, hasColor g.board (opponent color) sq.1 sq.2 = true →
      ∀ c ∈ [4, crossCol kingside, castleCol kingside],
        standardAttack g.board sq.1 sq.2 (homeRow color) c = false) :
    isValidMove g (homeRow color) 4 (homeRow color) (castleCol kingside) = (true, g) ∧
    ∃ g1, makeMove g (homeRow color) 4 (homeRow color) (castleCol kingside) promotionType =
        some g1 ∧
      g1.board (homeRow color) (castleCol kingside) = some ⟨.king, color⟩ ∧
      g1.board (homeRow color) (crossCol kingside) = some ⟨.rook, color⟩ ∧
      g1.board (homeRow color) 4 = none ∧
      g1.board (homeRow color) (rookCorner kingside) = none ∧
      ∀ (tempBoard : Board) (capturedPiece : Option Piece) (isEnPassant : Bool),
        ∃ g2, commitMove g1 (homeRow color) 4 (homeRow color) (castleCol kingside) tempBoard
            capturedPiece
            ((g.board (homeRow color) 4).map Piece.type == some .king &&
              ((4 : Int) - castleCol kingside).natAbs == 2) isEnPassant = some g2 ∧
          Game.moveNotation g2 =
            Game.moveNotation g ++ [if kingside then "O-O" else "O-O-O"] := by
  have hto : g.board (homeRow color) (castleCol kingside) = none :=
    hempty _ (by cases kingside <;> simp [castleCol, range8])
      (by cases kingside <;> simp [castleCol, rookCorner])
  have hcross : g.board (homeRow color) (crossCol kingside) = none :=
    hempty _ (by cases kingside <;> simp [crossCol, range8])
      (by cases kingside <;> simp [crossCol, rookCorner])
  constructor
  · unfold isValidMove isValidMoveWith
    rw [hking]
    have hc : hasColor g.board color (homeRow color) (castleCol kingside) = false := by
      unfold hasColor; rw [hto]
    dsimp only
    rw [hc]
    simp only [Bool.false_eq_true, if_false, sub_self]
    have h1 : (decide (Int.natAbs 0 ≤ 1) &&
        decide ((castleCol kingside - 4).natAbs ≤ 1)) = false := by
      cases kingside <;> simp [castleCol]
    have h2 : (!false && (0 : Int) == 0 && (castleCol kingside - 4).natAbs == 2) = true := by
      cases kingside <;> simp [castleCol]
    rw [h1, h2]
    simp only [Bool.false_eq_true, if_false, if_true]
    exact isValidCastling_eq_true g color kingside hking hkflag hrflag hempty hone hsafe
  · have hflag : ((g.board (homeRow color) 4).map Piece.type == some .king &&
        ((4 : Int) - castleCol kingside).natAbs == 2) = true := by
      rw [hking]
      cases kingside <;> simp [castleCol]
    rw [hflag]
    have hm : ∃ g1, makeMove g (homeRow color) 4 (homeRow color) (castleCol kingside)
          promotionType = some g1 ∧
        Game.moveNotation g1 = Game.moveNotation g ∧
        g1.board = ((((g.board).set (homeRow color) (castleCol kingside)
            (some ⟨.king, color⟩)).set (homeRow color) 4 none).set (homeRow color)
            (crossCol kingside) (some ⟨.rook, color⟩)).set (homeRow color)
            (rookCorner kingside) none := by
      unfold makeMove
      rw [hking]
      cases kingside <;>
        simp only [rookCorner, if_true, if_false, Bool.false_eq_true] at hrook <;>
        simp [castleCol, crossCol, rookCorner, Board.set, hrook]
    obtain ⟨g1, hg1, hn1, hb1⟩ := hm
    refine ⟨g1, hg1, ?_, ?_, ?_, ?_, ?_⟩
    · rw [hb1]; cases kingside <;> simp [Board.set, castleCol, crossCol, rookCorner]
    · rw [hb1]; cases kingside <;> simp [Board.set, castleCol, crossCol, rookCorner]
    · rw [hb1]; cases kingside <;> simp [Board.set, castleCol, crossCol, rookCorner]
    · rw [hb1]; cases kingside <;> simp [Board.set, castleCol, crossCol, rookCorner]
    · intro tempBoard capturedPiece isEnPassant
      obtain ⟨g2, h2, hn2⟩ := commitMove_castling g1 (homeRow color) 4 (homeRow color)
        (castleCol kingside) tempBoard capturedPiece isEnPassant
      refine ⟨g2, h2, ?_⟩
      rw [hn2, hn1]
      cases kingside <;> simp [castleCol]

theorem castling_accepted_and_made_witness :
    (castlingExample.board (homeRow .white) 4 = some ⟨.king, .white⟩ ∧
      castlingExample.board (homeRow .white) (rookCorner true) = some ⟨.rook, .white⟩ ∧
      castlingExample.hasMoved.whiteKing = false ∧
      castlingExample.hasMoved.whiteRooks.2 = false) ∧
    (isValidMove castlingExample 7 4 7 6).1 = true ∧
    ∃ g1, makeMove castlingExample 7 4 7 6 .queen = some g1 ∧
      g1.board 7 6 = some ⟨.king, .white⟩ ∧ g1.board 7 5 = some ⟨.rook, .white⟩ ∧
      g1.board 7 4 = none ∧ g1.board 7 7 = none ∧
      ∃ g2, commitMove g1 7 4 7 6 castlingExample.board none true false = some g2 ∧
        Game.moveNotation g2 = ["O-O"] := by
  have h := castling_accepted_and_made castlingExample .white true .queen (by decide!)
    (by decide!) (by decide!) (by decide!) (by decide!) (by decide!) (by decide!)
  refine ⟨⟨by decide!, by decide!, by decide!, by decide!⟩, ?_, ?_⟩
  · have h1 := h.1
    simp only [homeRow, castleCol, if_true] at h1
    rw [h1]
  · obtain ⟨g1, a1, a2, a3, a4, a5, a6⟩ := h.2
    simp only [homeRow, castleCol, crossCol, rookCorner, if_true] at a1 a2 a3 a4 a5 a6
    refine ⟨g1, a1, a2, a3, a4, a5, ?_⟩
    obtain ⟨g2, b1, b2⟩ := a6 castlingExample.board none false
    have hflag : (Option.map Piece.type (castlingExample.board 7 4) == some PieceType.king &&
        ((4 : Int) - 6).natAbs == 2) = true := by decide!
    rw [hflag] at b1
    exact ⟨g2, b1, b2⟩

/-- C11 fails on the code: White king e1 and rook h1 that have not moved, black
king e8, and a black pawn on e2.  The pawn stands one row in front of f1 and
one column beside it, so it attacks the square the king crosses, yet
`isValidCastling` returns true, `isValidMove` accepts e1-g1, and the two
clicks e1, g1 commit `O-O`.  With the pawn on g2 instead the answer is false:
there the pawn's one-square advance to g1 is what the loop finds. -/
theorem isValidCastling_misses_pawn_attack :
    castlingThroughAttack.board 6 4 = some ⟨.pawn, .black⟩ ∧
    standardAttack castlingThroughAttack.board 6 4 7 5 = true ∧
    (isInCheck castlingThroughAttack .white).1 = false ∧
    (isValidCastling castlingThroughAttack 7 4 7 6).1 = true ∧
    (isValidMove castlingThroughAttack 7 4 7 6).1 = true ∧
    (isValidCastling
      { castlingExample with board := (castlingExample.board).set 6 6 (some ⟨.pawn, .black⟩) }
      7 4 7 6).1 = false ∧
    ∃ g, clicks castlingThroughAttack [(7, 4), (7, 6)] = some g ∧
      g.board 7 6 = some ⟨.king, .white⟩ ∧ g.board 7 5 = some ⟨.rook, .white⟩ ∧
      Game.moveNotation g = ["O-O"] := by
  refine ⟨by decide!, by decide!, by decide!, by decide!, by decide!, by decide!, ?_⟩
  obtain ⟨g, hg, hp⟩ := exists_of_holdsOn (clicks castlingThroughAttack [(7, 4), (7, 6)])
    (fun g => g.board 7 6 == some ⟨.king, .white⟩ && g.board 7 5 == some ⟨.rook, .white⟩ &&
      Game.moveNotation g == ["O-O"]) (by decide!)
  simp only [Bool.and_eq_true, beq_iff_eq] at hp
  exact ⟨g, hg, hp.1.1, hp.1.2, hp.2⟩

/-- C12 fails on the code: on the board with a black king on h8, a white king on
f7 and a white queen on g6, Black to move, it is not the case that
`isCheckmate()` is true and `isStalemate()` is false. -/
theorem isCheckmate_queenG6_not_true :
    ¬ ((isCheckmate (position true queenG6Board .black noneMoved)).1 = true ∧
       (isStalemate (position true queenG6Board .black noneMoved)).1 = false) := by
  decide!

set_option maxHeartbeats 4000000 in
/-- C12 as amended: on that board, Black to move, whatever the game mode and the
castling flags, the black king is not in check (the queen on g6 is a knight's
move away from h8), `isCheckmate()` is false and `isStalemate()` is true. -/
theorem queenG6_is_stalemate (isSinglePlayer : Bool) (hasMoved : HasMoved) :
    (isInCheck (position isSinglePlayer queenG6Board .black hasMoved) .black).1 = false ∧
    (isCheckmate (position isSinglePlayer queenG6Board .black hasMoved)).1 = false ∧
    (isStalemate (position isSinglePlayer queenG6Board .black hasMoved)).1 = true := by
  obtain ⟨wk, bk, ⟨wr1, wr2⟩, ⟨br1, br2⟩⟩ := hasMoved
  cases isSinglePlayer <;> cases wk <;> cases bk <;> cases wr1 <;> cases wr2 <;> cases br1 <;>
    cases br2 <;> decide!

set_option maxHeartbeats 4000000 in
/-- C13: on the board with a black king on a8, a white king on c6 and a white
queen on c7, Black to move, whatever the game mode and the castling flags,
`isStalemate()` is true and `isCheckmate()` is false. -/
theorem queenC7_is_stalemate (isSinglePlayer : Bool) (hasMoved : HasMoved) :
    (isStalemate (position isSinglePlayer queenC7Board .black hasMoved)).1 = true ∧
    (isCheckmate (position isSinglePlayer queenC7Board .black hasMoved)).1 = false := by
  obtain ⟨wk, bk, ⟨wr1, wr2⟩, ⟨br1, br2⟩⟩ := hasMoved
  cases isSinglePlayer <;> cases wk <;> cases bk <;> cases wr1 <;> cases wr2 <;> cases br1 <;>
    cases br2 <;> decide!

/-- C14 fails on the code: in `blockedCheckExample` White is in check and no move
from any square to any square is legal in the sense of the commit path,
whatever the promotion button, yet `isCheckmate()` is false.  The escape it
finds is e5xf6 en passant: on its own copy of the board the pawn lands on f6
and blocks the bishop, while `makeMove` empties f6 again and leaves the king
in check. -/
theorem isCheckmate_false_without_legal_move :
    blockedCheckExample.currentPlayer = .white ∧
    (isInCheck blockedCheckExample .white).1 = true ∧
    (∀ a ∈ allSquares, ∀ b ∈ allSquares, ∀ t ∈ promotionOptions,
      legalMove blockedCheckExample a.1 a.2 b.1 b.2 t = false) ∧
    (isCheckmate blockedCheckExample).1 = false ∧
    (isValidMove blockedCheckExample 3 4 2 5).1 = true ∧
    tempGameInCheck blockedCheckExample
      (simulateMove blockedCheckExample.board 3 4 2 5) = false ∧
    ∃ g1, makeMove (isValidMove blockedCheckExample 3 4 2 5).2 3 4 2 5 .queen = some g1 ∧
      g1.board 2 5 = none ∧ (isInCheck g1 .white).1 = true := by
  refine ⟨rfl, by decide!, by decide!, by decide!, by decide!, by decide!, ?_⟩
  obtain ⟨g1, hg, hp⟩ := exists_of_holdsOn
    (makeMove (isValidMove blockedCheckExample 3 4 2 5).2 3 4 2 5 .queen)
    (fun g1 => g1.board 2 5 == none && (isInCheck g1 .white).1) (by decide!)
  simp only [Bool.and_eq_true, beq_iff_eq] at hp
  exact ⟨g1, hg, hp.1, hp.2⟩

/-- C15 fails on the code: the handlers of the promotion buttons do not test
`gameOver`.  In `promotionLeftOpen` the clicks a7, a8 open the panel; the
clicks b2, b2, g7 then play Qg7 mate, which sets `gameOver`, and the panel is
still on the page.  A press of a button now runs `makeMove` for a7-a8, finds
the side to move in check and puts back the board of the click that opened the
panel: the queen is on b2 again, with `gameOver` true and "Qg7" in
`moveNotation`.  The other parts hold: with `gameOver` set,
`handleSquareClick`, `makeAIMove` and `undoMove` return the state they were
given, and the restart handler returns the state of a new game of the same
mode. -/
theorem promotion_button_moves_after_gameOver :
    (∀ g : Game, g.gameOver = true →
      (∀ (row col : Int) (promotionChoice : PieceType),
        handleSquareClick g row col promotionChoice = some g) ∧
      (∀ (panel : Option Panel) (row col : Int),
        Page.handleSquareClick ⟨g, panel⟩ row col = some ⟨g, panel⟩) ∧
      makeAIMove g = some g ∧ undoMove g = g) ∧
    (∀ g : Game, restartHandler g = newChessGame g.isSinglePlayer ∧
      (restartHandler g).gameOver = false ∧ (restartHandler g).board = initializeBoard) ∧
    holdsOn (Page.clicks ⟨promotionLeftOpen, none⟩ promotionLeftOpenClicks) (fun p =>
      p.game.gameOver && p.promotionContainer.isSome &&
      p.game.board 1 6 == some ⟨.queen, .white⟩ && (p.game.board 6 1).isNone &&
      p.game.moveNotation == ["Qg7"] &&
      holdsOn (p.pressButton 0) (fun p1 =>
        p1.game.gameOver && (p1.game.board 1 6).isNone &&
        p1.game.board 6 1 == some ⟨.queen, .white⟩ &&
        p1.game.moveNotation == ["Qg7"])) = true := by
  refine ⟨?_, ?_, by decide!⟩
  · intro g h
    refine ⟨?_, ?_, ?_, ?_⟩
    · intro row col promotionChoice
      unfold handleSquareClick
      rw [if_pos h]
    · intro panel row col
      unfold Page.handleSquareClick
      dsimp only
      rw [if_pos h]
    · unfold makeAIMove
      simp [h]
    · unfold undoMove
      simp [h]
  · intro g
    have hr : restartHandler g = newChessGame g.isSinglePlayer := renderBoard_newChessGame _
    refine ⟨hr, ?_, ?_⟩
    · rw [hr]; rfl
    · rw [hr]; rfl

/-- C16: when no square of the board holds a king of the colour asked about,
`isInCheck` returns false and the only thing it writes is `gameOver`, which it
sets; it is a total function, so no error is raised. -/
theorem isInCheck_without_king (g : Game) (color : Color)
    (h : ∀ i ∈ range8, ∀ j ∈ range8, g.board i j ≠ some ⟨.king, color⟩) :
    isInCheck g color = (false, { g with gameOver := true }) := by
  unfold isInCheck
  rw [findKing_eq_none h]

theorem isInCheck_without_king_witness :
    (∀ i ∈ range8, ∀ j ∈ range8,
      (position true (initializeBoard.set 0 4 none) .white noneMoved).board i j ≠
        some ⟨.king, .black⟩) ∧
    isInCheck (position true (initializeBoard.set 0 4 none) .white noneMoved) .black =
      (false, { position true (initializeBoard.set 0 4 none) .white noneMoved with
        gameOver := true }) :=
  ⟨by decide!, isInCheck_without_king _ _ (by decide!)⟩

/-- C17: each of `isValidMove`, `makeMove`, `updateCastlingFlags`, `commitMove`,
`undoMove`, `makeAIMove` and `minimax` leaves every flag of `hasMoved` set that
was set before it ran. -/
theorem hasMoved_flags_monotonic (g : Game) :
    (∀ (a b c d : Int) (s : Bool),
      HasMoved.le g.hasMoved (isValidMove g a b c d s).2.hasMoved) ∧
    (∀ (a b c d : Int) (t : PieceType) (g1 : Game), makeMove g a b c d t = some g1 →
      HasMoved.le g.hasMoved g1.hasMoved) ∧
    (∀ a b c d : Int, HasMoved.le g.hasMoved (updateCastlingFlags g a b c d).hasMoved) ∧
    (∀ (a b c d : Int) (tempBoard : Board) (capturedPiece : Option Piece)
      (isCastling isEnPassant : Bool) (g1 : Game),
      commitMove g a b c d tempBoard capturedPiece isCastling isEnPassant = some g1 →
      HasMoved.le g.hasMoved g1.hasMoved) ∧
    HasMoved.le g.hasMoved (undoMove g).hasMoved ∧
    (∀ g1 : Game, makeAIMove g = some g1 → HasMoved.le g.hasMoved g1.hasMoved) ∧
    (∀ (depth : Nat) (alpha beta : Num) (maximizingPlayer : Bool) (r : Num) (g1 : Game),
      minimax depth alpha beta maximizingPlayer g = some (r, g1) →
      HasMoved.le g.hasMoved g1.hasMoved) := by
  have refl : ∀ x : HasMoved, HasMoved.le x x := fun x => ⟨id, id, id, id, id, id⟩
  refine ⟨?_, ?_, ?_, ?_, ?_, ?_, ?_⟩
  · intro a b c d s
    rw [core_hasMoved (isValidMove_core g a b c d s)]
    exact refl _
  · intro a b c d t g1 h
    rw [makeMove_hasMoved h]
    exact refl _
  · intro a b c d
    exact updateCastlingFlags_le g a b c d
  · intro a b c d tempBoard capturedPiece isCastling isEnPassant g1 h
    obtain ⟨_, _, _, _, h5, _⟩ := commitMove_fields h
    rw [h5]
    exact updateCastlingFlags_le g a b c d
  · rw [undoMove_hasMoved]
    exact refl _
  · intro g1 h
    exact makeAIMove_hasMoved h
  · intro depth alpha beta maximizingPlayer r g1 h
    rw [minimax_hasMoved depth alpha beta maximizingPlayer g r g1 h]
    exact refl _

theorem hasMoved_flags_monotonic_witness :
    ∃ gm gc ga gx : Game, ∃ r : Num,
      makeMove kingsOnly 0 0 1 1 .queen = some gm ∧
      HasMoved.le kingsOnly.hasMoved gm.hasMoved ∧
      commitMove gm 0 0 1 1 kingsOnly.board none false false = some gc ∧
      gc.hasMoved.blackKing = true ∧ HasMoved.le gm.hasMoved gc.hasMoved ∧
      makeAIMove kingsOnly = some ga ∧ HasMoved.le kingsOnly.hasMoved ga.hasMoved ∧
      minimax 2 .negInf .posInf true kingsOnly = some (r, gx) ∧
      HasMoved.le kingsOnly.hasMoved gx.hasMoved := by
  obtain ⟨gm, hgm, hp⟩ := exists_of_holdsOn (makeMove kingsOnly 0 0 1 1 .queen)
    (fun gm => holdsOn (commitMove gm 0 0 1 1 kingsOnly.board none false false)
      (fun gc => gc.hasMoved.blackKing)) (by decide!)
  obtain ⟨gc, hgc, hk⟩ := exists_of_holdsOn _ _ hp
  obtain ⟨ga, hga, _⟩ := exists_of_holdsOn (makeAIMove kingsOnly) (fun _ => true) (by decide!)
  obtain ⟨⟨r, gx⟩, hgx, _⟩ := exists_of_holdsOn (minimax 2 .negInf .posInf true kingsOnly)
    (fun _ => true) (by decide!)
  exact ⟨gm, gc, ga, gx, r, hgm,
    (hasMoved_flags_monotonic kingsOnly).2.1 0 0 1 1 .queen gm hgm, hgc, hk,
    (hasMoved_flags_monotonic gm).2.2.2.1 0 0 1 1 kingsOnly.board none false false gc hgc,
    hga, (hasMoved_flags_monotonic kingsOnly).2.2.2.2.2.1 ga hga, hgx,
    (hasMoved_flags_monotonic kingsOnly).2.2.2.2.2.2 2 .negInf .posInf true r gx hgx⟩

/-- C18 fails on the code: in the two-player game 1. h4 Nc6 2. Rh3 Nf6 3. Ra3 Ng8
the rook that came from h1 stands on a3 and the rook of a1 has not moved (no
move of the history starts on a1); the flag of the a1 rook is false.  The
move Ra3-a4 leaves column 0, and `updateCastlingFlags` sets the flag of the a1
rook, which is still on a1. -/
theorem updateCastlingFlags_sets_flag_of_unmoved_rook :
    ∃ g gm g1 : Game, Reachable g ∧ g.selectedPiece = some (5, 0) ∧
      g.board 5 0 = some ⟨.rook, .white⟩ ∧ g.board 7 0 = some ⟨.rook, .white⟩ ∧
      (g.moveHistory.all fun e => !(e.fromRow == 7 && e.fromCol == 0)) = true ∧
      g.hasMoved.whiteRooks = (false, true) ∧
      makeMove g 5 0 4 0 .queen = some gm ∧
      (updateCastlingFlags gm 5 0 4 0).hasMoved.whiteRooks = (true, true) ∧
      handleSquareClick g 4 0 .queen = some g1 ∧
      g1.board 7 0 = some ⟨.rook, .white⟩ ∧ g1.hasMoved.whiteRooks = (true, true) := by
  have h := exists_of_holdsOn (clicks (newChessGame false) rookTourClicks)
    (fun g => g.selectedPiece == some (5, 0) && g.board 5 0 == some ⟨.rook, .white⟩ &&
      g.board 7 0 == some ⟨.rook, .white⟩ &&
      (g.moveHistory.all fun e => !(e.fromRow == 7 && e.fromCol == 0)) &&
      g.hasMoved.whiteRooks == (false, true) &&
      holdsOn (makeMove g 5 0 4 0 .queen) (fun gm =>
        (updateCastlingFlags gm 5 0 4 0).hasMoved.whiteRooks == (true, true)) &&
      holdsOn (handleSquareClick g 4 0 .queen) (fun g1 =>
        g1.board 7 0 == some ⟨.rook, .white⟩ && g1.hasMoved.whiteRooks == (true, true)))
    (by decide!)
  obtain ⟨g, hg, hp⟩ := h
  simp only [Bool.and_eq_true, beq_iff_eq] at hp
  obtain ⟨⟨⟨⟨⟨⟨h1, h2⟩, h3⟩, h4⟩, h5⟩, h6⟩, h7⟩ := hp
  obtain ⟨gm, hgm, hm⟩ := exists_of_holdsOn _ _ h6
  obtain ⟨g1, hg1, hc⟩ := exists_of_holdsOn _ _ h7
  simp only [Bool.and_eq_true, beq_iff_eq] at hm hc
  refine ⟨g, gm, g1, reachable_clicks _ _ _ (Reachable.start false) ?_ hg, h1, h2, h3, h4, h5,
    hgm, hm, hg1, hc.1, hc.2⟩
  decide

/-- C19 fails on the code for a pawn that the call promotes: in `pawnOnSixth` the
white pawn on a6 has a7 and a8 empty before it; `makeMove(2, 0, 0, 0)` moves it
two rows, to a8, where it becomes a queen, and `enPassantTarget` is `null`, not
a7.  The test on `piece.type` that sets the target comes after the promotion
has changed the kind of that same piece.  `isValidMove` does not accept the
move. -/
theorem makeMove_no_target_for_promoted_pawn :
    pawnOnSixth.board 2 0 = some ⟨.pawn, .white⟩ ∧ pawnOnSixth.board 1 0 = none ∧
    pawnOnSixth.board 0 0 = none ∧ (isValidMove pawnOnSixth 2 0 0 0).1 = false ∧
    ∃ g1, makeMove pawnOnSixth 2 0 0 0 .queen = some g1 ∧
      g1.board 0 0 = some ⟨.queen, .white⟩ ∧ g1.board 2 0 = none ∧
      g1.enPassantTarget = none := by
  refine ⟨by decide!, by decide!, by decide!, by decide!, ?_⟩
  obtain ⟨g1, h1, hp⟩ := exists_of_holdsOn (makeMove pawnOnSixth 2 0 0 0 .queen)
    (fun g1 => g1.board 0 0 == some ⟨.queen, .white⟩ && g1.board 2 0 == none &&
      g1.enPassantTarget == none) (by decide!)
  simp only [Bool.and_eq_true, beq_iff_eq] at hp
  exact ⟨g1, h1, hp.1.1, hp.1.2, hp.2⟩

/-- C19 as amended: after `makeMove`, `enPassantTarget` is the square of the
origin column on the row between the two rows when the piece moved was a pawn,
the rows are two apart and the call did not promote the pawn to another kind
(it did not arrive on row 0 or 7, or `promotionType` was `pawn`); it is `null`
when the call promoted the pawn to another kind, and `null` after every other
move.  For a move that `isValidMove` accepts the exception does not arise: a
pawn that moved two rows stayed in its column and the target is the square
midway.  When the move was accepted by `isValidMove` and left a target, no
move that `isValidMove` accepts on the board it left ends with that same
target. -/
theorem makeMove_enPassantTarget (g g1 : Game) (fromRow fromCol toRow toCol : Int)
    (promotionType : PieceType)
    (h : makeMove g fromRow fromCol toRow toCol promotionType = some g1) :
    (∀ p, g.board fromRow fromCol = some p → p.type = .pawn → (fromRow - toRow).natAbs = 2 →
      ((toRow = 0 ∨ toRow = 7) → promotionType = .pawn) →
      g1.enPassantTarget = some ((fromRow + toRow) / 2, fromCol)) ∧
    (∀ p, g.board fromRow fromCol = some p → p.type = .pawn → (toRow = 0 ∨ toRow = 7) →
      promotionType ≠ .pawn → g1.enPassantTarget = none) ∧
    ((∀ p, g.board fromRow fromCol = some p → p.type = .pawn →
      (fromRow - toRow).natAbs ≠ 2) → g1.enPassantTarget = none) ∧
    (∀ (s : Bool) p, (isValidMove g fromRow fromCol toRow toCol s).1 = true →
      g.board fromRow fromCol = some p → p.type = .pawn → (fromRow - toRow).natAbs = 2 →
      toCol = fromCol ∧ g1.enPassantTarget = some ((fromRow + toRow) / 2, fromCol)) ∧
    ∀ (s s2 : Bool) (h1 g2 : Game) (a b c d : Int) (t : PieceType),
      (isValidMove g fromRow fromCol toRow toCol s).1 = true → g1.enPassantTarget.isSome = true →
      h1.board = g1.board → (isValidMove h1 a b c d s2).1 = true →
      makeMove h1 a b c d t = some g2 → g2.enPassantTarget ≠ g1.enPassantTarget := by
  have key : ∀ (g g1 : Game) (a b c d : Int) (t : PieceType),
      makeMove g a b c d t = some g1 →
      ∃ p, g.board a b = some p ∧ g1.enPassantTarget =
        if p.type = .pawn ∧ ((c = 0 ∨ c = 7) → t = .pawn) ∧ (a - c).natAbs = 2 then
          some ((a + c) / 2, b) else none := by
    intro g g1 a b c d t h
    unfold makeMove at h
    split at h
    · simp at h
    · next piece hpiece =>
      dsimp only at h
      split at h
      · simp at h
      · simp only [Option.some.injEq] at h
        refine ⟨piece, hpiece, ?_⟩
        rw [← h]
        dsimp only
        by_cases hrow : c = 0 ∨ c = 7
        · have hrow2 : (c == 0 || c == 7) = true := by
            simp only [Bool.or_eq_true, beq_iff_eq]
            exact hrow
          rw [hrow2]
          cases hty : piece.type <;> cases t <;> simp [hrow]
        · have hrow2 : (c == 0 || c == 7) = false := by
            simp only [Bool.or_eq_false_iff, beq_eq_false_iff_ne, ne_eq]
            exact ⟨fun x => hrow (Or.inl x), fun x => hrow (Or.inr x)⟩
          rw [hrow2]
          cases hty : piece.type <;> simp [hrow]
  have two : ∀ (g g1 : Game) (a b c d : Int) (t : PieceType) (s : Bool),
      makeMove g a b c d t = some g1 → (isValidMove g a b c d s).1 = true →
      ∀ r k, g1.enPassantTarget = some (r, k) →
        ∃ p, g.board a b = some p ∧ p.type = .pawn ∧ d = b ∧ k = b ∧
          ((a = 6 ∧ c = 4 ∧ r = 5) ∨ (a = 1 ∧ c = 3 ∧ r = 2)) := by
    intro g g1 a b c d t s h hv r k hr
    obtain ⟨p, hp, he⟩ := key g g1 a b c d t h
    rw [hr] at he
    by_cases hc : p.type = .pawn ∧ ((c = 0 ∨ c = 7) → t = .pawn) ∧ (a - c).natAbs = 2
    · rw [if_pos hc] at he
      obtain ⟨hd, hrows⟩ := isValidMove_pawn_two_rows hp hc.1 hc.2.2 hv
      simp only [Option.some.injEq, Prod.mk.injEq] at he
      refine ⟨p, hp, hc.1, hd, he.2, ?_⟩
      rcases hrows with ⟨x, y⟩ | ⟨x, y⟩
      · left; subst x; subst y; exact ⟨rfl, rfl, by rw [he.1]; decide⟩
      · right; subst x; subst y; exact ⟨rfl, rfl, by rw [he.1]; decide⟩
    · rw [if_neg hc] at he
      simp at he
  obtain ⟨p, hp, he⟩ := key g g1 fromRow fromCol toRow toCol promotionType h
  have first : ∀ q, g.board fromRow fromCol = some q → q.type = .pawn →
      (fromRow - toRow).natAbs = 2 → ((toRow = 0 ∨ toRow = 7) → promotionType = .pawn) →
      g1.enPassantTarget = some ((fromRow + toRow) / 2, fromCol) := by
    intro q hq ht h2 h3
    rw [hp] at hq
    simp only [Option.some.injEq] at hq
    subst hq
    rw [he, if_pos ⟨ht, h3, h2⟩]
  refine ⟨first, ?_, ?_, ?_, ?_⟩
  · intro q hq ht hrow hne
    rw [hp] at hq
    simp only [Option.some.injEq] at hq
    subst hq
    rw [he, if_neg]
    intro hc
    exact hne (hc.2.1 hrow)
  · intro hn
    rw [he, if_neg]
    intro hc
    exact hn p hp hc.1 hc.2.2
  · intro s q hv hq ht h2
    obtain ⟨hd, hrows⟩ := isValidMove_pawn_two_rows hq ht h2 hv
    refine ⟨hd, first q hq ht h2 ?_⟩
    intro hrow
    rcases hrows with ⟨_, y⟩ | ⟨_, y⟩ <;> rcases hrow with x | x <;> omega
  · intro s s2 h1 g2 a b c d t hv1 hsome hb hv2 hm2 heq
    obtain ⟨⟨r, k⟩, hT⟩ := Option.isSome_iff_exists.mp hsome
    obtain ⟨p1, hp1, ht1, hd1, hk1, hrows1⟩ :=
      two g g1 fromRow fromCol toRow toCol promotionType s h hv1 r k hT
    obtain ⟨p2, hp2, ht2, hd2, hk2, hrows2⟩ := two h1 g2 a b c d t s2 hm2 hv2 r k (heq.trans hT)
    rw [hd1] at h
    have hc1 : toRow = 4 ∨ toRow = 3 := by
      rcases hrows1 with ⟨_, y, _⟩ | ⟨_, y, _⟩ <;> omega
    have hempty : g1.board fromRow fromCol = none := makeMove_pawn_two_rows hp1 ht1 hc1 h
    have hab : a = fromRow := by
      rcases hrows1 with ⟨x, _, z⟩ | ⟨x, _, z⟩ <;> rcases hrows2 with ⟨x2, _, z2⟩ | ⟨x2, _, z2⟩ <;>
        omega
    rw [hb, hab, ← hk2, hk1, hempty] at hp2
    simp at hp2

theorem makeMove_enPassantTarget_witness :
    ∃ g1 g2 : Game, makeMove (newChessGame true) 6 4 4 4 .queen = some g1 ∧
      makeMove g1 1 4 3 4 .queen = some g2 ∧
      g1.enPassantTarget = some (5, 4) ∧ g2.enPassantTarget = some (2, 4) ∧
      g2.enPassantTarget ≠ g1.enPassantTarget := by
  obtain ⟨g1, h1, hp⟩ := exists_of_holdsOn (makeMove (newChessGame true) 6 4 4 4 .queen)
    (fun g1 => g1.enPassantTarget.isSome && (isValidMove g1 1 4 3 4 false).1 &&
      holdsOn (makeMove g1 1 4 3 4 .queen) (fun g2 => g2.enPassantTarget == some (2, 4)))
    (by decide!)
  simp only [Bool.and_eq_true] at hp
  obtain ⟨⟨hs, hv⟩, hq⟩ := hp
  obtain ⟨g2, h2, he⟩ := exists_of_holdsOn _ _ hq
  simp only [beq_iff_eq] at he
  have h := makeMove_enPassantTarget (newChessGame true) g1 6 4 4 4 .queen h1
  exact ⟨g1, g2, h1, h2,
    h.1 ⟨.pawn, .white⟩ (by decide!) rfl (by decide) (by decide), he,
    h.2.2.2.2 false false g1 g2 1 4 3 4 .queen (by decide!) hs rfl hv h2⟩

/-- C20 fails on the code.  In a new single-player game the click that selects
the pawn on e2 leaves `enPassantTarget` at e3, though no move has been made and
the pawn is still on e2.  In a two-player game, after 1. e4 e5 is committed the
target is a3, a square behind no pawn: the last move was e7-e5 and the white
pawn of that column is still on a2. -/
theorem enPassantTarget_written_by_queries :
    (∃ g : Game, Reachable g ∧ handleSquareClick (newChessGame true) 6 4 .queen = some g ∧
      g.moveHistory.length = 0 ∧ g.lastMove = none ∧ g.board 6 4 = some ⟨.pawn, .white⟩ ∧
      g.board 4 4 = none ∧ g.enPassantTarget = some (5, 4)) ∧
    ∃ g : Game, Reachable g ∧
      clicks (newChessGame false) [(6, 4), (4, 4), (1, 4), (3, 4)] = some g ∧
      g.lastMove = some ⟨1, 4, 3, 4⟩ ∧ g.board 3 4 = some ⟨.pawn, .black⟩ ∧
      g.board 4 0 = none ∧ g.board 6 0 = some ⟨.pawn, .white⟩ ∧
      g.enPassantTarget = some (5, 0) := by
  constructor
  · obtain ⟨g, hg, hp⟩ := exists_of_holdsOn (handleSquareClick (newChessGame true) 6 4 .queen)
      (fun g => g.moveHistory.length == 0 && g.lastMove == none &&
        g.board 6 4 == some ⟨.pawn, .white⟩ && g.board 4 4 == none &&
        g.enPassantTarget == some (5, 4)) (by decide!)
    simp only [Bool.and_eq_true, beq_iff_eq] at hp
    obtain ⟨⟨⟨⟨h1, h2⟩, h3⟩, h4⟩, h5⟩ := hp
    exact ⟨g, Reachable.click 6 4 .queen (Reachable.start true) (by decide) (by decide) hg,
      hg, h1, h2, h3, h4, h5⟩
  · obtain ⟨g, hg, hp⟩ := exists_of_holdsOn
      (clicks (newChessGame false) [(6, 4), (4, 4), (1, 4), (3, 4)])
      (fun g => g.lastMove == some ⟨1, 4, 3, 4⟩ && g.board 3 4 == some ⟨.pawn, .black⟩ &&
        g.board 4 0 == none && g.board 6 0 == some ⟨.pawn, .white⟩ &&
        g.enPassantTarget == some (5, 0)) (by decide!)
    simp only [Bool.and_eq_true, beq_iff_eq] at hp
    obtain ⟨⟨⟨⟨h1, h2⟩, h3⟩, h4⟩, h5⟩ := hp
    exact ⟨g, reachable_clicks _ _ _ (Reachable.start false) (by decide) hg, hg, h1, h2, h3,
      h4, h5⟩

/-- C21: on a board with exactly one king of the colour, standing on an in-bounds
square, `isInCheck` answers true exactly when a square of the board holds an
enemy piece that attacks the king's square under the standard patterns
(`standardAttack`: pawn one row ahead and one column aside, knight at an
L-shaped offset, bishop, rook and queen along an unobstructed line of their
kind, king next to the square); and it writes nothing. -/
theorem isInCheck_iff_attacked (g : Game) (color : Color) (i j : Int) (hi : i ∈ range8)
    (hj : j ∈ range8) (hk : g.board i j = some ⟨.king, color⟩)
    (hu : ∀ sq ∈ allSquares, isKingOf g.board color sq.1 sq.2 = true → sq = (i, j)) :
    ((isInCheck g color).1 = true ↔
      ∃ sq ∈ allSquares, hasColor g.board (opponent color) sq.1 sq.2 = true ∧
        standardAttack g.board sq.1 sq.2 i j = true) ∧
    (isInCheck g color).2 = g := by
  have hkk : isKingOf g.board color i j = true := by
    unfold isKingOf
    rw [hk]
    simp
  have ho : (g.board i j).isSome = true := by rw [hk]; rfl
  have hf : isInCheck g color = attackLoop g.board (opponent color) i j allSquares g := by
    unfold isInCheck
    rw [findKing_eq hi hj hkk hu]
  rw [hf]
  refine ⟨?_, (attackLoop_occupied _ _ _ ho).1⟩
  rw [attackLoop_eq_true_iff _ _ _ ho]
  have key : ∀ sq : Int × Int, hasColor g.board (opponent color) sq.1 sq.2 = true →
      (isValidMoveSkip g sq.1 sq.2 i j).1 = standardAttack g.board sq.1 sq.2 i j := by
    intro sq hc
    obtain ⟨p, hp, hpc⟩ := hasColor_iff.mp hc
    apply isValidMoveSkip_eq_standardAttack hp ho
    unfold hasColor
    rw [hk, hpc]
    cases color <;> rfl
  constructor
  · rintro ⟨sq, hsq, h2, h3⟩
    exact ⟨sq, hsq, h2, (key sq h2) ▸ h3⟩
  · rintro ⟨sq, hsq, h2, h3⟩
    exact ⟨sq, hsq, h2, (key sq h2).symm ▸ h3⟩

theorem isInCheck_iff_attacked_witness :
    (blockedCheckExample.board 4 7 = some ⟨.king, .white⟩ ∧
      hasColor blockedCheckExample.board .black 1 4 = true ∧
      standardAttack blockedCheckExample.board 1 4 4 7 = true) ∧
    (isInCheck blockedCheckExample .white).1 = true ∧
    (isInCheck blockedCheckExample .white).2 = blockedCheckExample := by
  have h := isInCheck_iff_attacked blockedCheckExample .white 4 7 (by decide) (by decide)
    (by decide!) (by decide!)
  exact ⟨⟨by decide!, by decide!, by decide!⟩,
    h.1.mpr ⟨(1, 4), by decide, by decide!, by decide!⟩, h.2⟩

/-- C22 fails on the code: in `ownPieceOnTarget` the white pawn on e5 has f6 one
row forward and one column aside, and f6 is the current en passant target, so
the rule of the claim makes e5-f6 a destination; but f6 holds a white knight
and `isValidMove` answers false. -/
theorem isValidMove_pawn_own_piece_on_target :
    ownPieceOnTarget.board 3 4 = some ⟨.pawn, .white⟩ ∧
    ownPieceOnTarget.enPassantTarget = some (2, 5) ∧
    pawnDestination ownPieceOnTarget .white 3 4 2 5 = true ∧
    (isValidMove ownPieceOnTarget 3 4 2 5).1 = false := by
  decide!

/-- C22 as amended: for a pawn on an in-bounds square and an in-bounds
destination, `isValidMove` is true exactly when the destination is one of the
three kinds of the claim and does not hold a piece of the pawn's own colour.
Hence a valid pawn move goes one or two rows forward, stays in its column or
changes it by one, and in its own column only enters an empty square. -/
theorem isValidMove_pawn_rule (g : Game) (i j r c : Int) (s : Bool) (p : Piece)
    (hp : g.board i j = some p) (ht : p.type = .pawn)
    (_hfrom : isInBounds i j = true) (_hto : isInBounds r c = true) :
    (isValidMove g i j r c s).1 =
      (pawnDestination g p.color i j r c && !hasColor g.board p.color r c) ∧
    ((isValidMove g i j r c s).1 = true →
      (r = i + direction p.color ∨ r = i + 2 * direction p.color) ∧
      (c = j ∨ (c - j).natAbs = 1) ∧ (c = j → g.board r c = none)) := by
  have h := isValidMove_pawn_eq (r := r) (c := c) (s := s) hp ht
  refine ⟨h, ?_⟩
  intro hv
  rw [h] at hv
  unfold pawnDestination at hv
  simp only [Bool.and_eq_true, Bool.or_eq_true, beq_iff_eq, Option.isNone_iff_eq_none] at hv
  obtain ⟨hd, _⟩ := hv
  rcases hd with (⟨⟨h1, h2⟩, h3⟩ | ⟨⟨⟨⟨h1, h2⟩, h3⟩, _⟩, _⟩) | ⟨⟨h1, h2⟩, _⟩
  · exact ⟨Or.inl h2, Or.inl h1, fun _ => h3⟩
  · exact ⟨Or.inr h2, Or.inl h1, fun _ => h3⟩
  · refine ⟨Or.inl h2, Or.inr h1, ?_⟩
    intro hcj
    rw [hcj] at h1
    simp at h1

theorem isValidMove_pawn_rule_witness :
    (newChessGame true).board 6 4 = some ⟨.pawn, .white⟩ ∧
    (isValidMove (newChessGame true) 6 4 4 4 false).1 = true ∧
    (isValidMove (newChessGame true) 6 4 3 4 false).1 = false := by
  have h1 := isValidMove_pawn_rule (newChessGame true) 6 4 4 4 false ⟨.pawn, .white⟩ (by decide!) rfl
    (by decide) (by decide)
  have h2 := isValidMove_pawn_rule (newChessGame true) 6 4 3 4 false ⟨.pawn, .white⟩ (by decide!) rfl
    (by decide) (by decide)
  refine ⟨by decide!, ?_, ?_⟩
  · rw [h1.1]; decide!
  · rw [h2.1]; decide!

/-- C23: for a rook, bishop or queen on an in-bounds square and an in-bounds
destination, `isValidMove` is true exactly when the destination is not the
origin, lies on a line of the piece, every square strictly between is empty
and the destination holds no piece of the mover's colour; and it writes
nothing.  The squares `addSlidingMoves` pushes for a list of unit directions
are, for each direction, the squares of the walk that are on the board and
have only empty squares before them: the walk stops at the first occupied
square or at the edge. -/
theorem isValidMove_slider_rule (g : Game) (i j : Int) (p : Piece) (hp : g.board i j = some p)
    (ht : p.type = .rook ∨ p.type = .bishop ∨ p.type = .queen)
    (hfrom : isInBounds i j = true) :
    (∀ (r c : Int) (s : Bool), isInBounds r c = true →
      isValidMove g i j r c s =
        (decide (r ≠ i ∨ c ≠ j) && onLine p.type i j r c && unobstructed g.board i j r c &&
          !hasColor g.board p.color r c, g)) ∧
    ∀ (directions : List (Int × Int)), (∀ d ∈ directions, d ∈ kingMoves) →
      ∀ x y : Int, (x, y) ∈ addSlidingMoves g i j directions [] ↔
        ∃ d ∈ directions, ∃ k : Nat, 1 ≤ k ∧ x = i + k * d.1 ∧ y = j + k * d.2 ∧
          (∀ m : Nat, 1 ≤ m → m ≤ k → isInBounds (i + m * d.1) (j + m * d.2) = true) ∧
          (∀ m : Nat, 1 ≤ m → m < k → g.board (i + m * d.1) (j + m * d.2) = none) := by
  refine ⟨fun r c s _ => isValidMove_slider_eq hp ht, ?_⟩
  intro directions hdirs x y
  rw [addSlidingMoves_eq, List.nil_append, List.mem_flatMap]
  have shift : ∀ (d : Int) (a : Int) (m : Nat),
      (a + d) + (m : Int) * d = a + ((m + 1 : Nat) : Int) * d := by
    intro d a m; push_cast; ring
  constructor
  · rintro ⟨d, hd, hmem⟩
    obtain ⟨k, _, hx, hy, hin, hem⟩ := (mem_slide _ _ _ _ _ _ _ _).mp hmem
    refine ⟨d, hd, k + 1, by omega, by rw [hx, shift], by rw [hy, shift], ?_, ?_⟩
    · intro m h1 hm
      obtain ⟨n, rfl⟩ : ∃ n, m = n + 1 := ⟨m - 1, by omega⟩
      rw [← shift, ← shift]
      exact hin n (by omega)
    · intro m h1 hm
      obtain ⟨n, rfl⟩ : ∃ n, m = n + 1 := ⟨m - 1, by omega⟩
      rw [← shift, ← shift]
      exact hem n (by omega)
  · rintro ⟨d, hd, k, hk, hx, hy, hin, hem⟩
    refine ⟨d, hd, (mem_slide _ _ _ _ _ _ _ _).mpr ?_⟩
    obtain ⟨n, rfl⟩ : ∃ n, k = n + 1 := ⟨k - 1, by omega⟩
    have hlast := hin (n + 1) (by omega) (le_refl _)
    have hunit := hdirs d hd
    have hn : n < 8 := by
      obtain ⟨d1, d2⟩ := d
      simp only [isInBounds, Bool.and_eq_true, decide_eq_true_eq] at hlast hfrom
      simp only [kingMoves, List.mem_cons, Prod.mk.injEq, List.mem_singleton,
        List.not_mem_nil, or_false] at hunit
      push_cast at hlast
      rcases hunit with ⟨h1, h2⟩ | ⟨h1, h2⟩ | ⟨h1, h2⟩ | ⟨h1, h2⟩ | ⟨h1, h2⟩ | ⟨h1, h2⟩ |
        ⟨h1, h2⟩ | ⟨h1, h2⟩ <;> subst h1 <;> subst h2 <;> omega
    refine ⟨n, hn, by rw [hx, shift], by rw [hy, shift], ?_, ?_⟩
    · intro m hm
      rw [shift, shift]
      exact hin (m + 1) (by omega) (by omega)
    · intro m hm
      rw [shift, shift]
      exact hem (m + 1) (by omega) (by omega)

theorem isValidMove_slider_rule_witness :
    blockedCheckExample.board 1 4 = some ⟨.bishop, .black⟩ ∧
    isValidMove blockedCheckExample 1 4 4 7 false = (true, blockedCheckExample) ∧
    isValidMove blockedCheckExample 1 4 1 6 false = (false, blockedCheckExample) ∧
    (2, 5) ∈ addSlidingMoves blockedCheckExample 1 4 [(1, 1)] [] := by
  have h := isValidMove_slider_rule blockedCheckExample 1 4 ⟨.bishop, .black⟩ (by decide!)
    (Or.inr (Or.inl rfl)) (by decide)
  have e1 : (decide ((4 : Int) ≠ 1 ∨ (7 : Int) ≠ 4) && onLine .bishop 1 4 4 7 &&
      unobstructed blockedCheckExample.board 1 4 4 7 &&
      !hasColor blockedCheckExample.board .black 4 7) = true := by decide!
  have e2 : (decide ((1 : Int) ≠ 1 ∨ (6 : Int) ≠ 4) && onLine .bishop 1 4 1 6 &&
      unobstructed blockedCheckExample.board 1 4 1 6 &&
      !hasColor blockedCheckExample.board .black 1 6) = false := by decide!
  refine ⟨by decide!, ?_, ?_, ?_⟩
  · rw [h.1 4 7 false (by decide), e1]
  · rw [h.1 1 6 false (by decide), e2]
  · refine (h.2 [(1, 1)] (by decide) 2 5).mpr ⟨(1, 1), List.mem_singleton_self _, 1,
      le_refl _, by decide, by decide, ?_, ?_⟩
    · intro m h1 h2
      have hm : m = 1 := by omega
      subst hm
      decide
    · intro m h1 h2
      omega

/-- C24: when `makeMove` moves a pawn to row 0 or row 7 and returns, the
destination holds a piece of the pawn's colour whose kind is `promotionType`;
without a `promotionType` the call is the call with `queen`; and the call
returns unless the destination is the origin or the move counts as en passant
(a column change onto the empty en passant target).  When `makeAIMove`
applies a move of a pawn to row 0 or row 7, the destination holds a queen of
the pawn's colour; and in the root loop and in the two loops of `minimax` each
move is tried by `makeMove` with `queen`, the search going on from the state it
leaves. -/
theorem promotion_replaces_kind :
    (∀ (g g1 : Game) (a b c d : Int) (t : PieceType) (p : Piece),
      g.board a b = some p → p.type = .pawn → (c = 0 ∨ c = 7) →
      makeMove g a b c d t = some g1 → g1.board c d = some ⟨t, p.color⟩) ∧
    (∀ (g : Game) (a b c d : Int), makeMove g a b c d = makeMove g a b c d .queen) ∧
    (∀ (g : Game) (a b c d : Int) (t : PieceType) (p : Piece),
      g.board a b = some p → p.type = .pawn → ¬ (c = a ∧ d = b) →
      ¬ (d ≠ b ∧ g.board c d = none ∧ g.enPassantTarget = some (c, d)) →
      ∃ g1, makeMove g a b c d t = some g1) ∧
    (∀ (g g1 : Game) (e : HistoryEntry) (p : Piece), makeAIMove g = some g1 →
      g1.moveHistory = g.moveHistory ++ [e] → e.board e.fromRow e.fromCol = some p →
      p.type = .pawn → (e.toRow = 0 ∨ e.toRow = 7) →
      g1.board e.toRow e.toCol = some ⟨.queen, p.color⟩) ∧
    (∀ (depth : Nat) (m : Move) (rest : List Move) (bm : Option Move) (bv : Num) (g : Game)
      (r : Option Move × Game), rootLoop depth (m :: rest) bm bv g = some r →
      ∃ g1, makeMove g m.fromRow m.fromCol m.toRow m.toCol .queen = some g1 ∧
        (minimax (depth - 1) .negInf .posInf false g1).isSome = true) ∧
    (∀ (recurse : Num → Num → Game → Option (Num × Game)) (m : Move) (rest : List Move)
      (alpha beta e : Num) (g : Game) (r : Num × Game),
      (maxLoop recurse (m :: rest) alpha beta e g = some r ∨
        minLoop recurse (m :: rest) alpha beta e g = some r) →
      ∃ g1, makeMove g m.fromRow m.fromCol m.toRow m.toCol .queen = some g1 ∧
        (recurse alpha beta g1).isSome = true) := by
  refine ⟨?_, fun _ _ _ _ _ => rfl, ?_, ?_, ?_, ?_⟩
  · intro g g1 a b c d t p hp ht hrow h
    exact makeMove_promotion hp ht hrow h
  · intro g a b c d t p hp ht hne hep
    obtain ⟨g1, h1, _⟩ := makeMove_promotion_returns t hp ht hne hep
    exact ⟨g1, h1⟩
  · intro g g1 e p h hhist hp ht hrow
    rcases makeAIMove_cases h with hc | ⟨m, ms, ga, g2, g3, best, x, y, _, _, c2, h3, h4⟩
    · have := core_moveHistory hc
      rw [this] at hhist
      have hl := congrArg List.length hhist
      simp at hl
    · obtain ⟨k1, _, k3, _⟩ := commitMove_fields h4
      rw [k3, makeMove_moveHistory h3, core_moveHistory c2] at hhist
      have he := List.append_cancel_left hhist
      simp only [List.cons.injEq, and_true] at he
      rw [← he] at hp hrow ⊢
      dsimp only at hp hrow ⊢
      rw [k1]
      exact makeMove_promotion hp ht hrow h3
  · intro depth m rest bm bv g r h
    unfold rootLoop at h
    dsimp only at h
    cases hm : makeMove g m.fromRow m.fromCol m.toRow m.toCol .queen with
    | none => rw [hm] at h; simp at h
    | some gm =>
      rw [hm] at h
      dsimp only at h
      cases hq : minimax (depth - 1) .negInf .posInf false gm with
      | none => rw [hq] at h; simp at h
      | some res => exact ⟨gm, rfl, by rw [hq]; rfl⟩
  · intro recurse m rest alpha beta e g r h
    rcases h with h | h
    · unfold maxLoop at h
      dsimp only at h
      cases hm : makeMove g m.fromRow m.fromCol m.toRow m.toCol .queen with
      | none => rw [hm] at h; simp at h
      | some gm =>
        rw [hm] at h
        dsimp only at h
        cases hq : recurse alpha beta gm with
        | none => rw [hq] at h; simp at h
        | some res => exact ⟨gm, rfl, by rw [hq]; rfl⟩
    · unfold minLoop at h
      dsimp only at h
      cases hm : makeMove g m.fromRow m.fromCol m.toRow m.toCol .queen with
      | none => rw [hm] at h; simp at h
      | some gm =>
        rw [hm] at h
        dsimp only at h
        cases hq : recurse alpha beta gm with
        | none => rw [hq] at h; simp at h
        | some res => exact ⟨gm, rfl, by rw [hq]; rfl⟩

set_option maxRecDepth 100000 in
theorem promotion_replaces_kind_witness :
    (∃ g1, makeMove pawnOnSeventh 1 0 0 0 .rook = some g1 ∧
      g1.board 0 0 = some ⟨.rook, .white⟩) ∧
    ∃ g1 e, makeAIMove promotionByAI = some g1 ∧ g1.moveHistory = [e] ∧
      e.fromRow = 6 ∧ e.fromCol = 6 ∧ e.toRow = 7 ∧ e.toCol = 6 ∧
      g1.board 7 6 = some ⟨.queen, .black⟩ := by
  constructor
  · obtain ⟨g1, h1, _⟩ := exists_of_holdsOn (makeMove pawnOnSeventh 1 0 0 0 .rook)
      (fun _ => true) (by decide!)
    exact ⟨g1, h1, promotion_replaces_kind.1 pawnOnSeventh g1 1 0 0 0 .rook ⟨.pawn, .white⟩
      (by decide!) rfl (Or.inl rfl) h1⟩
  · obtain ⟨g1, h1, hp⟩ := exists_of_holdsOn (makeAIMove promotionByAI)
      (fun g1 => holdsOn g1.moveHistory.head? (fun e =>
        g1.moveHistory.length == 1 && e.fromRow == 6 && e.fromCol == 6 && e.toRow == 7 &&
          e.toCol == 6 && e.board 6 6 == some ⟨.pawn, .black⟩)) (by decide!)
    obtain ⟨e, he, hq⟩ := exists_of_holdsOn _ _ hp
    simp only [Bool.and_eq_true, beq_iff_eq] at hq
    obtain ⟨⟨⟨⟨⟨q1, q2⟩, q3⟩, q4⟩, q5⟩, q6⟩ := hq
    have hl : g1.moveHistory = [e] := by
      cases hh : g1.moveHistory with
      | nil => rw [hh] at q1; simp at q1
      | cons x rest =>
        rw [hh] at he q1
        simp only [List.head?_cons, Option.some.injEq] at he
        simp only [List.length_cons, add_left_eq_self, List.length_eq_zero] at q1
        rw [he, q1]
    have hb : e.board e.fromRow e.fromCol = some ⟨.pawn, .black⟩ := by rw [q2, q3]; exact q6
    have h := promotion_replaces_kind.2.2.2.1 promotionByAI g1 e ⟨.pawn, .black⟩ h1
      (by rw [hl]; rfl) hb rfl (Or.inr q4)
    rw [q4, q5] at h
    exact ⟨g1, e, h1, hl, q2, q3, q4, q5, h⟩

/-- C25 fails on the code: in `pawnOnSeventh` the move a7-a8 with the promotion
type `king` is made: `makeMove` returns, a8 holds a white king and a7 is empty. -/
theorem makeMove_places_king :
    pawnOnSeventh.board 1 0 = some ⟨.pawn, .white⟩ ∧
    ∃ g1, makeMove pawnOnSeventh 1 0 0 0 .king = some g1 ∧
      g1.board 0 0 = some ⟨.king, .white⟩ ∧ g1.board 1 0 = none := by
  refine ⟨by decide!, ?_⟩
  obtain ⟨g1, h1, hp⟩ := exists_of_holdsOn (makeMove pawnOnSeventh 1 0 0 0 .king)
    (fun g1 => g1.board 0 0 == some ⟨.king, .white⟩ && g1.board 1 0 == none) (by decide!)
  simp only [Bool.and_eq_true, beq_iff_eq] at hp
  exact ⟨g1, h1, hp.1, hp.2⟩

/-- C25 as amended: `makeMove` does not test `promotionType`.  For a pawn move
to row 0 or row 7 (destination other than the origin, not counted as en
passant) it returns, the destination holds a piece of the pawn's colour of
the kind it was given, whatever that kind is, and the origin is empty.  The
choice is limited where it is offered: the panel has a button for each of
queen, rook, bishop and knight and no other, so when the press of a button
commits the move of a pawn to row 0 or row 7, the destination holds a piece of
the pawn's colour of one of these four kinds. -/
theorem makeMove_places_any_promotionType (g : Game) (a b c d : Int) (t : PieceType) (p : Piece)
    (hp : g.board a b = some p) (ht : p.type = .pawn) (hrow : c = 0 ∨ c = 7)
    (hne : ¬ (c = a ∧ d = b))
    (hep : ¬ (d ≠ b ∧ g.board c d = none ∧ g.enPassantTarget = some (c, d))) :
    (∃ g1, makeMove g a b c d t = some g1 ∧ g1.board c d = some ⟨t, p.color⟩ ∧
      g1.board a b = none) ∧
    ∀ (page1 : Page) (tempBoard : Board) (capturedPiece : Option Piece) (k : Nat),
      Page.pressButton ⟨g, some ⟨c, d, a, b, tempBoard, capturedPiece⟩⟩ k = some page1 →
      page1.game.moveHistory.length = g.moveHistory.length + 1 →
      ∃ t2, t2 ∈ promotionOptions ∧ page1.game.board c d = some ⟨t2, p.color⟩ ∧
        t2 ≠ .king ∧ t2 ≠ .pawn := by
  obtain ⟨g1, h1, h2⟩ := makeMove_promotion_returns t hp ht hne hep
  refine ⟨⟨g1, h1, makeMove_promotion hp ht hrow h1, h2⟩, ?_⟩
  intro page1 tempBoard capturedPiece k hpress hlen
  obtain ⟨t2, hmem, gm, hgm, hb⟩ :=
    @pressButton_commits ⟨g, some ⟨c, d, a, b, tempBoard, capturedPiece⟩⟩ page1
      ⟨c, d, a, b, tempBoard, capturedPiece⟩ k rfl hpress hlen
  refine ⟨t2, hmem, ?_, ?_, ?_⟩
  · rw [hb]
    exact makeMove_promotion hp ht hrow hgm
  · intro hk; rw [hk] at hmem; revert hmem; decide
  · intro hk; rw [hk] at hmem; revert hmem; decide

theorem makeMove_places_any_promotionType_witness :
    pawnOnSeventh.board 1 0 = some ⟨.pawn, .white⟩ ∧
    (∃ g1, makeMove pawnOnSeventh 1 0 0 0 .pawn = some g1 ∧
      g1.board 0 0 = some ⟨.pawn, .white⟩ ∧ g1.board 1 0 = none) ∧
    ∃ page1 : Page,
      Page.pressButton ⟨pawnOnSeventh, some ⟨0, 0, 1, 0, pawnOnSeventh.board, none⟩⟩ 3 =
        some page1 ∧
      page1.game.moveHistory.length = pawnOnSeventh.moveHistory.length + 1 ∧
      ∃ t2, t2 ∈ promotionOptions ∧ page1.game.board 0 0 = some ⟨t2, .white⟩ ∧
        t2 ≠ .king ∧ t2 ≠ .pawn := by
  have h := makeMove_places_any_promotionType pawnOnSeventh 1 0 0 0 .pawn ⟨.pawn, .white⟩
    (by decide!) rfl (Or.inl rfl) (by decide) (by decide)
  obtain ⟨page1, h1, hp⟩ := exists_of_holdsOn
    (Page.pressButton ⟨pawnOnSeventh, some ⟨0, 0, 1, 0, pawnOnSeventh.board, none⟩⟩ 3)
    (fun page1 => page1.game.moveHistory.length == pawnOnSeventh.moveHistory.length + 1)
    (by decide!)
  simp only [beq_iff_eq] at hp
  exact ⟨by decide!, h.1, page1, h1, hp, h.2 page1 pawnOnSeventh.board none 3 h1 hp⟩

/-- C26 fails on the code: `evaluateBoard` is the material plus 50 for every pawn
on row 1, whatever its colour.  In `pawnOnSeventh` (the two kings and a white
pawn on a7) the rule of the claim gives -100 and `evaluateBoard` gives -50; and
the advance a6-a7 of that white pawn raises the score by 50. -/
theorem evaluateBoard_counts_white_pawn_on_row_one :
    (∀ g : Game, evaluateBoard g = material g.board + 50 * pawnsOnRowOne g.board) ∧
    pawnOnSeventh.board 1 0 = some ⟨.pawn, .white⟩ ∧
    evaluateSpec pawnOnSeventh = -100 ∧ evaluateBoard pawnOnSeventh = -50 ∧
    evaluateBoard pawnOnSixth = -100 ∧
    ∃ g1, makeMove pawnOnSixth 2 0 1 0 .queen = some g1 ∧
      evaluateBoard g1 = evaluateBoard pawnOnSixth + 50 := by
  refine ⟨evaluateBoard_eq, by decide!, by decide!, by decide!, by decide!, ?_⟩
  obtain ⟨g1, h1, hp⟩ := exists_of_holdsOn (makeMove pawnOnSixth 2 0 1 0 .queen)
    (fun g1 => evaluateBoard g1 == evaluateBoard pawnOnSixth + 50) (by decide!)
  simp only [beq_iff_eq] at hp
  exact ⟨g1, h1, hp⟩

/-- C27 fails on the code: in `leakExample`, `minimax(2, -Infinity, +Infinity,
true)` returns -100 and the same recursion without the two cut-offs returns
-200.  The moves of Black are Kg8, Kg7, Kh7 and c4xb3 (valid through the en
passant target).  The search puts the board back after each move it tries but
not `enPassantTarget`: without the cut-off the replies to Kh7 end with b2-b4,
which leaves the target on b3, so `makeMove` of c4xb3 removes the capturing
pawn; with the cut-off the replies to Kh7 stop at Kd4xc4, the target is `null`,
and the pawn lands on b3. -/
theorem alpha_beta_changes_result :
    leakExample.enPassantTarget = some (5, 1) ∧
    (getAllMoves leakExample .black).1 =
      [⟨0, 7, 0, 6⟩, ⟨0, 7, 1, 6⟩, ⟨0, 7, 1, 7⟩, ⟨4, 2, 5, 1⟩] ∧
    (minimax 2 .negInf .posInf true leakExample).map Prod.fst = some (.fin (-100)) ∧
    (plainMinimax 2 true leakExample).map Prod.fst = some (.fin (-200)) := by
  refine ⟨rfl, by decide!, by decide!, by decide!⟩

/-- C28 fails on the code: in `cornerMateExample` White (the side to move at a
ply with `maximizingPlayer` false) is in check and has no legal move, and
`evaluateBoard()` is 900; yet `minimax(1, -Infinity, +Infinity, false)`
returns 0.  `isCheckmate()` and `isStalemate()` test `currentPlayer`, which is
Black and is never changed by the search, so the three moves of the white king
that `getAllMoves('white')` returns are explored, Ka1xb2 among them. -/
theorem minimax_explores_moves_of_mated_side :
    cornerMateExample.currentPlayer = .black ∧
    (isInCheck cornerMateExample .white).1 = true ∧
    (∀ a ∈ allSquares, ∀ b ∈ allSquares, ∀ t ∈ promotionOptions,
      legalMove { cornerMateExample with currentPlayer := .white } a.1 a.2 b.1 b.2 t = false) ∧
    evaluateBoard cornerMateExample = 900 ∧
    (minimax 1 .negInf .posInf false cornerMateExample).map Prod.fst = some (.fin 0) ∧
    (getAllMoves cornerMateExample .white).1 = [⟨7, 0, 6, 0⟩, ⟨7, 0, 6, 1⟩, ⟨7, 0, 7, 1⟩] := by
  refine ⟨rfl, by decide!, by decide!, by decide!, by decide!, by decide!⟩

/-- C29: with Black to move, `gameOver` false and a non-empty list of moves from
`getAllMoves('black')`, the root loop of `makeAIMove` computes one score for
every move (it fails only where a score cannot be computed) and ends with the
move whose score is greater than every score before it and not less than any
score after it: the first move with the greatest score.  That move is the one
`makeAIMove` then makes with `makeMove` and commits. -/
theorem makeAIMove_chooses_first_maximum (g : Game) (m : Move) (ms : List Move) (ga : Game)
    (hgo : g.gameOver = false) (hcp : g.currentPlayer = .black)
    (hmoves : getAllMoves g .black = (m :: ms, ga)) :
    (rootScores 3 (m :: ms) ga = none → makeAIMove g = none) ∧
    ∀ vs g2, rootScores 3 (m :: ms) ga = some (vs, g2) →
      vs.length = (m :: ms).length ∧
      ∃ pre best post vpre v vpost, m :: ms = pre ++ best :: post ∧
        vs = vpre ++ v :: vpost ∧ vpre.length = pre.length ∧
        (∀ x ∈ vpre, Num.gt v x = true) ∧ (∀ x ∈ vpost, Num.le x v = true) ∧
        rootLoop 3 (m :: ms) none .negInf ga = some (some best, g2) ∧
        ∀ g1, makeAIMove g = some g1 →
          g1.lastMove = some best ∧
          ∃ g3, makeMove g2 best.fromRow best.fromCol best.toRow best.toCol .queen = some g3 ∧
            g1.board = g3.board := by
  have hstart : (g.gameOver || g.currentPlayer != .black) = false := by
    rw [hgo, hcp]; rfl
  obtain ⟨hnone, hsome⟩ := rootLoop_spec 3 (m :: ms) none .negInf ga
  constructor
  · intro h
    unfold makeAIMove
    rw [hstart, hmoves]
    simp only [Bool.false_eq_true, if_false]
    rw [hnone h]
  · intro vs g2 h
    obtain ⟨hlen, hfin, r, hr, hcase⟩ := hsome vs g2 h
    refine ⟨hlen, ?_⟩
    rcases hcase with ⟨_, hall⟩ | ⟨pre, best, post, vpre, v, vpost, e1, e2, e3, e4, _, e6, e7⟩
    · exfalso
      cases vs with
      | nil => simp at hlen
      | cons x rest =>
        obtain ⟨n, hn⟩ := hfin x (List.mem_cons_self _ _)
        have := hall x (List.mem_cons_self _ _)
        rw [hn] at this
        simp [Num.le] at this
    · subst e4
      refine ⟨pre, best, post, vpre, v, vpost, e1, e2, e3, e6, e7, hr, ?_⟩
      intro g1 h1
      unfold makeAIMove at h1
      rw [hstart, hmoves] at h1
      simp only [Bool.false_eq_true, if_false] at h1
      rw [hr] at h1
      dsimp only at h1
      cases h3 : makeMove g2 best.fromRow best.fromCol best.toRow best.toCol .queen with
      | none => rw [h3] at h1; simp at h1
      | some g3 =>
        rw [h3] at h1
        dsimp only at h1
        exact ⟨commitMove_lastMove h1, g3, rfl, (commitMove_fields h1).1⟩

theorem makeAIMove_chooses_first_maximum_witness :
    ∃ (m : Move) (ms : List Move) (ga : Game) (vs : List Num) (g2 : Game),
      getAllMoves kingsOnly .black = (m :: ms, ga) ∧
      rootScores 3 (m :: ms) ga = some (vs, g2) ∧ vs.length = (m :: ms).length ∧
      ∃ pre best post vpre v vpost, m :: ms = pre ++ best :: post ∧
        vs = vpre ++ v :: vpost ∧ vpre.length = pre.length ∧
        (∀ x ∈ vpre, Num.gt v x = true) ∧ (∀ x ∈ vpost, Num.le x v = true) ∧
        rootLoop 3 (m :: ms) none .negInf ga = some (some best, g2) ∧
        ∀ g1, makeAIMove kingsOnly = some g1 →
          g1.lastMove = some best ∧
          ∃ g3, makeMove g2 best.fromRow best.fromCol best.toRow best.toCol .queen = some g3 ∧
            g1.board = g3.board := by
  have hl : (getAllMoves kingsOnly .black).1 = [⟨0, 0, 0, 1⟩, ⟨0, 0, 1, 0⟩, ⟨0, 0, 1, 1⟩] := by
    decide!
  have hm : getAllMoves kingsOnly .black =
      (⟨0, 0, 0, 1⟩ :: [⟨0, 0, 1, 0⟩, ⟨0, 0, 1, 1⟩], (getAllMoves kingsOnly .black).2) :=
    Prod.ext hl rfl
  have hs : (rootScores 3 [⟨0, 0, 0, 1⟩, ⟨0, 0, 1, 0⟩, ⟨0, 0, 1, 1⟩]
      (getAllMoves kingsOnly .black).2).isSome = true := by decide!
  obtain ⟨⟨vs, g2⟩, hvs⟩ := Option.isSome_iff_exists.mp hs
  have h := makeAIMove_chooses_first_maximum kingsOnly _ _ _ rfl rfl hm
  obtain ⟨hlen, hrest⟩ := h.2 vs g2 hvs
  exact ⟨_, _, _, vs, g2, hm, hvs, hlen, hrest⟩

/-- C30 fails on the code: on the initial state `getAllMoves('white')` starts with
a2-a3, a2-a4; for the one origin a2 the destination on row 5 comes before the
destination on row 4, so the list is not in row-major order of destinations. -/
theorem getAllMoves_not_row_major :
    (getAllMoves (newChessGame true) .white).1.take 2 = [⟨6, 0, 5, 0⟩, ⟨6, 0, 4, 0⟩] ∧
    rowMajorLe ⟨6, 0, 5, 0⟩ ⟨6, 0, 4, 0⟩ = false ∧
    ¬ (getAllMoves (newChessGame true) .white).1.Pairwise (fun a b => rowMajorLe a b = true) := by
  refine ⟨by decide!, by decide!, ?_⟩
  intro h
  have h2 : (getAllMoves (newChessGame true) .white).1 =
      [⟨6, 0, 5, 0⟩, ⟨6, 0, 4, 0⟩] ++ (getAllMoves (newChessGame true) .white).1.drop 2 := by
    decide!
  rw [h2] at h
  have h3 := (List.pairwise_append.mp h).1
  have h4 := List.rel_of_pairwise_cons h3 (List.mem_cons_self _ _)
  revert h4
  decide

/-- C30 as amended: the moves `getAllMoves(color)` returns are ordered row-major
by origin square, and the destinations of the moves of one origin come in the
order in which `getPossibleMoves` lists its candidates for that square (they
are a sublist of that list). -/
theorem getAllMoves_order (g : Game) (color : Color) :
    (getAllMoves g color).1.Pairwise (fun a b => originLe a b = true) ∧
    ∀ row col : Int,
      (((getAllMoves g color).1.filter fun m => m.fromRow == row && m.fromCol == col).map
        fun m => (m.toRow, m.toCol)).Sublist (getPossibleMoves g row col) := by
  have hs : allSquares.Pairwise fun a b => a.1 < b.1 ∨ (a.1 = b.1 ∧ a.2 < b.2) := by
    decide
  obtain ⟨_, h2, h3⟩ := getAllMovesLoop_order color allSquares hs g
  exact ⟨h2, h3⟩

set_option maxRecDepth 100000 in
/-- C31 fails on the code: the search runs `makeMove`, `isCheckmate`, `isStalemate`
and `getAllMoves` on the live game and puts back `board` only.  `board`,
`currentPlayer`, `hasMoved`, `moveHistory` and `moveNotation` are the same after
`minimax` and after the root loop of `makeAIMove`; `gameOver` and
`enPassantTarget` are not.  In `rookCheck` the search lets the rook take the
black king, the next `isCheckmate()` finds no king, and `gameOver` is true after
`minimax(2, …, false)` and after the root loop; `makeAIMove` then plays Kb8 and
leaves `gameOver` true with White to move and neither mate nor stalemate.  In
`leakExample` the target b3 is gone after `minimax(2, …, true)`. -/
theorem search_writes_gameOver_and_enPassantTarget :
    (∀ (depth : Nat) (alpha beta : Num) (maximizingPlayer : Bool) (g : Game) (r : Num)
      (g1 : Game), minimax depth alpha beta maximizingPlayer g = some (r, g1) →
      g1.board = g.board ∧ g1.currentPlayer = g.currentPlayer ∧ g1.hasMoved = g.hasMoved ∧
      g1.moveHistory = g.moveHistory ∧ g1.moveNotation = g.moveNotation) ∧
    (∀ (depth : Nat) (l : List Move) (bestMove : Option Move) (bestValue : Num) (g : Game)
      (r : Option Move) (g1 : Game), rootLoop depth l bestMove bestValue g = some (r, g1) →
      g1.board = g.board ∧ g1.currentPlayer = g.currentPlayer ∧ g1.hasMoved = g.hasMoved ∧
      g1.moveHistory = g.moveHistory ∧ g1.moveNotation = g.moveNotation) ∧
    rookCheck.gameOver = false ∧
    (minimax 2 .negInf .posInf false rookCheck).map (fun r => r.2.gameOver) = some true ∧
    (rootLoop 3 (getAllMoves rookCheck .black).1 none .negInf
      (getAllMoves rookCheck .black).2).map (fun r => r.2.gameOver) = some true ∧
    holdsOn (makeAIMove rookCheck) (fun g => g.gameOver && g.currentPlayer == .white &&
      g.moveNotation == ["Kb8"] && !(isCheckmate g).1 && !(isStalemate g).1) = true ∧
    leakExample.enPassantTarget = some (5, 1) ∧
    (minimax 2 .negInf .posInf true leakExample).map (fun r => r.2.enPassantTarget) =
      some none := by
  refine ⟨?_, ?_, rfl, by decide!, by decide!, by decide!, rfl, by decide!⟩
  · intro depth alpha beta mp g r g1 h
    have hc := minimax_core depth alpha beta mp g r g1 h
    exact ⟨core_board hc, core_currentPlayer hc, core_hasMoved hc, core_moveHistory hc,
      core_moveNotation hc⟩
  · intro depth l bestMove bestValue g r g1 h
    have hc := rootLoop_core depth l bestMove bestValue g r g1 h
    exact ⟨core_board hc, core_currentPlayer hc, core_hasMoved hc, core_moveHistory hc,
      core_moveNotation hc⟩

set_option maxRecDepth 100000 in
/-- C32 fails on the code: in `lostCapture` Black has one legal move, the
capture h4xg3 on the en passant target, and `findBestMove(1)` returns `null`.
The scan asks `isValidMove` about b7-b5 first (valid, though the pawn is pinned);
that call moves `enPassantTarget` to b6, so when the scan comes to the pawn on
h4 the capture is no longer valid. -/
theorem findBestMove_misses_the_only_legal_move :
    lostCapture.currentPlayer = .black ∧ lostCapture.gameOver = false ∧
    lostCapture.enPassantTarget = some (5, 6) ∧
    (∀ t ∈ promotionOptions, legalMoves lostCapture t = [⟨4, 7, 5, 6⟩]) ∧
    (isValidMove lostCapture 1 1 3 1).1 = true ∧
    (findBestMove lostCapture 1).map Prod.fst = some none ∧
    (findBestMove lostCapture 1).map (fun r => r.2.enPassantTarget) = some (some (2, 1)) := by
  refine ⟨rfl, rfl, rfl, by decide!, by decide!, by decide!, by decide!⟩

set_option maxRecDepth 100000 in
/-- C33 fails on the code: `makeAIMove` takes its moves from `getAllMoves('black')`,
which does not test whether the king is left attacked.  In `blackMated` Black is
to move, `gameOver` is false, `isCheckmate()` is true and no move is legal; yet
`makeAIMove` plays Ka8-b8 next to the white queen and commits it.  When
`getAllMoves('black')` is empty `makeAIMove` does return without a move and
without an error, and writes at most `enPassantTarget` and `gameOver`. -/
theorem makeAIMove_moves_a_mated_king :
    (∀ g : Game, g.gameOver = false → g.currentPlayer = .black →
      (getAllMoves g .black).1 = [] →
      ∃ g1, makeAIMove g = some g1 ∧ g1.board = g.board ∧
        g1.currentPlayer = g.currentPlayer ∧ g1.moveHistory = g.moveHistory ∧
        g1.moveNotation = g.moveNotation) ∧
    blackMated.gameOver = false ∧ blackMated.currentPlayer = .black ∧
    (isCheckmate blackMated).1 = true ∧
    (∀ t ∈ promotionOptions, legalMoves blackMated t = []) ∧
    (getAllMoves blackMated .black).1 = [⟨0, 0, 0, 1⟩, ⟨0, 0, 1, 0⟩, ⟨0, 0, 1, 1⟩] ∧
    holdsOn (makeAIMove blackMated) (fun g1 => (g1.board 0 0).isNone &&
      g1.board 0 1 == some ⟨.king, .black⟩ && g1.currentPlayer == .white &&
      g1.moveNotation == ["Kb8"] && g1.moveHistory.length == 1 &&
      (isInCheck g1 .black).1) = true := by
  refine ⟨?_, rfl, rfl, by decide!, by decide!, by decide!, by decide!⟩
  intro g hgo hcp hl
  have hm : getAllMoves g .black = ([], (getAllMoves g .black).2) := Prod.ext hl rfl
  have hc := getAllMoves_core g .black
  refine ⟨(getAllMoves g .black).2, ?_, core_board hc, core_currentPlayer hc,
    core_moveHistory hc, core_moveNotation hc⟩
  unfold makeAIMove
  rw [hgo, hcp, hm]
  rfl

/-- C34 fails on the code for a move that promotes: `addMoveNotation` reads the
piece on the destination after `makeMove` has replaced the pawn, so the move of
the pawn a7 to a8 is written "Qa8" when the queen is chosen and "Ka8" when the
knight is chosen, not "a8".  With a pawn on the destination the text is the one
of the claim. -/
theorem addMoveNotation_names_the_promoted_piece :
    (∀ (g : Game) (fromCol toRow toCol : Int) (capturedPiece : Option Piece) (p : Piece),
      g.board toRow toCol = some p → p.type = .pawn →
      moveText g fromCol toRow toCol capturedPiece false false =
        some (if capturedPiece.isSome then
            fileLetter fromCol ++ "x" ++ fileLetter toCol ++ toString (8 - toRow)
          else fileLetter toCol ++ toString (8 - toRow))) ∧
    pawnOnSeventh.board 1 0 = some ⟨.pawn, .white⟩ ∧
    fileLetter 0 ++ toString ((8 : Int) - 0) = "a8" ∧
    (clicks pawnOnSeventh [(1, 0), (0, 0)]).map Game.moveNotation = some ["Qa8"] ∧
    ((handleSquareClick pawnOnSeventh 1 0 .queen).bind fun g =>
      handleSquareClick g 0 0 .knight).map Game.moveNotation = some ["Ka8"] := by
  refine ⟨?_, by decide!, by decide!, by decide!, by decide!⟩
  intro g fromCol toRow toCol capturedPiece p hp ht
  unfold moveText
  rw [hp]
  simp [ht]

/-- C35 fails on the code: the bonus is 50 for a pawn that stands on row 1 and
nothing for a pawn on any other row, so every one-square advance of a black
pawn from row 1 lowers `evaluateBoard()` by 50.  On a new game the score is 400
and after a7-a6 it is 350. -/
theorem evaluateBoard_falls_when_black_pawn_advances :
    (∀ (g : Game) (col : Int), col ∈ range8 → g.board 1 col = some ⟨.pawn, .black⟩ →
      g.board 2 col = none →
      ∃ g1, makeMove g 1 col 2 col .queen = some g1 ∧
        g1.board = ((g.board).set 2 col (some ⟨.pawn, .black⟩)).set 1 col none ∧
        evaluateBoard g1 = evaluateBoard g - 50) ∧
    (newChessGame true).board 1 0 = some ⟨.pawn, .black⟩ ∧
    (newChessGame true).board 2 0 = none ∧
    evaluateBoard (newChessGame true) = 400 ∧
    (makeMove (newChessGame true) 1 0 2 0 .queen).map evaluateBoard = some 350 := by
  refine ⟨evaluateBoard_advance, by decide!, by decide!, by decide!, by decide!⟩

/-- C36 fails on the code: the two enumerations ask `isValidMove` in different
orders, and `isValidMove` writes `enPassantTarget`.  On a new game the scan of
the 64 destinations finds 27 moves for Black, among them b7xa6 (asked right
after a7-a5 was found valid), and `getAllMoves('black')` returns 20, without it.
After 1. Nc3 a6 `getAllMoves('white')` returns c2xb3, which `isValidMove`
refuses when asked on that state. -/
theorem getAllMoves_differs_from_scan :
    (⟨1, 1, 2, 0⟩ : Move) ∈ (scanMoves (newChessGame true) .black).1 ∧
    (⟨1, 1, 2, 0⟩ : Move) ∉ (getAllMoves (newChessGame true) .black).1 ∧
    (scanMoves (newChessGame true) .black).1.length = 27 ∧
    (getAllMoves (newChessGame true) .black).1.length = 20 ∧
    (∀ m ∈ (getAllMoves (newChessGame true) .black).1,
      m ∈ (scanMoves (newChessGame true) .black).1) ∧
    holdsOn (clicks (newChessGame false) knightC3Clicks) (fun g =>
      g.currentPlayer == .white && g.enPassantTarget == none &&
      (getAllMoves g .white).1.contains ⟨6, 2, 5, 1⟩ && !(isValidMove g 6 2 5 1).1) = true := by
  refine ⟨by decide!, by decide!, by decide!, by decide!, by decide!, by decide!⟩

/-- C37 fails on the code: `isValidCastling` reads the `hasMoved` flags and never
the corner square.  With the two kings alone on e1 and e8 and no flag set it
accepts e1-g1, and `makeMove` moves the king and no rook.  In the game
1. g4 b6 2. Bh3 Bb7 3. e3 Bxh1 4. Ne2 a6 the rook is captured on h1 without
having moved; `isValidCastling` accepts 5. O-O, and the click commits it: the
king goes to g1 and the black bishop is carried from h1 to f1. -/
theorem isValidCastling_without_rook :
    noRook.board 7 7 = none ∧ noRook.board 7 0 = none ∧
    (isValidCastling noRook 7 4 7 6).1 = true ∧
    holdsOn (makeMove noRook 7 4 7 6)
      (fun g => g.board 7 6 == some ⟨.king, .white⟩ && (g.board 7 5).isNone) = true ∧
    holdsOn (clicks (newChessGame false) capturedRookClicks) (fun g =>
      g.board 7 7 == some ⟨.bishop, .black⟩ && g.hasMoved == noneMoved &&
      g.currentPlayer == .white && !g.gameOver && (isValidCastling g 7 4 7 6).1) = true ∧
    holdsOn (clicks (newChessGame false) (capturedRookClicks ++ [(7, 4), (7, 6)])) (fun g =>
      g.board 7 6 == some ⟨.king, .white⟩ && g.board 7 5 == some ⟨.bishop, .black⟩ &&
      (g.board 7 7).isNone && g.moveNotation.getLast? == some "O-O") = true := by
  refine ⟨by decide!, by decide!, by decide!, by decide!, by decide!, by decide!⟩

/-- C38 fails on the code: a king that has not moved gets the castling candidates
`(row, col - 2)` and `(row, col + 2)` whatever its column.  With a black king on
a8 and no flag of `hasMoved` set, `getPossibleMoves(0, 0)` lists `(0, -2)`,
`isValidMove` accepts it, `getAllMoves('black')` returns it, and `makeMove`
stores the king in column -2 and leaves no black piece on the 64 squares.
Every other candidate, and so every other move of `getAllMoves`, is on the
board. -/
theorem getPossibleMoves_castling_candidate_off_board :
    (∀ (g : Game) (row col : Int) (d : Int × Int), isInBounds row col = true →
      d ∈ getPossibleMoves g row col →
      isInBounds d.1 d.2 = true ∨
      ∃ p, g.board row col = some p ∧ p.type = .king ∧ d.1 = row ∧
        (d.2 = col - 2 ∨ d.2 = col + 2)) ∧
    (∀ (g : Game) (color : Color) (m : Move), m ∈ (getAllMoves g color).1 →
      isInBounds m.fromRow m.fromCol = true ∧
      (isInBounds m.toRow m.toCol = true ∨
        ∃ p, g.board m.fromRow m.fromCol = some p ∧ p.type = .king ∧ m.toRow = m.fromRow ∧
          (m.toCol = m.fromCol - 2 ∨ m.toCol = m.fromCol + 2))) ∧
    cornerKing.board 0 0 = some ⟨.king, .black⟩ ∧ cornerKing.hasMoved = noneMoved ∧
    getPossibleMoves cornerKing 0 0 = [(0, 1), (1, 0), (1, 1), (0, -2), (0, 2)] ∧
    isInBounds 0 (-2) = false ∧
    (isValidMove cornerKing 0 0 0 (-2)).1 = true ∧
    (⟨0, 0, 0, -2⟩ : Move) ∈ (getAllMoves cornerKing .black).1 ∧
    holdsOn (makeMove cornerKing 0 0 0 (-2)) (fun g =>
      g.board 0 (-2) == some ⟨.king, .black⟩ &&
      allSquares.all (fun sq => !hasColor g.board .black sq.1 sq.2)) = true := by
  refine ⟨fun g row col d hb hd => getPossibleMoves_inBounds g row col hb d hd, ?_,
    by decide!, rfl, by decide!, by decide!, by decide!, by decide!, by decide!⟩
  intro g color m hm
  obtain ⟨h1, h2⟩ := getAllMoves_candidates g color m hm
  exact ⟨h1, getPossibleMoves_inBounds g m.fromRow m.fromCol h1 _ h2⟩

/-- C39 fails on the code: a call of `isValidMove` that finds a two-square pawn
advance valid writes `enPassantTarget`.  On a new game the query about e2-e4
leaves the target on e3, and the query about d2xe3, answered with no before it,
is answered with yes after it.  The other fields are left alone: `board`,
`hasMoved`, `currentPlayer`, `moveHistory` and `moveNotation` by every call, and
`gameOver` by every call whose origin is one of the 64 squares. -/
theorem isValidMove_writes_enPassantTarget :
    (∀ (g : Game) (a b c d : Int) (s : Bool), a ∈ range8 → b ∈ range8 →
      (isValidMove g a b c d s).2 =
        { g with enPassantTarget := (isValidMove g a b c d s).2.enPassantTarget }) ∧
    (newChessGame true).enPassantTarget = none ∧
    (isValidMove (newChessGame true) 6 4 4 4).1 = true ∧
    (isValidMove (newChessGame true) 6 4 4 4).2.enPassantTarget = some (5, 4) ∧
    (isValidMove (newChessGame true) 6 3 5 4).1 = false ∧
    (isValidMove (isValidMove (newChessGame true) 6 4 4 4).2 6 3 5 4).1 = true := by
  refine ⟨?_, rfl, by decide!, by decide!, by decide!, by decide!⟩
  intro g a b c d s ha hb
  have h1 := isValidMove_core g a b c d s
  have h2 := isValidMove_gameOver g c d s ha hb
  generalize (isValidMove g a b c d s).2 = g1 at h1 h2
  cases g1
  cases g
  simp only [Game.core, Game.mk.injEq] at h1 h2 ⊢
  obtain ⟨k1, k2, k3, k4, k5, k6, k7, k8, k9, k10⟩ := h1
  simp only [k1, k2, k3, k4, k5, k6, k7, k8, k9, k10, h2, and_self]

/-- C40 fails on the code: for an en passant capture `makeMove` empties the
destination itself.  After e2-e4, d7-d5, e4-e5, f7-f5 the capture e5xf6 is
valid; `makeMove` leaves f6 empty, the captured pawn stays on f5, and the white
pawn that moved is on no square.  The other parts hold: `makeMove` writes the
origin and the destination only, and for a king that goes two columns also the
square of its row in the destination column, the square next to the origin and
the corner; and a move that is neither of the two special kinds leaves the
piece that moved on the destination. -/
theorem makeMove_enPassant_loses_the_moved_piece :
    (∀ (g g1 : Game) (a b c d i j : Int) (t : PieceType) (p : Piece),
      g.board a b = some p → makeMove g a b c d t = some g1 →
      ¬(i = a ∧ j = b) → ¬(i = c ∧ j = d) →
      (p.type = .king → (b - d).natAbs = 2 →
        ¬(i = a ∧ j = d) ∧ ¬(i = a ∧ j = (if d > b then b + 1 else b - 1)) ∧
        ¬(i = a ∧ j = (if d > b then 7 else 0))) →
      g1.board i j = g.board i j) ∧
    (∀ (g g1 : Game) (a b c d : Int) (t : PieceType) (p : Piece),
      g.board a b = some p → makeMove g a b c d t = some g1 → ¬(a = c ∧ b = d) →
      ¬(p.type = .king ∧ (b - d).natAbs = 2) →
      ¬(p.type = .pawn ∧ d ≠ b ∧ g.board c d = none ∧ g.enPassantTarget = some (c, d)) →
      g1.board a b = none ∧
      g1.board c d =
        some (if p.type = .pawn ∧ (c = 0 ∨ c = 7) then { p with type := t } else p)) ∧
    holdsOn enPassantSetup (fun g =>
      g.enPassantTarget == some (2, 5) && g.board 3 4 == some ⟨.pawn, .white⟩ &&
      g.board 3 5 == some ⟨.pawn, .black⟩ && (isValidMove g 3 4 2 5).1 &&
      holdsOn (makeMove g 3 4 2 5) (fun g1 =>
        (g1.board 2 5).isNone && (g1.board 3 4).isNone &&
        g1.board 3 5 == some ⟨.pawn, .black⟩ &&
        pieceCount g1.board + 1 == pieceCount g.board)) = true := by
  refine ⟨?_, ?_, by decide!⟩
  · intro g g1 a b c d i j t p hp h h1 h2 h3
    exact makeMove_frame hp h i j h1 h2 h3
  · intro g g1 a b c d t p hp h hne hcast hep
    exact makeMove_destination hp h hne hcast hep

end ChessGame
